import Mathlib

/-!
Verification of the entanglement-calculator core against its source.

The development shallowly embeds the TypeScript source:

* `Point` is the `[row, col]` pair type used by the canonicalizer and miners.
* JavaScript `JSON.stringify` keys for point lists are modelled by `encPts`
  (decimal rendering of integers, `[`/`]`/`,` punctuation) as `List Char`,
  and JavaScript string comparison `<` (code-unit lexicographic) by `chLt`.
* JavaScript `Array.prototype.sort` with the comparator
  `(a, b) => a[0] - b[0] || a[1] - b[1]` is modelled by `sortPts`
  (the comparator is antisymmetric on distinct values, so the sorted result
  is unique and stability is irrelevant).
* JS `Map`s keyed by `JSON.stringify(v)` are modelled by association lists
  keyed by `v` itself; `encPts` is proved injective (`encPts_inj`), so the
  string-keyed map and the value-keyed map have identical behaviour, and
  `JSON.parse` of a key recovers exactly the value.
-/

/-- A point `[row, col]` with signed integer coordinates. -/
abbrev Point := Int × Int

/-- The eight D4 transforms, in the order of the source list `transforms`
(f0 identity, f1 `[-r,c]`, f2 `[r,-c]`, f3 `[-r,-c]`, f4 `[c,r]`,
f5 `[-c,r]`, f6 `[c,-r]`, f7 `[-c,-r]`). -/
def transforms : List (Point → Point) :=
  [fun p => (p.1, p.2),
   fun p => (-p.1, p.2),
   fun p => (p.1, -p.2),
   fun p => (-p.1, -p.2),
   fun p => (p.2, p.1),
   fun p => (-p.2, p.1),
   fun p => (p.2, -p.1),
   fun p => (-p.2, -p.1)]

/-- The transform at index `t` (identity when out of range; the source only
indexes `0 ≤ t < 8`). -/
def tfAt (t : Nat) : Point → Point := transforms.getD t id

/-- Boolean form of the sort comparator `(a, b) => a[0] - b[0] || a[1] - b[1]`:
lexicographic less-or-equal on points. -/
def ptLeb (a b : Point) : Bool := a.1 < b.1 || (a.1 = b.1 && a.2 ≤ b.2)

/-- Sorting a point list with the source's lexicographic comparator.
The comparator returns 0 only on identical points, so the sorted result is
the unique sorted permutation; insertion sort computes it and, unlike
`List.mergeSort`, reduces in the kernel. -/
def sortPts (l : List Point) : List Point := l.insertionSort (fun a b => ptLeb a b)

/-- Minimum of a list of integers (the source only applies `Math.min` to
non-empty lists; the value on `[]` is irrelevant). -/
def minList : List Int → Int
  | [] => 0
  | x :: xs => xs.foldl min x

theorem ptLeb_trans (a b c : Point) : ptLeb a b → ptLeb b c → ptLeb a c := by
  simp only [ptLeb, Bool.or_eq_true, Bool.and_eq_true, decide_eq_true_eq]
  omega

theorem ptLeb_total (a b : Point) : ptLeb a b || ptLeb b a := by
  simp only [ptLeb, Bool.or_eq_true, Bool.and_eq_true, decide_eq_true_eq]
  omega

theorem ptLeb_antisymm (a b : Point) : ptLeb a b → ptLeb b a → a = b := by
  simp only [ptLeb, Bool.or_eq_true, Bool.and_eq_true, decide_eq_true_eq]
  rcases a with ⟨a1, a2⟩; rcases b with ⟨b1, b2⟩
  simp only [Prod.mk.injEq]
  omega

instance : IsTotal Point (fun a b => ptLeb a b = true) :=
  ⟨fun a b => by have := ptLeb_total a b; revert this; cases ptLeb a b <;> simp⟩

instance : IsTrans Point (fun a b => ptLeb a b = true) := ⟨ptLeb_trans⟩

instance : IsAntisymm Point (fun a b => ptLeb a b = true) := ⟨ptLeb_antisymm⟩

theorem sortPts_perm (l : List Point) : List.Perm (sortPts l) l :=
  List.perm_insertionSort _ l

theorem sortPts_sorted (l : List Point) : (sortPts l).Pairwise (fun a b => ptLeb a b) :=
  List.sorted_insertionSort _ l

/-- Two sorted permutations of the same point multiset are equal:
sorting yields a canonical list, so modelling JS sort by merge sort is exact. -/
theorem sorted_eq_of_perm {l1 l2 : List Point} (hp : List.Perm l1 l2)
    (h1 : l1.Pairwise (fun a b => ptLeb a b)) (h2 : l2.Pairwise (fun a b => ptLeb a b)) :
    l1 = l2 :=
  List.eq_of_perm_of_sorted hp h1 h2

theorem sortPts_eq_of_perm {l1 l2 : List Point} (hp : List.Perm l1 l2) :
    sortPts l1 = sortPts l2 :=
  sorted_eq_of_perm ((sortPts_perm l1).trans (hp.trans (sortPts_perm l2).symm))
    (sortPts_sorted l1) (sortPts_sorted l2)

theorem sortPts_of_sorted {l : List Point} (h : l.Pairwise (fun a b => ptLeb a b)) :
    sortPts l = l :=
  sorted_eq_of_perm (sortPts_perm l) (sortPts_sorted l) h

theorem sortPts_idem (l : List Point) : sortPts (sortPts l) = sortPts l :=
  sortPts_of_sorted (sortPts_sorted l)

theorem foldl_min_le_init (ys : List Int) (start : Int) : List.foldl min start ys ≤ start := by
  induction ys generalizing start with
  | nil => simp
  | cons b bs ih => exact le_trans (ih (min start b)) (min_le_left _ _)

theorem foldl_min_le_mem (ys : List Int) (start : Int) :
    ∀ y ∈ ys, List.foldl min start ys ≤ y := by
  induction ys generalizing start with
  | nil => intro y hy; cases hy
  | cons b bs ih =>
    intro y hy
    rcases List.mem_cons.mp hy with rfl | h
    · exact le_trans (foldl_min_le_init bs (min start y)) (min_le_right _ _)
    · exact ih (min start b) y h

theorem foldl_min_mem (ys : List Int) (start : Int) :
    List.foldl min start ys = start ∨ List.foldl min start ys ∈ ys := by
  induction ys generalizing start with
  | nil => simp
  | cons b bs ih =>
    simp only [List.foldl_cons]
    rcases ih (min start b) with h | h
    · rcases le_total start b with hle | hle
      · left; rw [h, min_eq_left hle]
      · right; rw [h, min_eq_right hle]; exact List.mem_cons_self _ _
    · right; exact List.mem_cons_of_mem _ h

theorem minList_le {l : List Int} {x : Int} (hx : x ∈ l) : minList l ≤ x := by
  match l with
  | a :: as =>
    simp only [minList]
    rcases List.mem_cons.mp hx with rfl | h
    · exact foldl_min_le_init as x
    · exact foldl_min_le_mem as a x h

theorem minList_mem {l : List Int} (hl : l ≠ []) : minList l ∈ l := by
  match l with
  | a :: as =>
    simp only [minList]
    rcases foldl_min_mem as a with h | h
    · rw [h]; exact List.mem_cons_self _ _
    · exact List.mem_cons_of_mem _ h

/-- Translating every element of a list shifts its minimum. -/
theorem minList_map_add (l : List Int) (k : Int) (hl : l ≠ []) :
    minList (l.map (fun x => x + k)) = minList l + k := by
  have h1 : minList (l.map (fun x => x + k)) ≤ minList l + k :=
    minList_le (List.mem_map_of_mem _ (minList_mem hl))
  have h2 : minList l + k ≤ minList (l.map (fun x => x + k)) := by
    have hne : l.map (fun x => x + k) ≠ [] := by
      simp [List.map_eq_nil_iff]; exact hl
    rcases List.mem_map.mp (minList_mem hne) with ⟨y, hy, he⟩
    have := minList_le hy
    omega
  omega

theorem minList_perm {l1 l2 : List Int} (hp : List.Perm l1 l2) : minList l1 = minList l2 := by
  rcases List.eq_nil_or_concat l1 with rfl | _
  · rw [hp.nil_eq]
  · have hne1 : l1 ≠ [] := by rintro rfl; simp_all
    have hne2 : l2 ≠ [] := by rintro rfl; exact hne1 hp.eq_nil
    have h1 : minList l1 ≤ minList l2 := minList_le (hp.mem_iff.mpr (minList_mem hne2))
    have h2 : minList l2 ≤ minList l1 := minList_le (hp.mem_iff.mp (minList_mem hne1))
    omega

/-!
JSON string keys. `JSON.stringify` of a point list renders integers in
decimal (possibly with a leading minus sign) separated by `,` inside
`[`/`]` brackets; JS string `<` compares code units lexicographically,
with a proper prefix smaller than its extension.
-/

/-- Little-endian decimal digits via repeated division; `fuel ≥ n` suffices,
making the function structurally recursive and kernel-computable. -/
def digitsRev (fuel n : Nat) : List Nat :=
  match fuel with
  | 0 => []
  | fuel + 1 => if n = 0 then [] else n % 10 :: digitsRev fuel (n / 10)

theorem digitsRev_eq (fuel : Nat) : ∀ n, n ≤ fuel → digitsRev fuel n = Nat.digits 10 n := by
  induction fuel with
  | zero => intro n hn; interval_cases n; simp [digitsRev]
  | succ fuel ih =>
    intro n hn
    by_cases h0 : n = 0
    · subst h0; simp [digitsRev]
    · unfold digitsRev
      rw [if_neg h0, Nat.digits_def' (by norm_num : (1:Nat) < 10) (Nat.pos_of_ne_zero h0),
        ih (n / 10) (by omega)]

/-- Decimal digits of a natural number, most significant first, as characters. -/
def natChars (n : Nat) : List Char :=
  if n = 0 then ['0'] else ((digitsRev n n).map Nat.digitChar).reverse

/-- `natChars` agrees with the `Nat.digits`-based description. -/
theorem natChars_digits (n : Nat) :
    natChars n = if n = 0 then ['0'] else ((Nat.digits 10 n).map Nat.digitChar).reverse := by
  unfold natChars
  rw [digitsRev_eq n n le_rfl]

/-- JSON rendering of an integer. -/
def intChars (i : Int) : List Char :=
  if i < 0 then '-' :: natChars (-i).toNat else natChars i.toNat

/-- JSON rendering of a point `[r,c]`. -/
def encPt (p : Point) : List Char :=
  '[' :: (intChars p.1 ++ ',' :: (intChars p.2 ++ [']']))

/-- Comma-separated concatenation, as in `JSON.stringify` of an array. -/
def joinComma : List (List Char) → List Char
  | [] => []
  | [x] => x
  | x :: xs => x ++ ',' :: joinComma xs

/-- JSON rendering of a point list `[[r,c],...]`; this is the string key the
source builds with `JSON.stringify`. -/
def encPts (l : List Point) : List Char :=
  '[' :: (joinComma (l.map encPt) ++ [']'])

/-- JavaScript string comparison `s < t`: code-unit lexicographic. -/
def chLt : List Char → List Char → Bool
  | [], [] => false
  | [], _ :: _ => true
  | _ :: _, [] => false
  | a :: as, b :: bs => if a < b then true else if b < a then false else chLt as bs

theorem chLt_conn : ∀ (a b : List Char), chLt a b = false → chLt b a = false → a = b := by
  intro a
  induction a with
  | nil => intro b h1 _; cases b with
    | nil => rfl
    | cons x xs => simp [chLt] at h1
  | cons x xs ih =>
    intro b h1 h2
    cases b with
    | nil => simp [chLt] at h2
    | cons y ys =>
      simp only [chLt] at h1 h2
      by_cases hxy : x < y
      · simp [hxy] at h1
      · by_cases hyx : y < x
        · simp [hyx, hxy] at h2
        · have hxyeq : x = y := le_antisymm (not_lt.mp hyx) (not_lt.mp hxy)
          subst hxyeq
          simp [hxy] at h1 h2
          rw [ih ys h1 h2]

theorem digitChar_val (d : Nat) (hd : d < 10) :
    48 ≤ (Nat.digitChar d).val.toNat ∧ (Nat.digitChar d).val.toNat ≤ 57 := by
  interval_cases d <;> decide

theorem digitChar_inj (a b : Nat) (ha : a < 10) (hb : b < 10)
    (h : Nat.digitChar a = Nat.digitChar b) : a = b := by
  interval_cases a <;> interval_cases b <;> revert h <;> decide

theorem natChars_digit {n : Nat} {c : Char} (hc : c ∈ natChars n) :
    48 ≤ c.val.toNat ∧ c.val.toNat ≤ 57 := by
  rw [natChars_digits] at hc
  by_cases h0 : n = 0
  · simp [h0] at hc; subst hc; decide
  · simp only [h0, if_false, List.mem_reverse, List.mem_map] at hc
    rcases hc with ⟨d, hd, rfl⟩
    exact digitChar_val d (Nat.digits_lt_base (by norm_num) hd)

theorem natChars_ne_nil (n : Nat) : natChars n ≠ [] := by
  rw [natChars_digits]
  by_cases h0 : n = 0
  · simp [h0]
  · simp only [h0, if_false]
    simp only [ne_eq, List.reverse_eq_nil_iff, List.map_eq_nil_iff]
    exact Nat.digits_ne_nil_iff_ne_zero.mpr h0

theorem natChars_inj {m n : Nat} (h : natChars m = natChars n) : m = n := by
  rw [natChars_digits, natChars_digits] at h
  by_cases hm : m = 0 <;> by_cases hn : n = 0
  · omega
  · exfalso
    simp only [hm, if_true, hn, if_false] at h
    rcases List.eq_nil_or_concat (Nat.digits 10 n) with hnil | ⟨ds, d, hds⟩
    · exact hn (Nat.digits_eq_nil_iff_eq_zero.mp hnil)
    · rw [hds] at h
      simp only [List.concat_eq_append, List.map_append, List.map_cons, List.map_nil,
        List.reverse_append, List.reverse_cons, List.reverse_nil, List.nil_append,
        List.cons_append] at h
      have hd10 : d < 10 := Nat.digits_lt_base (by norm_num)
        (by rw [hds]; simp [List.concat_eq_append])
      rcases List.cons_eq_cons.mp h with ⟨h1, h2⟩
      have hd0 : d = 0 := digitChar_inj d 0 hd10 (by norm_num) h1.symm
      have hds0 : ds = [] := by
        have := h2.symm
        simp only [List.reverse_eq_nil_iff, List.map_eq_nil_iff] at this
        exact this
      have := Nat.ofDigits_digits 10 n
      rw [hds, hds0, hd0] at this
      simp [Nat.ofDigits] at this
      exact hn this.symm
  · exfalso
    simp only [hm, if_false, hn, if_true] at h
    rcases List.eq_nil_or_concat (Nat.digits 10 m) with hnil | ⟨ds, d, hds⟩
    · exact hm (Nat.digits_eq_nil_iff_eq_zero.mp hnil)
    · rw [hds] at h
      simp only [List.concat_eq_append, List.map_append, List.map_cons, List.map_nil,
        List.reverse_append, List.reverse_cons, List.reverse_nil, List.nil_append,
        List.cons_append] at h
      have hd10 : d < 10 := Nat.digits_lt_base (by norm_num)
        (by rw [hds]; simp [List.concat_eq_append])
      rcases List.cons_eq_cons.mp h with ⟨h1, h2⟩
      have hd0 : d = 0 := digitChar_inj d 0 hd10 (by norm_num) h1
      have hds0 : ds = [] := by
        have := h2
        simp only [List.reverse_eq_nil_iff, List.map_eq_nil_iff] at this
        exact this
      have := Nat.ofDigits_digits 10 m
      rw [hds, hds0, hd0] at this
      simp [Nat.ofDigits] at this
      exact hm this.symm
  · simp only [hm, hn, if_false] at h
    have h1 := List.reverse_injective h
    have h2 : Nat.digits 10 m = Nat.digits 10 n := by
      have hall : ∀ (l1 l2 : List Nat), (∀ x ∈ l1, x < 10) → (∀ x ∈ l2, x < 10) →
          l1.map Nat.digitChar = l2.map Nat.digitChar → l1 = l2 := by
        intro l1
        induction l1 with
        | nil => intro l2 _ _ he; cases l2 with
          | nil => rfl
          | cons y ys => simp at he
        | cons x xs ih =>
          intro l2 hx hy he
          cases l2 with
          | nil => simp at he
          | cons y ys =>
            simp only [List.map_cons, List.cons.injEq] at he
            have hx10 : x < 10 := hx x (List.mem_cons_self _ _)
            have hy10 : y < 10 := hy y (List.mem_cons_self _ _)
            rw [digitChar_inj x y hx10 hy10 he.1,
              ih ys (fun z hz => hx z (List.mem_cons_of_mem _ hz))
                (fun z hz => hy z (List.mem_cons_of_mem _ hz)) he.2]
      exact hall _ _ (fun x hx => Nat.digits_lt_base (by norm_num) hx)
        (fun x hx => Nat.digits_lt_base (by norm_num) hx) h1
    have := congrArg (Nat.ofDigits 10) h2
    rwa [Nat.ofDigits_digits, Nat.ofDigits_digits] at this

theorem intChars_digit_or_minus {i : Int} {c : Char} (hc : c ∈ intChars i) :
    (48 ≤ c.val.toNat ∧ c.val.toNat ≤ 57) ∨ c = '-' := by
  unfold intChars at hc
  by_cases hneg : i < 0
  · simp only [hneg, if_true, List.mem_cons] at hc
    rcases hc with rfl | hc
    · right; rfl
    · left; exact natChars_digit hc
  · simp only [hneg, if_false] at hc
    left; exact natChars_digit hc

theorem intChars_ne_punct {i : Int} {c : Char} (hc : c ∈ intChars i) :
    c ≠ ',' ∧ c ≠ '[' ∧ c ≠ ']' := by
  rcases intChars_digit_or_minus hc with ⟨h1, h2⟩ | rfl
  · refine ⟨?_, ?_, ?_⟩ <;> (rintro rfl; revert h1 h2; decide)
  · refine ⟨?_, ?_, ?_⟩ <;> decide

theorem intChars_ne_nil (i : Int) : intChars i ≠ [] := by
  unfold intChars
  by_cases hneg : i < 0 <;> simp [hneg, natChars_ne_nil]

theorem intChars_inj {i j : Int} (h : intChars i = intChars j) : i = j := by
  unfold intChars at h
  by_cases hi : i < 0 <;> by_cases hj : j < 0
  · simp only [hi, hj, if_true, List.cons.injEq] at h
    have := natChars_inj h.2
    omega
  · exfalso
    simp only [hi, hj, if_true, if_false] at h
    rcases List.exists_cons_of_ne_nil (natChars_ne_nil j.toNat) with ⟨c, cs, hcs⟩
    rw [hcs] at h
    rcases List.cons_eq_cons.mp h with ⟨h1, _⟩
    have := natChars_digit (hcs ▸ List.mem_cons_self c cs)
    rw [← h1] at this
    revert this; decide
  · exfalso
    simp only [hi, hj, if_true, if_false] at h
    rcases List.exists_cons_of_ne_nil (natChars_ne_nil i.toNat) with ⟨c, cs, hcs⟩
    rw [hcs] at h
    rcases List.cons_eq_cons.mp h with ⟨h1, _⟩
    have := natChars_digit (hcs ▸ List.mem_cons_self c cs)
    rw [h1] at this
    revert this; decide
  · simp only [hi, hj, if_false] at h
    have := natChars_inj h
    omega

/-- Splitting a character list at the first occurrence of a separator is
unambiguous. -/
theorem split_first_sep (sep : Char) :
    ∀ (u1 u2 v1 v2 : List Char), sep ∉ u1 → sep ∉ u2 →
      u1 ++ sep :: v1 = u2 ++ sep :: v2 → u1 = u2 ∧ v1 = v2 := by
  intro u1
  induction u1 with
  | nil =>
    intro u2 v1 v2 _ hu2 h
    cases u2 with
    | nil => simpa using h
    | cons y ys =>
      exfalso
      simp only [List.nil_append, List.cons_append, List.cons_eq_cons] at h
      exact hu2 (h.1 ▸ List.mem_cons_self y ys)
  | cons x xs ih =>
    intro u2 v1 v2 hu1 hu2 h
    cases u2 with
    | nil =>
      exfalso
      simp only [List.cons_append, List.nil_append, List.cons_eq_cons] at h
      exact hu1 (h.1 ▸ List.mem_cons_self x xs)
    | cons y ys =>
      simp only [List.cons_append, List.cons_eq_cons] at h
      rcases h with ⟨rfl, h2⟩
      rcases ih ys v1 v2 (fun hm => hu1 (List.mem_cons_of_mem _ hm))
        (fun hm => hu2 (List.mem_cons_of_mem _ hm)) h2 with ⟨rfl, rfl⟩
      exact ⟨rfl, rfl⟩

theorem encPt_inj {p q : Point} (h : encPt p = encPt q) : p = q := by
  unfold encPt at h
  rcases List.cons_eq_cons.mp h with ⟨-, h2⟩
  rcases split_first_sep ',' _ _ _ _
      (fun hm => (intChars_ne_punct hm).1 rfl)
      (fun hm => (intChars_ne_punct hm).1 rfl) h2 with ⟨ha, hb⟩
  have h1 : p.1 = q.1 := intChars_inj ha
  have hb2 : intChars p.2 ++ ']' :: [] = intChars q.2 ++ ']' :: [] := by simpa using hb
  rcases split_first_sep ']' _ _ _ _
      (fun hm => (intChars_ne_punct hm).2.2 rfl)
      (fun hm => (intChars_ne_punct hm).2.2 rfl) hb2 with ⟨ha2, -⟩
  have h2 : p.2 = q.2 := intChars_inj ha2
  exact Prod.ext h1 h2

/-- The rendering of a point is a bracket atom: `[`, then bracket-free
characters, then `]`. -/
theorem encPt_atom (p : Point) : ∃ mid, encPt p = '[' :: (mid ++ [']']) ∧
    ']' ∉ mid ∧ '[' ∉ mid := by
  refine ⟨intChars p.1 ++ ',' :: intChars p.2, by simp [encPt], ?_, ?_⟩
  · intro hm
    rcases List.mem_append.mp hm with hm | hm
    · exact (intChars_ne_punct hm).2.2 rfl
    · rcases List.mem_cons.mp hm with hm | hm
      · exact absurd hm (by decide)
      · exact (intChars_ne_punct hm).2.2 rfl
  · intro hm
    rcases List.mem_append.mp hm with hm | hm
    · exact (intChars_ne_punct hm).2.1 rfl
    · rcases List.mem_cons.mp hm with hm | hm
      · exact absurd hm (by decide)
      · exact (intChars_ne_punct hm).2.1 rfl

theorem joinComma_encPt_inj : ∀ (l1 l2 : List Point),
    joinComma (l1.map encPt) = joinComma (l2.map encPt) → l1 = l2 := by
  intro l1
  induction l1 with
  | nil =>
    intro l2 h
    cases l2 with
    | nil => rfl
    | cons q qs =>
      exfalso
      rcases encPt_atom q with ⟨m, hm, -, -⟩
      cases qs with
      | nil => simp [joinComma, hm] at h
      | cons q2 qs2 => simp [joinComma, hm] at h
  | cons p ps ih =>
    intro l2 h
    cases l2 with
    | nil =>
      exfalso
      rcases encPt_atom p with ⟨m, hm, -, -⟩
      cases ps with
      | nil => simp [joinComma, hm] at h
      | cons p2 ps2 => simp [joinComma, hm] at h
    | cons q qs =>
      rcases encPt_atom p with ⟨mp, hmp, hmp1, -⟩
      rcases encPt_atom q with ⟨mq, hmq, hmq1, -⟩
      cases ps with
      | nil =>
        cases qs with
        | nil =>
          simp only [List.map_cons, List.map_nil, joinComma] at h
          rw [encPt_inj h]
        | cons q2 qs2 =>
          exfalso
          simp only [List.map_cons, joinComma] at h
          rw [hmp, hmq] at h
          simp only [List.cons_append, List.cons_eq_cons, List.append_assoc] at h
          have h2 : mp ++ ']' :: [] = mq ++ ']' :: (',' :: joinComma (List.map encPt (q2 :: qs2))) := by
            simpa using h.2
          rcases split_first_sep ']' _ _ _ _ hmp1 hmq1 h2 with ⟨-, hv⟩
          simp at hv
      | cons p2 ps2 =>
        cases qs with
        | nil =>
          exfalso
          simp only [List.map_cons, joinComma] at h
          rw [hmp, hmq] at h
          simp only [List.cons_append, List.cons_eq_cons, List.append_assoc] at h
          have h2 : mp ++ ']' :: (',' :: joinComma (List.map encPt (p2 :: ps2))) = mq ++ ']' :: [] := by
            simpa using h.2
          rcases split_first_sep ']' _ _ _ _ hmp1 hmq1 h2 with ⟨-, hv⟩
          simp at hv
        | cons q2 qs2 =>
          simp only [List.map_cons, joinComma] at h
          rw [hmp, hmq] at h
          simp only [List.cons_append, List.cons_eq_cons, List.append_assoc] at h
          have h2 : mp ++ ']' :: (',' :: joinComma (List.map encPt (p2 :: ps2)))
              = mq ++ ']' :: (',' :: joinComma (List.map encPt (q2 :: qs2))) := by
            simpa using h.2
          rcases split_first_sep ']' _ _ _ _ hmp1 hmq1 h2 with ⟨hu, hv⟩
          have hpq : p = q := encPt_inj (by rw [hmp, hmq, hu])
          have := ih (q2 :: qs2) (by simpa using hv)
          rw [hpq, this]

/-- The JSON key of a point list determines the list: `JSON.stringify` is
injective on `Point[]` values, so string-keyed grouping equals value-keyed
grouping and `JSON.parse` of a key recovers the original list. -/
theorem encPts_inj {l1 l2 : List Point} (h : encPts l1 = encPts l2) : l1 = l2 := by
  unfold encPts at h
  rcases List.cons_eq_cons.mp h with ⟨-, h2⟩
  have h3 : joinComma (l1.map encPt) = joinComma (l2.map encPt) := by
    have := congrArg List.reverse h2
    simp only [List.reverse_append] at this
    simpa using congrArg List.reverse (by simpa using this)
  exact joinComma_encPt_inj _ _ h3

theorem chLt_irrefl : ∀ (k : List Char), chLt k k = false := by
  intro k
  induction k with
  | nil => rfl
  | cons a as ih => simp [chLt, ih]

theorem chLt_trans : ∀ (a b c : List Char), chLt a b = true → chLt b c = true → chLt a c = true := by
  intro a
  induction a with
  | nil =>
    intro b c h1 h2
    cases b with
    | nil => exact h2
    | cons y ys =>
      cases c with
      | nil => simp [chLt] at h2
      | cons z zs => rfl
  | cons x xs ih =>
    intro b c h1 h2
    cases b with
    | nil => simp [chLt] at h1
    | cons y ys =>
      cases c with
      | nil => simp [chLt] at h2
      | cons z zs =>
        simp only [chLt] at h1 h2 ⊢
        by_cases hxy : x < y
        · by_cases hyz : y < z
          · simp [lt_trans hxy hyz]
          · by_cases hzy : z < y
            · simp [hyz, hzy] at h2
            · have : y = z := le_antisymm (not_lt.mp hzy) (not_lt.mp hyz)
              subst this
              simp [hxy]
        · by_cases hyx : y < x
          · simp [hxy, hyx] at h1
          · have : x = y := le_antisymm (not_lt.mp hyx) (not_lt.mp hxy)
            subst this
            simp only [hxy, if_false, ite_self] at h1 ⊢
            by_cases hyz : x < z
            · simp [hyz]
            · by_cases hzy : z < x
              · simp [hyz, hzy] at h2
              · have : x = z := le_antisymm (not_lt.mp hzy) (not_lt.mp hyz)
                subst this
                simp only [lt_irrefl, if_false, ite_self] at h1 h2 ⊢
                exact ih _ _ h1 h2

/-- One step of the `bestKey` selection loop shared by all canonicalizers:
keep the incumbent unless the new candidate's key is strictly smaller
(`if (!best || key < bestKey)`). -/
def pickStep {α : Type} (cand : Nat → α) (key : α → List Char)
    (acc : Option (α × List Char)) (t : Nat) : Option (α × List Char) :=
  match acc with
  | none => some (cand t, key (cand t))
  | some (b, bk) => if chLt (key (cand t)) bk then some (cand t, key (cand t)) else some (b, bk)

theorem pickStep_foldl_some {α : Type} (cand : Nat → α) (key : α → List Char) :
    ∀ (l : List Nat) (b : α × List Char), b.2 = key b.1 →
      ∃ r, l.foldl (pickStep cand key) (some b) = some r ∧ r.2 = key r.1 ∧
        (r = b ∨ ∃ t ∈ l, r.1 = cand t) ∧
        chLt b.2 r.2 = false ∧ ∀ t ∈ l, chLt (key (cand t)) r.2 = false := by
  intro l
  induction l with
  | nil =>
    intro b hb
    exact ⟨b, rfl, hb, Or.inl rfl, chLt_irrefl _, by simp⟩
  | cons t ts ih =>
    intro b hb
    simp only [List.foldl_cons, pickStep]
    by_cases hlt : chLt (key (cand t)) b.2 = true
    · rw [if_pos]
      · rcases ih (cand t, key (cand t)) rfl with ⟨r, hr, hrk, hmem, hle, hall⟩
        refine ⟨r, hr, hrk, ?_, ?_, ?_⟩
        · rcases hmem with rfl | ⟨u, hu, hru⟩
          · exact Or.inr ⟨t, List.mem_cons_self _ _, rfl⟩
          · exact Or.inr ⟨u, List.mem_cons_of_mem _ hu, hru⟩
        · -- b.2 is not below r.2: key (cand t) < b.2 and nothing in ts beats r
          by_contra hcon
          have hc : chLt b.2 r.2 = true := by
            revert hcon; cases chLt b.2 r.2 <;> simp
          have : chLt (key (cand t)) r.2 = true := chLt_trans _ _ _ hlt hc
          simp only [this] at hle
          exact absurd hle (by simp)
        · intro u hu
          rcases List.mem_cons.mp hu with rfl | hu2
          · exact hle
          · exact hall u hu2
      · exact hlt
    · rw [if_neg (by simpa using hlt)]
      rcases ih b hb with ⟨r, hr, hrk, hmem, hle, hall⟩
      refine ⟨r, hr, hrk, ?_, hle, ?_⟩
      · rcases hmem with rfl | ⟨u, hu, hru⟩
        · exact Or.inl rfl
        · exact Or.inr ⟨u, List.mem_cons_of_mem _ hu, hru⟩
      intro u hu
      rcases List.mem_cons.mp hu with rfl | hu2
      · -- key (cand t) is not below b.2, and b.2 is not below r.2
        by_contra hcon
        have hc : chLt (key (cand u)) r.2 = true := by
          revert hcon; cases chLt (key (cand u)) r.2 <;> simp
        have hb2 : chLt b.2 r.2 = false := hle
        -- from not (key < b.2) and key < r.2 we derive b.2 < r.2 unless keys equal
        by_cases hbu : chLt b.2 (key (cand u)) = true
        · have : chLt b.2 r.2 = true := chLt_trans _ _ _ hbu hc
          simp [this] at hb2
        · have : b.2 = key (cand u) :=
            chLt_conn _ _ (by simpa using hbu) (by simpa using hlt)
          rw [← this] at hc
          simp [hc] at hb2
      · exact hall u hu2

/-- The selection loop over transform indices `0..7` returns a candidate whose
key is minimal among all eight candidates. -/
theorem pickMin_spec {α : Type} (cand : Nat → α) (key : α → List Char) :
    ∃ r, (List.range 8).foldl (pickStep cand key) none = some r ∧ r.2 = key r.1 ∧
      (∃ t < 8, r.1 = cand t) ∧
      ∀ t < 8, chLt (key (cand t)) r.2 = false := by
  have hr : List.range 8 = 0 :: [1, 2, 3, 4, 5, 6, 7] := by rfl
  rw [hr]
  simp only [List.foldl_cons]
  have h0 : pickStep cand key none 0 = some (cand 0, key (cand 0)) := rfl
  rw [h0]
  rcases pickStep_foldl_some cand key [1, 2, 3, 4, 5, 6, 7] (cand 0, key (cand 0)) rfl with
    ⟨r, hfold, hrk, hmem, hle, hall⟩
  refine ⟨r, hfold, hrk, ?_, ?_⟩
  · rcases hmem with rfl | ⟨t, ht, hrt⟩
    · exact ⟨0, by norm_num, rfl⟩
    · refine ⟨t, ?_, hrt⟩
      simp only [List.mem_cons, List.not_mem_nil, or_false] at ht
      omega
  · intro t ht
    interval_cases t
    · exact hle
    all_goals exact hall _ (by norm_num)

/-- Result record of the generic canonicalizer (source `CanonicalPattern`). -/
structure CanonicalPattern where
  canonicalStars : List Point
  canonicalCells : List Point
  transformIndex : Nat
  translation : Point
deriving DecidableEq, Repr

/-- The candidate produced by transform index `t` inside `canonicalize`:
apply the transform to stars and cells, translate so the minimum star row
and column become 0, and sort both lists. -/
def canonCandidate (pointsStars pointsCells : List Point) (t : Nat) : CanonicalPattern :=
  let tf := tfAt t
  let sT := pointsStars.map tf
  let cT := pointsCells.map tf
  let minRow := minList (sT.map Prod.fst)
  let minCol := minList (sT.map Prod.snd)
  let shift := fun (p : Point) => (p.1 - minRow, p.2 - minCol)
  ⟨sortPts (sT.map shift), sortPts (cT.map shift), t, (minRow, minCol)⟩

/-- Generic canonicalization (source `canonicalize` in
`constrainedEntanglementMiner.ts`): try all 8 D4 transforms, keep the one
whose `JSON.stringify`-key of the sorted shifted stars is smallest; `none`
models the `throw` on an empty star list. -/
def canonicalize (pointsStars pointsCells : List Point) : Option CanonicalPattern :=
  if pointsStars.isEmpty then none
  else
    ((List.range 8).foldl
      (pickStep (canonCandidate pointsStars pointsCells)
        (fun cp => encPts cp.canonicalStars)) none).map Prod.fst

/-- `canonicalize` on a non-empty star list returns one of the 8 candidates,
and its star key is minimal among all 8 candidate keys. -/
theorem canonicalize_spec (pointsStars pointsCells : List Point)
    (hne : pointsStars ≠ []) :
    ∃ R, canonicalize pointsStars pointsCells = some R ∧
      (∃ t < 8, R = canonCandidate pointsStars pointsCells t) ∧
      ∀ t < 8, chLt (encPts (canonCandidate pointsStars pointsCells t).canonicalStars)
        (encPts R.canonicalStars) = false := by
  rcases pickMin_spec (canonCandidate pointsStars pointsCells)
    (fun cp => encPts cp.canonicalStars) with ⟨r, hfold, hrk, ⟨t, ht, hrt⟩, hall⟩
  refine ⟨r.1, ?_, ⟨t, ht, hrt⟩, ?_⟩
  · unfold canonicalize
    rw [if_neg (by simpa using hne), hfold]
    rfl
  · intro u hu
    have := hall u hu
    rwa [hrk] at this

/-- Composition table of the eight transforms: `tfAt a ∘ tfAt b = tfAt (compIdx a b)`. -/
def compIdx (a b : Nat) : Nat :=
  ([[0, 1, 2, 3, 4, 5, 6, 7],
    [1, 0, 3, 2, 5, 4, 7, 6],
    [2, 3, 0, 1, 6, 7, 4, 5],
    [3, 2, 1, 0, 7, 6, 5, 4],
    [4, 6, 5, 7, 0, 2, 1, 3],
    [5, 7, 4, 6, 1, 3, 0, 2],
    [6, 4, 7, 5, 2, 0, 3, 1],
    [7, 5, 6, 4, 3, 1, 2, 0]].getD a []).getD b 0

/-- Inverse table: `tfAt (invIdx b) ∘ tfAt b = id`. -/
def invIdx (b : Nat) : Nat := [0, 1, 2, 3, 4, 6, 5, 7].getD b 0

theorem tfAt0 (p : Point) : tfAt 0 p = (p.1, p.2) := rfl
theorem tfAt1 (p : Point) : tfAt 1 p = (-p.1, p.2) := rfl
theorem tfAt2 (p : Point) : tfAt 2 p = (p.1, -p.2) := rfl
theorem tfAt3 (p : Point) : tfAt 3 p = (-p.1, -p.2) := rfl
theorem tfAt4 (p : Point) : tfAt 4 p = (p.2, p.1) := rfl
theorem tfAt5 (p : Point) : tfAt 5 p = (-p.2, p.1) := rfl
theorem tfAt6 (p : Point) : tfAt 6 p = (p.2, -p.1) := rfl
theorem tfAt7 (p : Point) : tfAt 7 p = (-p.2, -p.1) := rfl

set_option maxHeartbeats 1000000

theorem tfAt_compIdx : ∀ a, a < 8 → ∀ b, b < 8 → ∀ p : Point,
    tfAt a (tfAt b p) = tfAt (compIdx a b) p := by
  intro a ha b hb p
  interval_cases a <;> interval_cases b <;>
    simp only [compIdx, List.getD, tfAt0, tfAt1, tfAt2, tfAt3, tfAt4, tfAt5, tfAt6, tfAt7,
      List.get?_cons_succ, List.get?_cons_zero, Option.getD_some, neg_neg]

theorem compIdx_lt : ∀ a, a < 8 → ∀ b, b < 8 → compIdx a b < 8 := by decide

theorem invIdx_lt : ∀ b, b < 8 → invIdx b < 8 := by decide

theorem compIdx_invIdx : ∀ b, b < 8 → compIdx (invIdx b) b = 0 := by decide

theorem tfAt_invIdx (b : Nat) (hb : b < 8) (p : Point) : tfAt (invIdx b) (tfAt b p) = p := by
  rw [tfAt_compIdx (invIdx b) (invIdx_lt b hb) b hb p, compIdx_invIdx b hb, tfAt0]

theorem tfAt_add : ∀ t, t < 8 → ∀ p q : Point, tfAt t (p + q) = tfAt t p + tfAt t q := by
  intro t ht p q
  interval_cases t <;>
    simp [tfAt0, tfAt1, tfAt2, tfAt3, tfAt4, tfAt5, tfAt6, tfAt7, Prod.ext_iff,
      Prod.fst_add, Prod.snd_add, neg_add] <;> omega

/-- Star part of a transform candidate inside the canonicalizers, as a
function of the transform itself. -/
def candStars (f : Point → Point) (stars : List Point) : List Point :=
  sortPts ((stars.map f).map (fun p =>
    (p.1 - minList ((stars.map f).map Prod.fst), p.2 - minList ((stars.map f).map Prod.snd))))

/-- Cell part of a transform candidate (shifted by the star minimum). -/
def candCells (f : Point → Point) (stars cells : List Point) : List Point :=
  sortPts ((cells.map f).map (fun p =>
    (p.1 - minList ((stars.map f).map Prod.fst), p.2 - minList ((stars.map f).map Prod.snd))))

theorem canonCandidate_stars (s c : List Point) (t : Nat) :
    (canonCandidate s c t).canonicalStars = candStars (tfAt t) s := rfl

theorem canonCandidate_cells (s c : List Point) (t : Nat) :
    (canonCandidate s c t).canonicalCells = candCells (tfAt t) s c := rfl

theorem candStars_congr {f g : Point → Point} (h : ∀ p, f p = g p) (s : List Point) :
    candStars f s = candStars g s := by
  have : s.map f = s.map g := List.map_congr_left (fun p _ => h p)
  simp only [candStars, this]

theorem candCells_congr {f g : Point → Point} (h : ∀ p, f p = g p) (s c : List Point) :
    candCells f s c = candCells g s c := by
  have h1 : s.map f = s.map g := List.map_congr_left (fun p _ => h p)
  have h2 : c.map f = c.map g := List.map_congr_left (fun p _ => h p)
  simp only [candCells, h1, h2]

theorem candStars_perm (f : Point → Point) {s s2 : List Point} (h : List.Perm s s2) :
    candStars f s = candStars f s2 := by
  have hm : List.Perm (s.map f) (s2.map f) := h.map f
  have hrow : minList ((s.map f).map Prod.fst) = minList ((s2.map f).map Prod.fst) :=
    minList_perm (hm.map Prod.fst)
  have hcol : minList ((s.map f).map Prod.snd) = minList ((s2.map f).map Prod.snd) :=
    minList_perm (hm.map Prod.snd)
  unfold candStars
  rw [hrow, hcol]
  exact sortPts_eq_of_perm (hm.map _)

/-- Image lemma: applying a linear transform `f` to a translated `g`-image of
a point set produces the same candidate as applying `f ∘ g` to the original
set; the translation is absorbed by the shift to the star minimum. -/
theorem candStars_image (f g : Point → Point) (hf : ∀ p q : Point, f (p + q) = f p + f q)
    (d : Point) (s : List Point) (hs : s ≠ []) :
    candStars f (s.map (fun p => g p + d)) = candStars (fun p => f (g p)) s := by
  have hmap : (s.map (fun p => g p + d)).map f
      = (s.map (fun p => f (g p))).map (fun q => q + f d) := by
    simp only [List.map_map]
    exact List.map_congr_left (fun p _ => by simp [Function.comp, hf])
  have hsne : (s.map (fun p => f (g p))) ≠ [] := by
    simpa [List.map_eq_nil_iff] using hs
  have hrow : minList (((s.map (fun p => g p + d)).map f).map Prod.fst)
      = minList ((s.map (fun p => f (g p))).map Prod.fst) + (f d).1 := by
    rw [hmap]
    have : ((s.map (fun p => f (g p))).map (fun q => q + f d)).map Prod.fst
        = ((s.map (fun p => f (g p))).map Prod.fst).map (fun x => x + (f d).1) := by
      simp only [List.map_map]
      exact List.map_congr_left (fun p _ => by simp)
    rw [this]
    exact minList_map_add _ _ (by simpa [List.map_eq_nil_iff] using hs)
  have hcol : minList (((s.map (fun p => g p + d)).map f).map Prod.snd)
      = minList ((s.map (fun p => f (g p))).map Prod.snd) + (f d).2 := by
    rw [hmap]
    have : ((s.map (fun p => f (g p))).map (fun q => q + f d)).map Prod.snd
        = ((s.map (fun p => f (g p))).map Prod.snd).map (fun x => x + (f d).2) := by
      simp only [List.map_map]
      exact List.map_congr_left (fun p _ => by simp)
    rw [this]
    exact minList_map_add _ _ (by simpa [List.map_eq_nil_iff] using hs)
  unfold candStars
  rw [hrow, hcol, hmap]
  congr 1
  simp only [List.map_map]
  refine List.map_congr_left (fun p _ => ?_)
  simp only [Function.comp, Prod.fst_add, Prod.snd_add, Prod.ext_iff]
  constructor <;> ring

theorem candCells_image (f g : Point → Point) (hf : ∀ p q : Point, f (p + q) = f p + f q)
    (d : Point) (s c : List Point) (hs : s ≠ []) :
    candCells f (s.map (fun p => g p + d)) (c.map (fun p => g p + d))
      = candCells (fun p => f (g p)) s c := by
  have hmapc : (c.map (fun p => g p + d)).map f
      = (c.map (fun p => f (g p))).map (fun q => q + f d) := by
    simp only [List.map_map]
    exact List.map_congr_left (fun p _ => by simp [Function.comp, hf])
  have hmaps : (s.map (fun p => g p + d)).map f
      = (s.map (fun p => f (g p))).map (fun q => q + f d) := by
    simp only [List.map_map]
    exact List.map_congr_left (fun p _ => by simp [Function.comp, hf])
  have hrow : minList (((s.map (fun p => g p + d)).map f).map Prod.fst)
      = minList ((s.map (fun p => f (g p))).map Prod.fst) + (f d).1 := by
    rw [hmaps]
    have : ((s.map (fun p => f (g p))).map (fun q => q + f d)).map Prod.fst
        = ((s.map (fun p => f (g p))).map Prod.fst).map (fun x => x + (f d).1) := by
      simp only [List.map_map]
      exact List.map_congr_left (fun p _ => by simp)
    rw [this]
    exact minList_map_add _ _ (by simpa [List.map_eq_nil_iff] using hs)
  have hcol : minList (((s.map (fun p => g p + d)).map f).map Prod.snd)
      = minList ((s.map (fun p => f (g p))).map Prod.snd) + (f d).2 := by
    rw [hmaps]
    have : ((s.map (fun p => f (g p))).map (fun q => q + f d)).map Prod.snd
        = ((s.map (fun p => f (g p))).map Prod.snd).map (fun x => x + (f d).2) := by
      simp only [List.map_map]
      exact List.map_congr_left (fun p _ => by simp)
    rw [this]
    exact minList_map_add _ _ (by simpa [List.map_eq_nil_iff] using hs)
  unfold candCells
  rw [hrow, hcol, hmapc]
  congr 1
  simp only [List.map_map]
  refine List.map_congr_left (fun p _ => ?_)
  simp only [Function.comp, Prod.fst_add, Prod.snd_add, Prod.ext_iff]
  constructor <;> ring

theorem candStars_reindex (b : Nat) (hb : b < 8) (d : Point) (s : List Point) (hs : s ≠ [])
    (t : Nat) (ht : t < 8) :
    candStars (tfAt t) (s.map (fun p => tfAt b p + d)) = candStars (tfAt (compIdx t b)) s := by
  rw [candStars_image (tfAt t) (tfAt b) (tfAt_add t ht) d s hs]
  exact candStars_congr (fun p => tfAt_compIdx t ht b hb p) s

theorem candStars_reindex_surj (b : Nat) (hb : b < 8) (d : Point) (s : List Point) (hs : s ≠ [])
    (u : Nat) (hu : u < 8) :
    ∃ t < 8, candStars (tfAt t) (s.map (fun p => tfAt b p + d)) = candStars (tfAt u) s := by
  refine ⟨compIdx u (invIdx b), compIdx_lt u hu (invIdx b) (invIdx_lt b hb), ?_⟩
  rw [candStars_reindex b hb d s hs _ (compIdx_lt u hu (invIdx b) (invIdx_lt b hb))]
  refine candStars_congr (fun p => ?_) s
  rw [← tfAt_compIdx (compIdx u (invIdx b)) (compIdx_lt u hu (invIdx b) (invIdx_lt b hb)) b hb p,
    ← tfAt_compIdx u hu (invIdx b) (invIdx_lt b hb) (tfAt b p), tfAt_invIdx b hb p]

/-- Core invariance: canonicalizing any D4-plus-translation image of a
non-empty star list yields the same canonical star list. -/
theorem canonicalize_stars_invariant (s cells cells2 : List Point) (hs : s ≠ [])
    (b : Nat) (hb : b < 8) (d : Point) (R1 R2 : CanonicalPattern)
    (h1 : canonicalize (s.map (fun p => tfAt b p + d)) cells = some R1)
    (h2 : canonicalize s cells2 = some R2) :
    R1.canonicalStars = R2.canonicalStars := by
  have hQ : s.map (fun p => tfAt b p + d) ≠ [] := by simpa [List.map_eq_nil_iff] using hs
  rcases canonicalize_spec _ cells hQ with ⟨R1x, he1, ⟨t1, ht1, hR1⟩, hmin1⟩
  rcases canonicalize_spec s cells2 hs with ⟨R2x, he2, ⟨t2, ht2, hR2⟩, hmin2⟩
  rw [h1] at he1; rw [h2] at he2
  cases he1; cases he2
  have hs1 : R1.canonicalStars = candStars (tfAt (compIdx t1 b)) s := by
    rw [hR1, canonCandidate_stars]
    exact candStars_reindex b hb d s hs t1 ht1
  have hs2 : R2.canonicalStars = candStars (tfAt t2) s := by
    rw [hR2, canonCandidate_stars]
  -- key of R1' is at least the minimum over the candidates of s
  have hk1 : chLt (encPts R1.canonicalStars) (encPts R2.canonicalStars) = false := by
    have := hmin2 (compIdx t1 b) (compIdx_lt t1 ht1 b hb)
    rwa [canonCandidate_stars, ← hs1] at this
  -- and vice versa via surjectivity of the reindexing
  have hk2 : chLt (encPts R2.canonicalStars) (encPts R1.canonicalStars) = false := by
    rcases candStars_reindex_surj b hb d s hs t2 ht2 with ⟨t', ht', he⟩
    have := hmin1 t' ht'
    rwa [canonCandidate_stars, he, ← hs2] at this
  exact encPts_inj (chLt_conn _ _ hk1 hk2)

/-- The canonical star list has minimum row 0 and minimum column 0. -/
theorem candStars_min_zero (f : Point → Point) (s : List Point) (hs : s ≠ []) :
    minList ((candStars f s).map Prod.fst) = 0 ∧
      minList ((candStars f s).map Prod.snd) = 0 := by
  have hne : s.map f ≠ [] := by simpa [List.map_eq_nil_iff] using hs
  set m1 := minList ((s.map f).map Prod.fst) with hm1
  set m2 := minList ((s.map f).map Prod.snd) with hm2
  have hperm : List.Perm (candStars f s)
      ((s.map f).map (fun p => (p.1 - m1, p.2 - m2))) := sortPts_perm _
  constructor
  · rw [minList_perm (hperm.map Prod.fst)]
    have : ((s.map f).map (fun p => (p.1 - m1, p.2 - m2))).map Prod.fst
        = ((s.map f).map Prod.fst).map (fun x => x + (-m1)) := by
      simp only [List.map_map]
      exact List.map_congr_left (fun p _ => by simp [Function.comp, sub_eq_add_neg])
    rw [this, minList_map_add _ _ (by simpa [List.map_eq_nil_iff] using hs)]
    omega
  · rw [minList_perm (hperm.map Prod.snd)]
    have : ((s.map f).map (fun p => (p.1 - m1, p.2 - m2))).map Prod.snd
        = ((s.map f).map Prod.snd).map (fun x => x + (-m2)) := by
      simp only [List.map_map]
      exact List.map_congr_left (fun p _ => by simp [Function.comp, sub_eq_add_neg])
    rw [this, minList_map_add _ _ (by simpa [List.map_eq_nil_iff] using hs)]
    omega

/-- The identity candidate of an already-canonical star list is the list itself. -/
theorem candStars_id_of_canonical (l : List Point)
    (hrow : minList (l.map Prod.fst) = 0) (hcol : minList (l.map Prod.snd) = 0)
    (hsorted : l.Pairwise (fun a b => ptLeb a b)) :
    candStars (tfAt 0) l = l := by
  unfold candStars
  have hmap : l.map (tfAt 0) = l := by
    refine List.map_congr_left (fun p _ => ?_) |>.trans (List.map_id l)
    rw [tfAt0]; rfl
  rw [hmap, hrow, hcol]
  have : l.map (fun p => (p.1 - 0, p.2 - 0)) = l := by
    refine List.map_congr_left (fun p _ => ?_) |>.trans (List.map_id l)
    simp
  rw [this]
  exact sortPts_of_sorted hsorted

/-- Core idempotence: canonicalizing the canonical star list returns it
unchanged. -/
theorem canonicalize_stars_idem (s cells cells2 : List Point) (hs : s ≠ [])
    (R : CanonicalPattern) (h : canonicalize s cells = some R) :
    ∃ Rr, canonicalize R.canonicalStars cells2 = some Rr ∧
      Rr.canonicalStars = R.canonicalStars := by
  rcases canonicalize_spec s cells hs with ⟨Rx, he, ⟨i, hi, hRi⟩, hmin⟩
  rw [h] at he; cases he
  have hstar : R.canonicalStars = candStars (tfAt i) s := by rw [hRi, canonCandidate_stars]
  -- the canonical star list is a translated image of a transformed s
  set m1 := minList ((s.map (tfAt i)).map Prod.fst) with hm1
  set m2 := minList ((s.map (tfAt i)).map Prod.snd) with hm2
  have hXform : (s.map (tfAt i)).map (fun p => (p.1 - m1, p.2 - m2))
      = s.map (fun p => tfAt i p + (-m1, -m2)) := by
    simp only [List.map_map]
    refine List.map_congr_left (fun p _ => ?_)
    simp only [Function.comp, Prod.ext_iff, Prod.fst_add, Prod.snd_add]
    constructor <;> ring_nf
  have hRne : R.canonicalStars ≠ [] := by
    rw [hstar]
    unfold candStars
    intro hc
    have := congrArg List.length hc
    simp only [sortPts, List.length_insertionSort, List.length_map, List.length_nil] at this
    exact hs (List.length_eq_zero.mp this)
  rcases canonicalize_spec R.canonicalStars cells2 hRne with ⟨Rr, her, ⟨t', ht', hRt⟩, hmin2⟩
  refine ⟨Rr, her, ?_⟩
  -- every candidate of the canonical star list is a candidate of s
  have hcand : ∀ t, t < 8 → candStars (tfAt t) R.canonicalStars
      = candStars (tfAt (compIdx t i)) s := by
    intro t ht
    have hp : List.Perm R.canonicalStars (s.map (fun p => tfAt i p + (-m1, -m2))) := by
      rw [hstar, ← hXform]
      exact sortPts_perm _
    rw [candStars_perm (tfAt t) hp]
    exact candStars_reindex i hi (-m1, -m2) s hs t ht
  -- the identity candidate of the canonical star list is itself
  have hid : candStars (tfAt 0) R.canonicalStars = R.canonicalStars := by
    have hz := candStars_min_zero (tfAt i) s hs
    refine candStars_id_of_canonical _ ?_ ?_ ?_
    · rw [hstar]; exact hz.1
    · rw [hstar]; exact hz.2
    · rw [hstar]; exact sortPts_sorted _
  -- key comparison in both directions
  have hk1 : chLt (encPts Rr.canonicalStars) (encPts R.canonicalStars) = false := by
    have hc := hcand t' ht'
    have hr1 : Rr.canonicalStars = candStars (tfAt (compIdx t' i)) s := by
      rw [hRt, canonCandidate_stars, hc]
    have h2 := hmin (compIdx t' i) (compIdx_lt t' ht' i hi)
    rw [canonCandidate_stars] at h2
    rw [hr1]
    exact h2
  have hk2 : chLt (encPts R.canonicalStars) (encPts Rr.canonicalStars) = false := by
    have := hmin2 0 (by norm_num)
    rwa [canonCandidate_stars, hid] at this
  exact encPts_inj (chLt_conn _ _ hk1 hk2)

theorem candCells_reindex (b : Nat) (hb : b < 8) (d : Point) (s c : List Point) (hs : s ≠ [])
    (t : Nat) (ht : t < 8) :
    candCells (tfAt t) (s.map (fun p => tfAt b p + d)) (c.map (fun p => tfAt b p + d))
      = candCells (tfAt (compIdx t b)) s c := by
  rw [candCells_image (tfAt t) (tfAt b) (tfAt_add t ht) d s c hs]
  exact candCells_congr (fun p => tfAt_compIdx t ht b hb p) s c

/-- When the eight star candidates of `s` are pairwise distinct (the star set
has no nontrivial D4 self-symmetry), canonicalizing a joint image of stars
and auxiliary cells under the same transform-plus-translation also yields
identical canonical cells. -/
theorem canonicalize_cells_invariant (s c : List Point) (hs : s ≠ [])
    (b : Nat) (hb : b < 8) (d : Point)
    (hdist : ∀ t, t < 8 → ∀ u, u < 8 → t ≠ u → candStars (tfAt t) s ≠ candStars (tfAt u) s)
    (RQ RP : CanonicalPattern)
    (h1 : canonicalize (s.map (fun p => tfAt b p + d)) (c.map (fun p => tfAt b p + d)) = some RQ)
    (h2 : canonicalize s c = some RP) :
    RQ.canonicalStars = RP.canonicalStars ∧ RQ.canonicalCells = RP.canonicalCells := by
  have hstars := canonicalize_stars_invariant s (c.map (fun p => tfAt b p + d)) c hs b hb d
    RQ RP h1 h2
  refine ⟨hstars, ?_⟩
  have hQ : s.map (fun p => tfAt b p + d) ≠ [] := by simpa [List.map_eq_nil_iff] using hs
  rcases canonicalize_spec _ _ hQ with ⟨R1x, he1, ⟨t1, ht1, hR1⟩, -⟩
  rcases canonicalize_spec s c hs with ⟨R2x, he2, ⟨t2, ht2, hR2⟩, -⟩
  rw [h1] at he1; rw [h2] at he2
  cases he1; cases he2
  have hts : candStars (tfAt (compIdx t1 b)) s = candStars (tfAt t2) s := by
    have e1 : RQ.canonicalStars = candStars (tfAt (compIdx t1 b)) s := by
      rw [hR1, canonCandidate_stars, candStars_reindex b hb d s hs t1 ht1]
    have e2 : RP.canonicalStars = candStars (tfAt t2) s := by
      rw [hR2, canonCandidate_stars]
    rw [← e1, ← e2, hstars]
  have hteq : compIdx t1 b = t2 := by
    by_contra hne
    exact hdist _ (compIdx_lt t1 ht1 b hb) _ ht2 hne hts
  rw [hR1, hR2, canonCandidate_cells, canonCandidate_cells,
    candCells_reindex b hb d s c hs t1 ht1, hteq]

/-- C2: for every non-empty list of star points `P`, canonicalizing any image
of `P` under one of the 8 D4 transforms followed by an arbitrary translation
yields the same `canonicalStars` as canonicalizing `P` itself; and
canonicalization is idempotent on stars: canonicalizing the `canonicalStars`
it produced yields the same `canonicalStars` again. -/
theorem claim_C2_canonicalize_symmetry_and_idempotence
    (P aux auxQ auxI : List Point) (t : Nat) (d : Point) (hP : P ≠ []) (ht : t < 8) :
    ((canonicalize (P.map (fun p => tfAt t p + d)) auxQ).map CanonicalPattern.canonicalStars
      = (canonicalize P aux).map CanonicalPattern.canonicalStars)
    ∧ (∀ R, canonicalize P aux = some R →
        (canonicalize R.canonicalStars auxI).map CanonicalPattern.canonicalStars
          = some R.canonicalStars) := by
  constructor
  · have hQ : P.map (fun p => tfAt t p + d) ≠ [] := by simpa [List.map_eq_nil_iff] using hP
    rcases canonicalize_spec (P.map (fun p => tfAt t p + d)) auxQ hQ with ⟨R1, he1, -, -⟩
    rcases canonicalize_spec P aux hP with ⟨R2, he2, -, -⟩
    rw [he1, he2]
    simp only [Option.map_some']
    rw [canonicalize_stars_invariant P auxQ aux hP t ht d R1 R2 he1 he2]
  · intro R hR
    rcases canonicalize_stars_idem P aux auxI hP R hR with ⟨Rr, her, hse⟩
    rw [her]
    simp only [Option.map_some']
    rw [hse]

/-- Witness for C2 at a concrete input: the L-tromino-like pair `(0,0),(1,2)`
transformed by `f5` and translated by `(2,-1)`. -/
theorem claim_C2_witness :
    (([((0:Int),(0:Int)), (1, 2)] : List Point) ≠ [] ∧ 5 < 8)
    ∧ ((canonicalize ([((0:Int),(0:Int)), (1, 2)].map (fun p => tfAt 5 p + (2, -1))) []).map
        CanonicalPattern.canonicalStars
      = (canonicalize [((0:Int),(0:Int)), (1, 2)] []).map CanonicalPattern.canonicalStars)
    ∧ ((canonicalize (CanonicalPattern.mk [(0, 0), (1, 2)] [] 0 (0, 0)).canonicalStars []).map
        CanonicalPattern.canonicalStars = some [((0:Int),(0:Int)), (1, 2)]) := by
  refine ⟨⟨by decide, by decide⟩, ?_, ?_⟩
  · exact (claim_C2_canonicalize_symmetry_and_idempotence
      [((0:Int),(0:Int)), (1, 2)] [] [] [] 5 (2, -1) (by decide) (by decide)).1
  · exact (claim_C2_canonicalize_symmetry_and_idempotence
      [((0:Int),(0:Int)), (1, 2)] [] [] [] 5 (2, -1) (by decide) (by decide)).2
      (CanonicalPattern.mk [(0, 0), (1, 2)] [] 0 (0, 0)) (by decide)

/-- Counterexample to C3 as stated: the single star `(0,0)` with auxiliary
cell `(0,1)`, and its image under the main-diagonal transpose `f4` (with zero
translation), canonicalize to the same `canonicalStars` but to different
`canonicalCells`, because the symmetric star set ties on the star key and the
first winning transform is used for the cells in both runs. -/
theorem claim_C3_counterexample :
    ([((0:Int),(0:Int))].map (fun p => tfAt 4 p + (0, 0)) = [((0:Int),(0:Int))])
    ∧ ([((0:Int),(1:Int))].map (fun p => tfAt 4 p + (0, 0)) = [((1:Int),(0:Int))])
    ∧ (canonicalize [((0:Int),(0:Int))] [((0:Int),(1:Int))]).map
        CanonicalPattern.canonicalCells = some [((0:Int),(1:Int))]
    ∧ (canonicalize [((0:Int),(0:Int))] [((1:Int),(0:Int))]).map
        CanonicalPattern.canonicalCells = some [((1:Int),(0:Int))]
    ∧ ([((0:Int),(1:Int))] : List Point) ≠ [((1:Int),(0:Int))] := by
  refine ⟨by decide, by decide, by decide, by decide, by decide⟩

/-- C3 (amended): canonical stars of same-transform-related inputs always
agree, and the canonical auxiliary cells also agree provided the star set has
no nontrivial D4 self-symmetry (its eight star candidates are pairwise
distinct); the counterexample shows the cells clause fails for symmetric star
sets, e.g. every single-star or two-star set. -/
theorem claim_C3_canonicalize_aux_amended (s c : List Point) (hs : s ≠ [])
    (b : Nat) (hb : b < 8) (d : Point)
    (hdist : ∀ t, t < 8 → ∀ u, u < 8 → t ≠ u → candStars (tfAt t) s ≠ candStars (tfAt u) s)
    (RQ RP : CanonicalPattern)
    (h1 : canonicalize (s.map (fun p => tfAt b p + d)) (c.map (fun p => tfAt b p + d)) = some RQ)
    (h2 : canonicalize s c = some RP) :
    RQ.canonicalStars = RP.canonicalStars ∧ RQ.canonicalCells = RP.canonicalCells :=
  canonicalize_cells_invariant s c hs b hb d hdist RQ RP h1 h2

/-- Witness for the amended C3: the asymmetric 3-star set `(0,0),(0,1),(2,0)`
with auxiliary `(5,7)`, transformed by `f6` and translated by `(3,1)`. -/
theorem claim_C3_witness :
    (([((0:Int),(0:Int)), (0, 1), (2, 0)] : List Point) ≠ [] ∧ 6 < 8)
    ∧ ∃ RQ RP : CanonicalPattern,
      canonicalize ([((0:Int),(0:Int)), (0, 1), (2, 0)].map (fun p => tfAt 6 p + (3, 1)))
        ([((5:Int),(7:Int))].map (fun p => tfAt 6 p + (3, 1))) = some RQ
      ∧ canonicalize [((0:Int),(0:Int)), (0, 1), (2, 0)] [((5:Int),(7:Int))] = some RP
      ∧ RQ.canonicalStars = RP.canonicalStars ∧ RQ.canonicalCells = RP.canonicalCells := by
  refine ⟨⟨by decide, by decide⟩,
    CanonicalPattern.mk [(0, 0), (0, 1), (2, 0)] [(5, 7)] 5 (-1, 3),
    CanonicalPattern.mk [(0, 0), (0, 1), (2, 0)] [(5, 7)] 0 (0, 0), by decide, by decide, ?_⟩
  exact claim_C3_canonicalize_aux_amended [((0:Int),(0:Int)), (0, 1), (2, 0)] [((5:Int),(7:Int))]
    (by decide) 6 (by decide) (3, 1) (by decide) _ _ (by decide) (by decide)

/-- Counterexample to C8 as stated: canonicalizing the single star `(1,1)`
with auxiliary cell `(0,0)` translates by the star minimum `(1,1)`, so the
canonical auxiliary cell is `(-1,-1)`, which has negative coordinates. -/
theorem claim_C8_counterexample :
    (canonicalize [((1:Int),(1:Int))] [((0:Int),(0:Int))]).map
      CanonicalPattern.canonicalCells = some [((-1:Int),(-1:Int))]
    ∧ ¬ (0 ≤ (-1 : Int)) := by
  exact ⟨by decide, by decide⟩

/-- C8 (amended): every coordinate of every `canonicalStars` point is
non-negative (the translation moves the star minimum to the origin), but
canonical auxiliary cells may be negative when an auxiliary point lies above
or to the left of the star bounding box, as the counterexample shows. -/
theorem claim_C8_canonicalStars_nonneg (s c : List Point) (R : CanonicalPattern)
    (h : canonicalize s c = some R) :
    ∀ p ∈ R.canonicalStars, 0 ≤ p.1 ∧ 0 ≤ p.2 := by
  have hs : s ≠ [] := by
    intro he
    rw [he] at h
    simp [canonicalize] at h
  rcases canonicalize_spec s c hs with ⟨Rx, he, ⟨t, ht, hRt⟩, -⟩
  rw [h] at he; cases he
  intro p hp
  rw [hRt, canonCandidate_stars] at hp
  unfold candStars at hp
  have hp2 := (sortPts_perm _).mem_iff.mp hp
  rcases List.mem_map.mp hp2 with ⟨q, hq, rfl⟩
  constructor
  · have : minList ((s.map (tfAt t)).map Prod.fst) ≤ q.1 :=
      minList_le (List.mem_map_of_mem _ hq)
    simpa using this
  · have : minList ((s.map (tfAt t)).map Prod.snd) ≤ q.2 :=
      minList_le (List.mem_map_of_mem _ hq)
    simpa using this

/-- Witness for the amended C8 at the concrete input of the counterexample:
the canonical stars are non-negative there. -/
theorem claim_C8_witness :
    canonicalize [((1:Int),(1:Int))] [((0:Int),(0:Int))]
      = some (CanonicalPattern.mk [(0, 0)] [(-1, -1)] 0 (1, 1))
    ∧ ∀ p ∈ (CanonicalPattern.mk [((0:Int),(0:Int))] [((-1:Int),(-1:Int))] 0
        ((1:Int), (1:Int))).canonicalStars, 0 ≤ p.1 ∧ 0 ≤ p.2 := by
  refine ⟨by decide, ?_⟩
  exact claim_C8_canonicalStars_nonneg [((1:Int),(1:Int))] [((0:Int),(0:Int))] _ (by decide)

/-!
The Enumerator (`ConfigurationEnumerator` in `enumeration.ts`). A grid is the
`number[][]` 0/1 matrix; cell reads out of range default to 0, matching the
initialised `boardSize × boardSize` grid the source only ever indexes in
range.
-/

/-- A board grid: `boardSize` rows of `boardSize` numbers (0 or 1). -/
abbrev Grid := List (List Nat)

/-- Read `grid[r][c]` (0 outside the allocated matrix). -/
def gget (g : Grid) (r c : Nat) : Nat := (g.getD r []).getD c 0

/-- Write `grid[r][c] = v`. -/
def gset (g : Grid) (r c : Nat) (v : Nat) : Grid := g.set r ((g.getD r []).set c v)

/-- `countStarsInRow`: sum of the row. -/
def countRow (g : Grid) (r : Nat) : Nat := (g.getD r []).sum

/-- `countStarsInColumn`: sum of column `c` over the `boardSize` rows. -/
def countCol (n : Nat) (g : Grid) (c : Nat) : Nat :=
  ((List.range n).map (fun r => gget g r c)).sum

/-- `isValidPlacement`: no star in any of the 8 in-bounds neighbours of
`(row, col)`. -/
def isValidPlacement (n : Nat) (g : Grid) (row col : Nat) : Bool :=
  ([-1, 0, 1] : List Int).all fun dr =>
    ([-1, 0, 1] : List Int).all fun dc =>
      if dr = 0 ∧ dc = 0 then true
      else
        let nr : Int := row + dr
        let nc : Int := col + dc
        if 0 ≤ nr ∧ nr < n ∧ 0 ≤ nc ∧ nc < n then
          decide (gget g nr.toNat nc.toNat ≠ 1)
        else true

/-- The backtracking search of `ConfigurationEnumerator.backtrack`, cell by
cell in row-major order. The `fuel` argument only bounds the recursion depth
(the source recursion terminates because `(row, col)` advances);
`enumerate` supplies enough fuel for the whole search. -/
def backtrack (n s : Nat) (fuel : Nat) (g : Grid) (row col : Nat) : List Grid :=
  match fuel with
  | 0 => []
  | fuel + 1 =>
    if row = n then
      -- verify all columns have the correct star count
      if (List.range n).all (fun c => countCol n g c = s) then [g] else []
    else
      let starsInRow := countRow g row
      -- pruning: not enough cells left in the row for the missing stars
      if (s : Int) - starsInRow > (n : Int) - col then []
      -- early column check on the previously completed column
      else if 0 < col ∧ s < countCol n g (col - 1) then []
      else if col = n then
        if starsInRow = s then
          if (List.range n).all (fun c => countCol n g c ≤ s) then
            backtrack n s fuel g (row + 1) 0
          else []
        else []
      else
        (if starsInRow < s ∧ isValidPlacement n g row col then
          backtrack n s fuel (gset g row col 1) row (col + 1)
        else []) ++ backtrack n s fuel g row (col + 1)

/-- `ConfigurationEnumerator.enumerate`: search from the all-zero grid. -/
def enumerate (n s : Nat) : List Grid :=
  backtrack n s ((n + 1) * (n + 2)) (List.replicate n (List.replicate n 0)) 0 0

/-- `ConfigurationEnumerator.isLocallyValid` on cells given as points. -/
def isLocallyValid (cells : List (Nat × Nat)) : Bool :=
  cells.Pairwise (fun a b =>
    ¬ (((a.1 : Int) - b.1).natAbs ≤ 1 ∧ ((a.2 : Int) - b.2).natAbs ≤ 1))

/-- `ConfigurationEnumerator.isPatternCompatible`: a star at every pattern
cell. -/
def isPatternCompatible (pattern : List (Nat × Nat)) (solution : Grid) : Bool :=
  pattern.all (fun cell => gget solution cell.1 cell.2 = 1)

/-- The board dimensions: an `n × n` matrix. -/
def gridDims (n : Nat) (g : Grid) : Prop := g.length = n ∧ ∀ row ∈ g, row.length = n

/-- All entries are 0 or 1. -/
def gridBinary (g : Grid) : Prop := ∀ row ∈ g, ∀ v ∈ row, v = 0 ∨ v = 1

/-- Chebyshev distance at most 1 between two cells. -/
def chebAdj (r1 c1 r2 c2 : Nat) : Prop :=
  ((r1 : Int) - r2).natAbs ≤ 1 ∧ ((c1 : Int) - c2).natAbs ≤ 1

/-- No two distinct 1-cells lie within Chebyshev distance 1. -/
def noAdjacentStars (n : Nat) (g : Grid) : Prop :=
  ∀ r1, r1 < n → ∀ c1, c1 < n → ∀ r2, r2 < n → ∀ c2, c2 < n →
    (r1, c1) ≠ (r2, c2) → gget g r1 c1 = 1 → gget g r2 c2 = 1 → ¬ chebAdj r1 c1 r2 c2

/-- The specification of a valid configuration: an `n × n` 0/1 matrix whose
rows and columns each sum to `s`, with no two stars within Chebyshev
distance 1. -/
def isValidConfig (n s : Nat) (g : Grid) : Prop :=
  gridDims n g ∧ gridBinary g ∧ (∀ r, r < n → countRow g r = s) ∧
    (∀ c, c < n → countCol n g c = s) ∧ noAdjacentStars n g

instance (n : Nat) (g : Grid) : Decidable (gridDims n g) := by
  unfold gridDims; infer_instance

instance (g : Grid) : Decidable (gridBinary g) := by
  unfold gridBinary; infer_instance

instance (r1 c1 r2 c2 : Nat) : Decidable (chebAdj r1 c1 r2 c2) := by
  unfold chebAdj; infer_instance

theorem noAdjacentStars_iff (n : Nat) (g : Grid) :
    noAdjacentStars n g ↔ ∀ r1 ∈ List.range n, ∀ c1 ∈ List.range n,
      ∀ r2 ∈ List.range n, ∀ c2 ∈ List.range n,
        (r1, c1) ≠ (r2, c2) → gget g r1 c1 = 1 → gget g r2 c2 = 1 →
          ¬ chebAdj r1 c1 r2 c2 := by
  unfold noAdjacentStars
  simp only [List.mem_range]

instance (n : Nat) (g : Grid) : Decidable (noAdjacentStars n g) :=
  decidable_of_iff _ (noAdjacentStars_iff n g).symm

instance (n s : Nat) (g : Grid) : Decidable (isValidConfig n s g) := by
  unfold isValidConfig; infer_instance

theorem listGetD_set_self {α : Type} (l : List α) (i : Nat) (a d : α) (h : i < l.length) :
    (l.set i a).getD i d = a := by
  induction l generalizing i with
  | nil => simp at h
  | cons x xs ih =>
    cases i with
    | zero => rfl
    | succ j =>
      simp only [List.set_cons_succ, List.getD_cons_succ]
      exact ih j (by simpa using h)

theorem listGetD_set_ne {α : Type} (l : List α) (i j : Nat) (a d : α) (h : i ≠ j) :
    (l.set i a).getD j d = l.getD j d := by
  induction l generalizing i j with
  | nil => simp
  | cons x xs ih =>
    cases i with
    | zero =>
      cases j with
      | zero => exact absurd rfl h
      | succ k => rfl
    | succ i2 =>
      cases j with
      | zero => rfl
      | succ k =>
        simp only [List.set_cons_succ, List.getD_cons_succ]
        exact ih i2 k (by omega)

theorem gget_gset_self (g : Grid) (r c v : Nat) (hr : r < g.length)
    (hc : c < (g.getD r []).length) : gget (gset g r c v) r c = v := by
  unfold gget gset
  rw [listGetD_set_self g r _ [] hr]
  exact listGetD_set_self _ c v 0 hc

theorem gget_gset_ne (g : Grid) (r c v r2 c2 : Nat) (h : (r2, c2) ≠ (r, c)) :
    gget (gset g r c v) r2 c2 = gget g r2 c2 := by
  unfold gget gset
  by_cases hr : r = r2
  · subst hr
    have hc : c ≠ c2 := by
      intro he; exact h (by rw [he])
    by_cases hlen : r < g.length
    · rw [listGetD_set_self g r _ [] hlen]
      exact listGetD_set_ne _ c c2 v 0 hc
    · rw [List.set_eq_of_length_le (by omega)]
  · rw [listGetD_set_ne g r r2 _ [] hr]

theorem gset_length (g : Grid) (r c v : Nat) : (gset g r c v).length = g.length :=
  List.length_set g r _

theorem listGetD_mem {α : Type} (l : List α) (i : Nat) (d : α) (h : i < l.length) :
    l.getD i d ∈ l := by
  induction l generalizing i with
  | nil => simp at h
  | cons x xs ih =>
    cases i with
    | zero => exact List.mem_cons_self _ _
    | succ j =>
      simp only [List.getD_cons_succ]
      exact List.mem_cons_of_mem _ (ih j (by simpa using h))

theorem gridDims_gset (n : Nat) (g : Grid) (r c v : Nat) (h : gridDims n g) :
    gridDims n (gset g r c v) := by
  rcases h with ⟨h1, h2⟩
  refine ⟨by rw [gset_length, h1], ?_⟩
  intro row hrow
  unfold gset at hrow
  by_cases hlen : r < g.length
  · rcases List.mem_or_eq_of_mem_set hrow with hmem | heq
    · exact h2 row hmem
    · rw [heq, List.length_set]
      exact h2 _ (listGetD_mem g r [] hlen)
  · rw [List.set_eq_of_length_le (by omega)] at hrow
    exact h2 row hrow

theorem gridBinary_gset (g : Grid) (r c : Nat) (h : gridBinary g) :
    gridBinary (gset g r c 1) := by
  intro row hrow
  unfold gset at hrow
  by_cases hlen : r < g.length
  · rcases List.mem_or_eq_of_mem_set hrow with hmem | heq
    · exact h row hmem
    · intro v hv
      rw [heq] at hv
      rcases List.mem_or_eq_of_mem_set hv with hmem2 | heq2
      · exact h _ (listGetD_mem g r [] hlen) v hmem2
      · right; exact heq2
  · rw [List.set_eq_of_length_le (by omega)] at hrow
    exact h row hrow

/-- A list sum written as a sum of indexed reads. -/
theorem sum_eq_range_getD (l : List Nat) :
    l.sum = ((List.range l.length).map (fun c => l.getD c 0)).sum := by
  induction l with
  | nil => rfl
  | cons x xs ih =>
    simp only [List.sum_cons, List.length_cons, List.range_succ_eq_map, List.map_cons,
      List.getD_cons_zero, List.map_map]
    congr 1

theorem countRow_eq_range (n : Nat) (g : Grid) (r : Nat) (h : (g.getD r []).length = n) :
    countRow g r = ((List.range n).map (fun c => gget g r c)).sum := by
  unfold countRow gget
  rw [sum_eq_range_getD, h]

theorem countRow_gset_ne (g : Grid) (r c v r2 : Nat) (h : r ≠ r2) :
    countRow (gset g r c v) r2 = countRow g r2 := by
  unfold countRow gset
  rw [listGetD_set_ne g r r2 _ [] h]

/-- Row-major order on cells: `(r, c)` strictly before `(row, col)`. -/
def prefixLt (r c row col : Nat) : Prop := r < row ∨ (r = row ∧ c < col)

instance (r c row col : Nat) : Decidable (prefixLt r c row col) := by
  unfold prefixLt; infer_instance

/-- All in-bounds cells at or after `(row, col)` in row-major order are 0. -/
def zeroSuffix (n : Nat) (g : Grid) (row col : Nat) : Prop :=
  ∀ r c, r < n → c < n → ¬ prefixLt r c row col → gget g r c = 0

/-- Two grids agree on all in-bounds cells strictly before `(row, col)`. -/
def agreeUpTo (n : Nat) (g h : Grid) (row col : Nat) : Prop :=
  ∀ r c, r < n → c < n → prefixLt r c row col → gget g r c = gget h r c

/-- Invariant of the backtracking search at state `(g, row, col)`. -/
def searchInv (n s : Nat) (g : Grid) (row col : Nat) : Prop :=
  gridDims n g ∧ gridBinary g ∧ zeroSuffix n g row col ∧
    (∀ r, r < row → r < n → countRow g r = s) ∧ noAdjacentStars n g ∧
    row ≤ n ∧ col ≤ n ∧ (row = n → col = 0)

theorem gridDims_rowLen {n : Nat} {g : Grid} (h : gridDims n g) {r : Nat} (hr : r < n) :
    (g.getD r []).length = n :=
  h.2 _ (listGetD_mem g r [] (by rw [h.1]; exact hr))

theorem gridBinary_gget {g : Grid} (h : gridBinary g) (r c : Nat) :
    gget g r c = 0 ∨ gget g r c = 1 := by
  unfold gget
  by_cases hr : r < g.length
  · by_cases hc : c < (g.getD r []).length
    · exact h _ (listGetD_mem g r [] hr) _ (listGetD_mem _ c 0 hc)
    · left
      exact List.getD_eq_default _ _ (by omega)
  · left
    rw [show g.getD r [] = [] from List.getD_eq_default _ _ (by omega)]
    rfl

theorem gridBinary_gget_le {g : Grid} (h : gridBinary g) (r c : Nat) : gget g r c ≤ 1 := by
  rcases gridBinary_gget h r c with h1 | h1 <;> omega

/-- Splitting an indexed sum at position `k`. -/
theorem sum_range_split (k n : Nat) (f : Nat → Nat) (h : k ≤ n) :
    ((List.range n).map f).sum
      = ((List.range k).map f).sum + ((List.range (n - k)).map (fun i => f (k + i))).sum := by
  have hn : n = k + (n - k) := by omega
  conv_lhs => rw [hn]
  rw [List.range_add, List.map_append, List.sum_append, List.map_map]
  rfl

theorem sum_range_le_card (k : Nat) (f : Nat → Nat) (hf : ∀ i, i < k → f i ≤ 1) :
    ((List.range k).map f).sum ≤ k := by
  calc ((List.range k).map f).sum ≤ ((List.range k).map (fun _ => 1)).sum := by
        apply List.sum_le_sum
        intro i hi
        exact hf i (List.mem_range.mp hi)
    _ = k := by simp

/-- Column counts of a grid with zero suffix are dominated by those of any
binary grid agreeing on the prefix. -/
theorem countCol_le_of_extends {n : Nat} {g h : Grid} {row col : Nat}
    (hz : zeroSuffix n g row col) (ha : agreeUpTo n g h row col)
    (c : Nat) (hc : c < n) :
    countCol n g c ≤ countCol n h c := by
  unfold countCol
  apply List.sum_le_sum
  intro r hr
  have hrn := List.mem_range.mp hr
  by_cases hp : prefixLt r c row col
  · rw [ha r c hrn hc hp]
  · rw [hz r c hrn hc hp]
    omega

/-- Column counts only depend on cell reads, so grids that agree on all
in-bounds cells have the same counts. -/
theorem countCol_congr {n : Nat} {g h : Grid} (he : ∀ r, r < n → ∀ c, c < n →
    gget g r c = gget h r c) (c : Nat) (hc : c < n) :
    countCol n g c = countCol n h c := by
  unfold countCol
  congr 1
  refine List.map_congr_left (fun r hr => ?_)
  exact he r (List.mem_range.mp hr) c hc

theorem listGetD_eq_getElem {α : Type} (l : List α) (i : Nat) (d : α) (h : i < l.length) :
    l.getD i d = l[i] := by
  induction l generalizing i with
  | nil => simp at h
  | cons x xs ih =>
    cases i with
    | zero => rfl
    | succ j => exact ih j (by simpa using h)

/-- Two `n × n` grids with identical cell reads are equal as lists. -/
theorem gridExt {n : Nat} {g h : Grid} (hg : gridDims n g) (hh : gridDims n h)
    (he : ∀ r, r < n → ∀ c, c < n → gget g r c = gget h r c) : g = h := by
  apply List.ext_getElem (by rw [hg.1, hh.1])
  intro r hr1 hr2
  apply List.ext_getElem
  · have e1 : g[r].length = n := hg.2 _ (List.getElem_mem hr1)
    have e2 : h[r].length = n := hh.2 _ (List.getElem_mem hr2)
    rw [e1, e2]
  · intro c hc1 hc2
    have hrn : r < n := by rw [← hg.1]; exact hr1
    have hcn : c < n := by
      have e1 : g[r].length = n := hg.2 _ (List.getElem_mem hr1)
      rw [← e1]; exact hc1
    have hx := he r hrn c hcn
    unfold gget at hx
    rw [listGetD_eq_getElem g r [] hr1, listGetD_eq_getElem h r [] hr2] at hx
    rw [listGetD_eq_getElem _ c 0 hc1, listGetD_eq_getElem _ c 0 hc2] at hx
    exact hx

/-- What a successful `isValidPlacement` guarantees: no in-bounds cell other
than `(row, col)` within Chebyshev distance 1 holds a star. -/
theorem isValidPlacement_spec {n : Nat} {g : Grid} {row col : Nat}
    (h : isValidPlacement n g row col = true) :
    ∀ r2 c2, r2 < n → c2 < n → (r2, c2) ≠ (row, col) → chebAdj row col r2 c2 →
      gget g r2 c2 ≠ 1 := by
  intro r2 c2 hr2 hc2 hne hadj
  unfold isValidPlacement at h
  simp only [List.all_eq_true] at h
  have hdr : (r2 : Int) - row ∈ ([-1, 0, 1] : List Int) := by
    rcases hadj with ⟨h1, -⟩
    simp only [List.mem_cons, List.mem_singleton]
    omega
  have hdc : (c2 : Int) - col ∈ ([-1, 0, 1] : List Int) := by
    rcases hadj with ⟨-, h2⟩
    simp only [List.mem_cons, List.mem_singleton]
    omega
  have := h _ hdr _ hdc
  have hnz : ¬ ((r2 : Int) - row = 0 ∧ (c2 : Int) - col = 0) := by
    rintro ⟨e1, e2⟩
    apply hne
    have : r2 = row := by omega
    have : c2 = col := by omega
    simp_all
  rw [if_neg hnz] at this
  have hin : 0 ≤ (row : Int) + ((r2 : Int) - row) ∧ (row : Int) + ((r2 : Int) - row) < n
      ∧ 0 ≤ (col : Int) + ((c2 : Int) - col) ∧ (col : Int) + ((c2 : Int) - col) < n := by
    refine ⟨by omega, by omega, by omega, by omega⟩
  rw [if_pos hin] at this
  simp only [decide_eq_true_eq] at this
  have e1 : ((row : Int) + ((r2 : Int) - row)).toNat = r2 := by omega
  have e2 : ((col : Int) + ((c2 : Int) - col)).toNat = c2 := by omega
  rwa [e1, e2] at this

/-- Sum of the first `col` cells of row `row`. -/
def rowPref (g : Grid) (row col : Nat) : Nat :=
  ((List.range col).map (fun c => gget g row c)).sum

theorem rowPref_eq_of_agree {n : Nat} {g h : Grid} {row col : Nat}
    (hag : agreeUpTo n g h row col) (hrow : row < n) (hcol : col ≤ n) :
    rowPref g row col = rowPref h row col := by
  unfold rowPref
  congr 1
  apply List.map_congr_left
  intro c hc
  have hcc := List.mem_range.mp hc
  exact hag row c hrow (by omega) (Or.inr ⟨rfl, hcc⟩)

theorem countRow_eq_rowPref {n : Nat} {g : Grid} {row col : Nat} (hd : gridDims n g)
    (hz : zeroSuffix n g row col) (hrow : row < n) (hcol : col ≤ n) :
    countRow g row = rowPref g row col := by
  rw [countRow_eq_range n g row (gridDims_rowLen hd hrow), sum_range_split col n _ hcol]
  have hzero : ((List.range (n - col)).map (fun i => gget g row (col + i))).sum = 0 := by
    apply List.sum_eq_zero
    intro x hx
    rcases List.mem_map.mp hx with ⟨i, hi, rfl⟩
    have hin := List.mem_range.mp hi
    exact hz row (col + i) hrow (by omega) (by unfold prefixLt; omega)
  unfold rowPref
  omega

theorem countRow_lower {n : Nat} {g : Grid} {row col : Nat} (hd : gridDims n g)
    (hrow : row < n) (hcol : col < n) :
    rowPref g row col + gget g row col ≤ countRow g row := by
  rw [countRow_eq_range n g row (gridDims_rowLen hd hrow), sum_range_split col n _ hcol.le]
  unfold rowPref
  have hmem : gget g row col ∈ (List.range (n - col)).map (fun i => gget g row (col + i)) :=
    List.mem_map.mpr ⟨0, List.mem_range.mpr (by omega), rfl⟩
  have := List.single_le_sum (fun x _ => Nat.zero_le x) _ hmem
  omega

theorem countRow_upper {n : Nat} {g : Grid} {row col : Nat} (hd : gridDims n g)
    (hb : gridBinary g) (hrow : row < n) (hcol : col ≤ n) :
    countRow g row ≤ rowPref g row col + (n - col) := by
  rw [countRow_eq_range n g row (gridDims_rowLen hd hrow), sum_range_split col n _ hcol]
  unfold rowPref
  have := sum_range_le_card (n - col) (fun i => gget g row (col + i))
    (fun i _ => gridBinary_gget_le hb row (col + i))
  omega

/-- The full row sum is the prefix sum up to column `n`. -/
theorem countRow_eq_rowPref_n {n : Nat} {g : Grid} {row : Nat} (hd : gridDims n g)
    (hrow : row < n) : countRow g row = rowPref g row n :=
  countRow_eq_range n g row (gridDims_rowLen hd hrow)

theorem chebAdj_symm {r1 c1 r2 c2 : Nat} (h : chebAdj r1 c1 r2 c2) : chebAdj r2 c2 r1 c1 := by
  unfold chebAdj at h ⊢
  omega

/-- Characterisation of the backtracking search: with sufficient fuel and the
search invariant, a grid is produced exactly when it is a valid configuration
extending the current partial assignment. -/
theorem backtrack_mem_iff (n s : Nat) : ∀ fuel row col g,
    (n - row) * (n + 2) + (n + 1 - col) < fuel →
    searchInv n s g row col →
    ∀ h, h ∈ backtrack n s fuel g row col ↔
      (isValidConfig n s h ∧ agreeUpTo n g h row col) := by
  intro fuel
  induction fuel with
  | zero =>
    intro row col g hfuel
    exact absurd hfuel (Nat.not_lt_zero _)
  | succ fuel ih =>
    intro row col g hfuel hinv h
    obtain ⟨hdims, hbin, hzero, hrowsDone, hadj, hrowle, hcolle, hrc0⟩ := hinv
    simp only [backtrack]
    by_cases hrown : row = n
    · rw [if_pos hrown]
      by_cases hall : ∀ c, c < n → countCol n g c = s
      · rw [if_pos (show ((List.range n).all fun c => decide (countCol n g c = s)) = true from by
          rw [List.all_eq_true]
          intro c hc
          exact decide_eq_true (hall c (List.mem_range.mp hc)))]
        simp only [List.mem_singleton]
        constructor
        · rintro rfl
          refine ⟨⟨hdims, hbin, ?_, ?_, hadj⟩, ?_⟩
          · intro r hr
            exact hrowsDone r (by omega) hr
          · intro c hc
            exact hall c hc
          · intro r c _ _ _
            rfl
        · rintro ⟨hv, hag⟩
          have he : ∀ r, r < n → ∀ c, c < n → gget g r c = gget h r c := by
            intro r hr c hc
            exact hag r c hr hc (Or.inl (by omega))
          exact (gridExt hdims hv.1 he).symm
      · rw [if_neg (show ¬ (((List.range n).all fun c => decide (countCol n g c = s)) = true) from by
          intro hb
          apply hall
          intro c hc
          exact of_decide_eq_true (List.all_eq_true.mp hb c (List.mem_range.mpr hc)))]
        simp only [List.not_mem_nil, false_iff]
        rintro ⟨hv, hag⟩
        apply hall
        intro c hc
        have he : ∀ r, r < n → ∀ c2, c2 < n → gget g r c2 = gget h r c2 :=
          fun r hr c2 hc2 => hag r c2 hr hc2 (Or.inl (by omega))
        rw [countCol_congr he c hc]
        exact hv.2.2.2.1 c hc
    · rw [if_neg hrown]
      have hrowlt : row < n := lt_of_le_of_ne hrowle hrown
      by_cases hp1 : (s : Int) - (countRow g row : Int) > (n : Int) - (col : Int)
      · rw [if_pos hp1]
        simp only [List.not_mem_nil, false_iff]
        rintro ⟨hv, hag⟩
        have h1 : countRow h row = s := hv.2.2.1 row hrowlt
        have h2 : countRow h row ≤ rowPref h row col + (n - col) :=
          countRow_upper hv.1 hv.2.1 hrowlt hcolle
        have h3 : rowPref g row col = rowPref h row col := rowPref_eq_of_agree hag hrowlt hcolle
        have h4 : countRow g row = rowPref g row col := countRow_eq_rowPref hdims hzero hrowlt hcolle
        omega
      · rw [if_neg hp1]
        by_cases hp2 : 0 < col ∧ s < countCol n g (col - 1)
        · rw [if_pos hp2]
          simp only [List.not_mem_nil, false_iff]
          rintro ⟨hv, hag⟩
          obtain ⟨hc0, hclt⟩ := hp2
          have hcn : col - 1 < n := by omega
          have h5 : countCol n g (col - 1) ≤ countCol n h (col - 1) :=
            countCol_le_of_extends hzero hag _ hcn
          have h6 : countCol n h (col - 1) = s := hv.2.2.2.1 _ hcn
          omega
        · rw [if_neg hp2]
          by_cases hcoln : col = n
          · rw [if_pos hcoln]
            by_cases hsir : countRow g row = s
            · by_cases hall2 : ∀ c, c < n → countCol n g c ≤ s
              · rw [if_pos hsir, if_pos (show ((List.range n).all fun c =>
                    decide (countCol n g c ≤ s)) = true from by
                  rw [List.all_eq_true]
                  intro c hc
                  exact decide_eq_true (hall2 c (List.mem_range.mp hc)))]
                have hmeas2 : (n - (row + 1)) * (n + 2) + (n + 1 - 0) < fuel := by
                  have h11 : n + 1 - col = 1 := by omega
                  have hkey : (n - row) * (n + 2) = (n - (row + 1)) * (n + 2) + (n + 2) := by
                    have h2 : n - row = (n - (row + 1)) + 1 := by omega
                    rw [h2]; ring
                  simp only [Nat.sub_zero]
                  rw [h11] at hfuel
                  linarith [hfuel, hkey]
                have hinv2 : searchInv n s g (row + 1) 0 := by
                  refine ⟨hdims, hbin, ?_, ?_, hadj, by omega, by omega, fun _ => rfl⟩
                  · intro r c hr hc hp
                    apply hzero r c hr hc
                    intro hp2
                    apply hp
                    unfold prefixLt at hp2 ⊢
                    omega
                  · intro r hr hrn
                    rcases (by omega : r < row ∨ r = row) with h2 | h2
                    · exact hrowsDone r h2 hrn
                    · rw [h2]; exact hsir
                rw [ih (row + 1) 0 g hmeas2 hinv2 h]
                constructor
                · rintro ⟨hv, ha⟩
                  refine ⟨hv, ?_⟩
                  intro r c hr hc hp
                  apply ha r c hr hc
                  unfold prefixLt at hp ⊢
                  omega
                · rintro ⟨hv, ha⟩
                  refine ⟨hv, ?_⟩
                  intro r c hr hc hp
                  apply ha r c hr hc
                  unfold prefixLt at hp ⊢
                  omega
              · rw [if_pos hsir, if_neg (show ¬ (((List.range n).all fun c =>
                    decide (countCol n g c ≤ s)) = true) from by
                  intro hb
                  apply hall2
                  intro c hc
                  exact of_decide_eq_true (List.all_eq_true.mp hb c (List.mem_range.mpr hc)))]
                simp only [List.not_mem_nil, false_iff]
                rintro ⟨hv, hag⟩
                apply hall2
                intro c hc
                calc countCol n g c ≤ countCol n h c := countCol_le_of_extends hzero hag c hc
                  _ = s := hv.2.2.2.1 c hc
            · rw [if_neg hsir]
              simp only [List.not_mem_nil, false_iff]
              rintro ⟨hv, hag⟩
              apply hsir
              have e1 : countRow g row = rowPref g row n := countRow_eq_rowPref_n hdims hrowlt
              have e2 : countRow h row = rowPref h row n := countRow_eq_rowPref_n hv.1 hrowlt
              have e3 : rowPref g row n = rowPref h row n := by
                apply rowPref_eq_of_agree _ hrowlt le_rfl
                intro r c hr hc hp
                apply hag r c hr hc
                unfold prefixLt at hp ⊢
                omega
              have e4 : countRow h row = s := hv.2.2.1 row hrowlt
              omega
          · rw [if_neg hcoln]
            have hcollt : col < n := lt_of_le_of_ne hcolle hcoln
            rw [List.mem_append]
            have hmeas : (n - row) * (n + 2) + (n + 1 - (col + 1)) < fuel := by
              have h13 : n + 1 - (col + 1) + 1 = n + 1 - col := by omega
              linarith [hfuel, h13]
            have hinvR : searchInv n s g row (col + 1) := by
              refine ⟨hdims, hbin, ?_, hrowsDone, hadj, hrowle, by omega,
                fun he => absurd he hrown⟩
              intro r c hr hc hp
              apply hzero r c hr hc
              intro hp2
              apply hp
              unfold prefixLt at hp2 ⊢
              omega
            have hR := ih row (col + 1) g hmeas hinvR h
            by_cases hguard : countRow g row < s ∧ isValidPlacement n g row col = true
            · rw [if_pos hguard]
              have hrlen : row < g.length := by rw [hdims.1]; exact hrowlt
              have hclen : col < (g.getD row []).length := by
                rw [gridDims_rowLen hdims hrowlt]; exact hcollt
              have hgself : gget (gset g row col 1) row col = 1 :=
                gget_gset_self g row col 1 hrlen hclen
              have hgne : ∀ r c, (r, c) ≠ (row, col) →
                  gget (gset g row col 1) r c = gget g r c :=
                fun r c hne => gget_gset_ne g row col 1 r c hne
              have hinvL : searchInv n s (gset g row col 1) row (col + 1) := by
                refine ⟨gridDims_gset n g row col 1 hdims, gridBinary_gset g row col hbin,
                  ?_, ?_, ?_, hrowle, by omega, fun he => absurd he hrown⟩
                · intro r c hr hc hp
                  have hne : (r, c) ≠ (row, col) := by
                    intro he
                    injection he with e1 e2
                    subst e1; subst e2
                    exact hp (Or.inr ⟨rfl, by omega⟩)
                  rw [hgne r c hne]
                  apply hzero r c hr hc
                  intro hp2
                  apply hp
                  unfold prefixLt at hp2 ⊢
                  omega
                · intro r hr hrn
                  rw [countRow_gset_ne g row col 1 r (by omega)]
                  exact hrowsDone r hr hrn
                · intro r1 hr1 c1 hc1 r2 hr2 c2 hc2 hne h1 h2 hch
                  by_cases e1 : (r1, c1) = (row, col) <;> by_cases e2 : (r2, c2) = (row, col)
                  · exact hne (e1.trans e2.symm)
                  · have hg2 : gget g r2 c2 = 1 := by rw [← hgne r2 c2 e2]; exact h2
                    injection e1 with er ec
                    subst er; subst ec
                    exact isValidPlacement_spec hguard.2 r2 c2 hr2 hc2 e2 hch hg2
                  · have hg1 : gget g r1 c1 = 1 := by rw [← hgne r1 c1 e1]; exact h1
                    injection e2 with er ec
                    subst er; subst ec
                    exact isValidPlacement_spec hguard.2 r1 c1 hr1 hc1 e1 (chebAdj_symm hch) hg1
                  · rw [hgne r1 c1 e1] at h1
                    rw [hgne r2 c2 e2] at h2
                    exact hadj r1 hr1 c1 hc1 r2 hr2 c2 hc2 hne h1 h2 hch
              have hL := ih row (col + 1) (gset g row col 1) hmeas hinvL h
              rw [hL, hR]
              constructor
              · rintro (⟨hv, ha⟩ | ⟨hv, ha⟩)
                · refine ⟨hv, ?_⟩
                  intro r c hr hc hp
                  have hne : (r, c) ≠ (row, col) := by
                    unfold prefixLt at hp
                    intro he
                    injection he with e1 e2
                    omega
                  rw [← hgne r c hne]
                  apply ha r c hr hc
                  unfold prefixLt at hp ⊢
                  omega
                · refine ⟨hv, ?_⟩
                  intro r c hr hc hp
                  apply ha r c hr hc
                  unfold prefixLt at hp ⊢
                  omega
              · rintro ⟨hv, ha⟩
                rcases gridBinary_gget hv.2.1 row col with h0 | h1
                · right
                  refine ⟨hv, ?_⟩
                  intro r c hr hc hp
                  by_cases hne : (r, c) = (row, col)
                  · injection hne with e1 e2
                    rw [e1, e2, hzero row col hrowlt hcollt (by unfold prefixLt; omega), h0]
                  · apply ha r c hr hc
                    have hne2 : r ≠ row ∨ c ≠ col := by
                      by_contra hcon
                      push_neg at hcon
                      exact hne (by rw [hcon.1, hcon.2])
                    unfold prefixLt at hp ⊢
                    omega
                · left
                  refine ⟨hv, ?_⟩
                  intro r c hr hc hp
                  by_cases hne : (r, c) = (row, col)
                  · injection hne with e1 e2
                    rw [e1, e2, hgself, h1]
                  · rw [hgne r c hne]
                    apply ha r c hr hc
                    have hne2 : r ≠ row ∨ c ≠ col := by
                      by_contra hcon
                      push_neg at hcon
                      exact hne (by rw [hcon.1, hcon.2])
                    unfold prefixLt at hp ⊢
                    omega
            · rw [if_neg hguard]
              simp only [List.not_mem_nil, false_or]
              rw [hR]
              constructor
              · rintro ⟨hv, ha⟩
                refine ⟨hv, ?_⟩
                intro r c hr hc hp
                apply ha r c hr hc
                unfold prefixLt at hp ⊢
                omega
              · rintro ⟨hv, ha⟩
                refine ⟨hv, ?_⟩
                have hcell : gget h row col = 0 := by
                  rcases gridBinary_gget hv.2.1 row col with h0 | h1
                  · exact h0
                  · exfalso
                    apply hguard
                    constructor
                    · have e4 : countRow h row = s := hv.2.2.1 row hrowlt
                      have e5 : rowPref h row col + gget h row col ≤ countRow h row :=
                        countRow_lower hv.1 hrowlt hcollt
                      have e3 : rowPref g row col = rowPref h row col :=
                        rowPref_eq_of_agree ha hrowlt hcolle
                      have e6 : countRow g row = rowPref g row col :=
                        countRow_eq_rowPref hdims hzero hrowlt hcolle
                      omega
                    · unfold isValidPlacement
                      rw [List.all_eq_true]
                      intro dr hdr
                      rw [List.all_eq_true]
                      intro dc hdc
                      dsimp only
                      by_cases hz00 : dr = 0 ∧ dc = 0
                      · rw [if_pos hz00]
                      · rw [if_neg hz00]
                        by_cases hin : 0 ≤ (row : Int) + dr ∧ (row : Int) + dr < (n : Int) ∧
                            0 ≤ (col : Int) + dc ∧ (col : Int) + dc < (n : Int)
                        · rw [if_pos hin]
                          rw [decide_eq_true_eq]
                          intro hstar
                          simp only [List.mem_cons, List.not_mem_nil, or_false] at hdr hdc
                          obtain ⟨r2, hr2eq⟩ : ∃ r2 : Nat, ((row : Int) + dr).toNat = r2 :=
                            ⟨_, rfl⟩
                          obtain ⟨c2, hc2eq⟩ : ∃ c2 : Nat, ((col : Int) + dc).toNat = c2 :=
                            ⟨_, rfl⟩
                          rw [hr2eq, hc2eq] at hstar
                          have hr2 : r2 < n := by omega
                          have hc2 : c2 < n := by omega
                          have hne2 : (r2, c2) ≠ (row, col) := by
                            intro he
                            injection he with u1 u2
                            apply hz00
                            constructor <;> omega
                          have hpre : prefixLt r2 c2 row col := by
                            by_contra hnp
                            rw [hzero r2 c2 hr2 hc2 hnp] at hstar
                            exact absurd hstar (by omega)
                          have hsh : gget h r2 c2 = 1 := by
                            rw [← ha r2 c2 hr2 hc2 hpre]
                            exact hstar
                          have hch : chebAdj row col r2 c2 := by
                            unfold chebAdj
                            constructor <;> omega
                          exact hv.2.2.2.2 row hrowlt col hcollt r2 hr2 c2 hc2
                            (fun he => hne2 he.symm) h1 hsh hch
                        · rw [if_neg hin]
                · intro r c hr hc hp
                  by_cases hne : (r, c) = (row, col)
                  · injection hne with e1 e2
                    rw [e1, e2, hzero row col hrowlt hcollt (by unfold prefixLt; omega), hcell]
                  · apply ha r c hr hc
                    have hne2 : r ≠ row ∨ c ≠ col := by
                      by_contra hcon
                      push_neg at hcon
                      exact hne (by rw [hcon.1, hcon.2])
                    unfold prefixLt at hp ⊢
                    omega

/-- Placing a star at the current cell preserves the search invariant when the
placement check succeeds. -/
theorem searchInv_gset {n s : Nat} {g : Grid} {row col : Nat}
    (hinv : searchInv n s g row col) (hrowlt : row < n) (hcollt : col < n)
    (hvp : isValidPlacement n g row col = true) :
    searchInv n s (gset g row col 1) row (col + 1) := by
  obtain ⟨hdims, hbin, hzero, hrowsDone, hadj, hrowle, hcolle, hrc0⟩ := hinv
  have hgne : ∀ r c, (r, c) ≠ (row, col) → gget (gset g row col 1) r c = gget g r c :=
    fun r c hne => gget_gset_ne g row col 1 r c hne
  refine ⟨gridDims_gset n g row col 1 hdims, gridBinary_gset g row col hbin,
    ?_, ?_, ?_, hrowle, by omega, fun he => absurd he (by omega)⟩
  · intro r c hr hc hp
    have hne : (r, c) ≠ (row, col) := by
      intro he
      injection he with e1 e2
      subst e1; subst e2
      exact hp (Or.inr ⟨rfl, by omega⟩)
    rw [hgne r c hne]
    apply hzero r c hr hc
    intro hp2
    apply hp
    unfold prefixLt at hp2 ⊢
    omega
  · intro r hr hrn
    rw [countRow_gset_ne g row col 1 r (by omega)]
    exact hrowsDone r hr hrn
  · intro r1 hr1 c1 hc1 r2 hr2 c2 hc2 hne h1 h2 hch
    by_cases e1 : (r1, c1) = (row, col) <;> by_cases e2 : (r2, c2) = (row, col)
    · exact hne (e1.trans e2.symm)
    · have hg2 : gget g r2 c2 = 1 := by rw [← hgne r2 c2 e2]; exact h2
      injection e1 with er ec
      subst er; subst ec
      exact isValidPlacement_spec hvp r2 c2 hr2 hc2 e2 hch hg2
    · have hg1 : gget g r1 c1 = 1 := by rw [← hgne r1 c1 e1]; exact h1
      injection e2 with er ec
      subst er; subst ec
      exact isValidPlacement_spec hvp r1 c1 hr1 hc1 e1 (chebAdj_symm hch) hg1
    · rw [hgne r1 c1 e1] at h1
      rw [hgne r2 c2 e2] at h2
      exact hadj r1 hr1 c1 hc1 r2 hr2 c2 hc2 hne h1 h2 hch

/-- The backtracking search never emits the same grid twice. -/
theorem backtrack_nodup (n s : Nat) : ∀ fuel row col g,
    (n - row) * (n + 2) + (n + 1 - col) < fuel →
    searchInv n s g row col →
    (backtrack n s fuel g row col).Nodup := by
  intro fuel
  induction fuel with
  | zero =>
    intro row col g hfuel
    exact absurd hfuel (Nat.not_lt_zero _)
  | succ fuel ih =>
    intro row col g hfuel hinv
    obtain ⟨hdims, hbin, hzero, hrowsDone, hadj, hrowle, hcolle, hrc0⟩ := hinv
    simp only [backtrack]
    by_cases hrown : row = n
    · rw [if_pos hrown]
      split
      · exact List.nodup_singleton g
      · exact List.nodup_nil
    · rw [if_neg hrown]
      have hrowlt : row < n := lt_of_le_of_ne hrowle hrown
      by_cases hp1 : (s : Int) - (countRow g row : Int) > (n : Int) - (col : Int)
      · rw [if_pos hp1]; exact List.nodup_nil
      · rw [if_neg hp1]
        by_cases hp2 : 0 < col ∧ s < countCol n g (col - 1)
        · rw [if_pos hp2]; exact List.nodup_nil
        · rw [if_neg hp2]
          by_cases hcoln : col = n
          · rw [if_pos hcoln]
            by_cases hsir : countRow g row = s
            · rw [if_pos hsir]
              split
              · refine ih (row + 1) 0 g ?_ ?_
                · have h11 : n + 1 - col = 1 := by omega
                  have hkey : (n - row) * (n + 2) = (n - (row + 1)) * (n + 2) + (n + 2) := by
                    have h2 : n - row = (n - (row + 1)) + 1 := by omega
                    rw [h2]; ring
                  simp only [Nat.sub_zero]
                  rw [h11] at hfuel
                  linarith [hfuel, hkey]
                · refine ⟨hdims, hbin, ?_, ?_, hadj, by omega, by omega, fun _ => rfl⟩
                  · intro r c hr hc hp
                    apply hzero r c hr hc
                    intro hp2
                    apply hp
                    unfold prefixLt at hp2 ⊢
                    omega
                  · intro r hr hrn
                    rcases (by omega : r < row ∨ r = row) with h2 | h2
                    · exact hrowsDone r h2 hrn
                    · rw [h2]; exact hsir
              · exact List.nodup_nil
            · rw [if_neg hsir]; exact List.nodup_nil
          · rw [if_neg hcoln]
            have hcollt : col < n := lt_of_le_of_ne hcolle hcoln
            have hmeas : (n - row) * (n + 2) + (n + 1 - (col + 1)) < fuel := by
              have h13 : n + 1 - (col + 1) + 1 = n + 1 - col := by omega
              linarith [hfuel, h13]
            have hinvR : searchInv n s g row (col + 1) := by
              refine ⟨hdims, hbin, ?_, hrowsDone, hadj, hrowle, by omega,
                fun he => absurd he hrown⟩
              intro r c hr hc hp
              apply hzero r c hr hc
              intro hp2
              apply hp
              unfold prefixLt at hp2 ⊢
              omega
            rw [List.nodup_append]
            refine ⟨?_, ih row (col + 1) g hmeas hinvR, ?_⟩
            · by_cases hguard : countRow g row < s ∧ isValidPlacement n g row col = true
              · rw [if_pos hguard]
                exact ih row (col + 1) (gset g row col 1) hmeas
                  (searchInv_gset ⟨hdims, hbin, hzero, hrowsDone, hadj, hrowle, hcolle, hrc0⟩
                    hrowlt hcollt hguard.2)
              · rw [if_neg hguard]; exact List.nodup_nil
            · intro x hxL hxR
              by_cases hguard : countRow g row < s ∧ isValidPlacement n g row col = true
              · rw [if_pos hguard] at hxL
                have hinvL : searchInv n s (gset g row col 1) row (col + 1) :=
                  searchInv_gset ⟨hdims, hbin, hzero, hrowsDone, hadj, hrowle, hcolle, hrc0⟩
                    hrowlt hcollt hguard.2
                have hmL := (backtrack_mem_iff n s fuel row (col + 1)
                  (gset g row col 1) hmeas hinvL x).mp hxL
                have hmR := (backtrack_mem_iff n s fuel row (col + 1) g hmeas hinvR x).mp hxR
                have hrlen : row < g.length := by rw [hdims.1]; exact hrowlt
                have hclen : col < (g.getD row []).length := by
                  rw [gridDims_rowLen hdims hrowlt]; exact hcollt
                have e1 : gget (gset g row col 1) row col = gget x row col :=
                  hmL.2 row col hrowlt hcollt (Or.inr ⟨rfl, by omega⟩)
                have e2 : gget g row col = gget x row col :=
                  hmR.2 row col hrowlt hcollt (Or.inr ⟨rfl, by omega⟩)
                rw [gget_gset_self g row col 1 hrlen hclen] at e1
                rw [hzero row col hrowlt hcollt (by unfold prefixLt; omega)] at e2
                omega
              · rw [if_neg hguard] at hxL
                exact absurd hxL (List.not_mem_nil x)

theorem listGetD_replicate {α : Type} (n i : Nat) (a d : α) :
    (List.replicate n a).getD i d = if i < n then a else d := by
  induction n generalizing i with
  | zero => simp
  | succ m ih =>
    cases i with
    | zero => simp [List.replicate]
    | succ j =>
      simp only [List.replicate, List.getD_cons_succ, ih]
      by_cases hj : j < m
      · rw [if_pos hj, if_pos (by omega)]
      · rw [if_neg hj, if_neg (by omega)]

theorem gget_replicate (n r c : Nat) :
    gget (List.replicate n (List.replicate n 0)) r c = 0 := by
  unfold gget
  rw [listGetD_replicate]
  by_cases hr : r < n
  · rw [if_pos hr, listGetD_replicate]
    by_cases hc : c < n
    · rw [if_pos hc]
    · rw [if_neg hc]
  · rw [if_neg hr]
    rfl

theorem searchInv_start (n s : Nat) :
    searchInv n s (List.replicate n (List.replicate n 0)) 0 0 := by
  refine ⟨⟨List.length_replicate n _, ?_⟩, ?_, ?_, ?_, ?_, Nat.zero_le n, Nat.zero_le n,
    fun _ => rfl⟩
  · intro row hrow
    rw [List.eq_of_mem_replicate hrow]
    exact List.length_replicate n _
  · intro row hrow v hv
    rw [List.eq_of_mem_replicate hrow] at hv
    left
    exact List.eq_of_mem_replicate hv
  · intro r c _ _ _
    exact gget_replicate n r c
  · intro r hr
    omega
  · intro r1 _ c1 _ r2 _ c2 _ _ h1
    rw [gget_replicate] at h1
    exact absurd h1 (by omega)

/-- C1: for every `N ≥ 1` and `S ≥ 1`, `enumerate N S` lists exactly the valid
configurations — `N × N` 0/1 matrices whose rows and columns each sum to `S`
with no two stars within Chebyshev distance 1 — each exactly once, and it is
empty when no valid configuration exists. -/
theorem claim_C1_enumerate_exact (N S : Nat) (_hN : 1 ≤ N) (_hS : 1 ≤ S) :
    (∀ g, g ∈ enumerate N S ↔ isValidConfig N S g) ∧ (enumerate N S).Nodup ∧
      ((∀ g, ¬ isValidConfig N S g) → enumerate N S = []) := by
  have hmeas : (N - 0) * (N + 2) + (N + 1 - 0) < (N + 1) * (N + 2) := by
    have hkey : (N + 1) * (N + 2) = N * (N + 2) + (N + 2) := by ring
    simp only [Nat.sub_zero]
    linarith [hkey]
  have hmem := backtrack_mem_iff N S ((N + 1) * (N + 2)) 0 0
    (List.replicate N (List.replicate N 0)) hmeas (searchInv_start N S)
  have hiff : ∀ g, g ∈ enumerate N S ↔ isValidConfig N S g := by
    intro g
    rw [show enumerate N S = backtrack N S ((N + 1) * (N + 2))
      (List.replicate N (List.replicate N 0)) 0 0 from rfl, hmem g]
    constructor
    · exact fun h => h.1
    · intro hv
      refine ⟨hv, ?_⟩
      intro r c _ _ hp
      unfold prefixLt at hp
      omega
  refine ⟨hiff, ?_, ?_⟩
  · exact backtrack_nodup N S ((N + 1) * (N + 2)) 0 0
      (List.replicate N (List.replicate N 0)) hmeas (searchInv_start N S)
  · intro hnone
    rcases he : enumerate N S with _ | ⟨g0, rest⟩
    · rfl
    · exfalso
      exact hnone g0 ((hiff g0).mp (by rw [he]; exact List.mem_cons_self g0 rest))

/-- Witness for C1 at `N = 4`, `S = 1`: the concrete grid
`[[0,1,0,0],[0,0,0,1],[1,0,0,0],[0,0,1,0]]` is a valid configuration, and the
theorem places it in `enumerate 4 1`. -/
theorem claim_C1_witness :
    (1 ≤ 4 ∧ 1 ≤ 1) ∧
      [[0, 1, 0, 0], [0, 0, 0, 1], [1, 0, 0, 0], [0, 0, 1, 0]] ∈ enumerate 4 1 := by
  refine ⟨⟨by omega, le_refl 1⟩, ?_⟩
  exact ((claim_C1_enumerate_exact 4 1 (by omega) (le_refl 1)).1
    [[0, 1, 0, 0], [0, 0, 0, 1], [1, 0, 0, 0], [0, 0, 1, 0]]).mpr (by decide)

/-!
The `PatternAnalyzer` of `constrainedEntanglementMiner.ts`: `analyzePattern`
classifies every board cell as forced-star / forced-empty / flexible against
the compatible solutions, and `shouldSkipPattern` filters patterns whose
forced cells are explained by adjacency or line rules.
-/

/-- The three cell states of `analyzePattern`. -/
inductive CState where
  | forcedStar
  | forcedEmpty
  | flexible
deriving DecidableEq, Repr

/-- The `adjacentToStars` set of `analyzePattern` (and the identical
`adjacentCells` set of `shouldSkipPattern`): in-bounds neighbours of pattern
stars that are not pattern cells themselves, queried at `(r, c)`. -/
def adjToStars (n : Nat) (pattern : List (Nat × Nat)) (r c : Nat) : Bool :=
  pattern.any fun star =>
    ([-1, 0, 1] : List Int).any fun dr =>
      ([-1, 0, 1] : List Int).any fun dc =>
        if dr = 0 ∧ dc = 0 then false
        else
          let nr : Int := (star.1 : Int) + dr
          let nc : Int := (star.2 : Int) + dc
          if 0 ≤ nr ∧ nr < (n : Int) ∧ 0 ≤ nc ∧ nc < (n : Int) then
            decide ((nr.toNat, nc.toNat) ∉ pattern) && decide (nr.toNat = r ∧ nc.toNat = c)
          else false

/-- The cell-state computation of `analyzePattern` for cell `(r, c)`. -/
def cellState (n : Nat) (pattern : List (Nat × Nat)) (compat : List Grid)
    (r c : Nat) : CState :=
  if (r, c) ∈ pattern then .forcedStar
  else if adjToStars n pattern r c then .forcedEmpty
  else
    let starCount := (compat.filter fun sol => decide (gget sol r c = 1)).length
    if starCount = 0 then .forcedEmpty
    else if starCount = compat.length then .forcedStar
    else .flexible

/-- `isNonTrivial`: some non-pattern cell is forced. -/
def isNonTrivial (n : Nat) (pattern : List (Nat × Nat)) (compat : List Grid) : Bool :=
  (List.range n).any fun row => (List.range n).any fun col =>
    decide ((row, col) ∉ pattern) &&
      (decide (cellState n pattern compat row col = .forcedStar) ||
       decide (cellState n pattern compat row col = .forcedEmpty))

/-- `allSameRow`: the pattern is non-empty and all stars share the first row. -/
def sameRowAll : List (Nat × Nat) → Bool
  | [] => false
  | p :: rest => (p :: rest).all fun q => decide (q.1 = p.1)

/-- `allSameCol`: the pattern is non-empty and all stars share the first column. -/
def sameColAll : List (Nat × Nat) → Bool
  | [] => false
  | p :: rest => (p :: rest).all fun q => decide (q.2 = p.2)

/-- The `forcedEmpty` list built by `analyzePattern` (with the inherent-cell
filtering controlled by `includeInherent`). -/
def forcedEmptyList (n : Nat) (pattern : List (Nat × Nat)) (compat : List Grid)
    (includeInherent : Bool) : List (Nat × Nat) :=
  (List.range n).flatMap fun row =>
    (List.range n).filterMap fun col =>
      if (row, col) ∈ pattern then none
      else if cellState n pattern compat row col = .forcedEmpty then
        if includeInherent
            || (!(adjToStars n pattern row col)
              && !((sameRowAll pattern && decide (row = (pattern.headD (0, 0)).1))
                || (sameColAll pattern && decide (col = (pattern.headD (0, 0)).2)))) then
          some (row, col)
        else none
      else none

/-- The `forcedStar` list built by `analyzePattern`. -/
def forcedStarList (n : Nat) (pattern : List (Nat × Nat)) (compat : List Grid) :
    List (Nat × Nat) :=
  (List.range n).flatMap fun row =>
    (List.range n).filterMap fun col =>
      if (row, col) ∈ pattern then none
      else if cellState n pattern compat row col = .forcedStar then some (row, col)
      else none

/-- The unfiltered `allForcedEmpty` list of `shouldSkipPattern`. -/
def allForcedEmpty (n : Nat) (pattern : List (Nat × Nat)) (compat : List Grid) :
    List (Nat × Nat) :=
  (List.range n).flatMap fun row =>
    (List.range n).filterMap fun col =>
      if (row, col) ∈ pattern then none
      else if cellState n pattern compat row col = .forcedEmpty then some (row, col)
      else none

/-- `shouldSkipPattern`: the two skip rules (only-adjacent forced empties, or
all stars on one line with all forced empties on that line or adjacent). -/
def shouldSkipPat (n : Nat) (pattern : List (Nat × Nat)) (compat : List Grid) : Bool :=
  match pattern with
  | [] => false
  | p0 :: _ =>
    let allFE := allForcedEmpty n pattern compat
    let allFS := forcedStarList n pattern compat
    let feAdj := allFE.filter fun cell => adjToStars n pattern cell.1 cell.2
    let fsAdj := allFS.filter fun cell => adjToStars n pattern cell.1 cell.2
    let feNotAdj := allFE.filter fun cell => ! adjToStars n pattern cell.1 cell.2
    let fsNotAdj := allFS.filter fun cell => ! adjToStars n pattern cell.1 cell.2
    if feNotAdj.length = 0 ∧ fsAdj.length = 0 ∧ fsNotAdj.length = 0 ∧ 0 < feAdj.length then
      true
    else
      let sRow := sameRowAll pattern
      let sCol := sameColAll pattern
      if sRow || sCol then
        let allOnLineOrAdj := allFE.all fun cell =>
          adjToStars n pattern cell.1 cell.2 || (sRow && decide (cell.1 = p0.1))
            || (sCol && decide (cell.2 = p0.2))
        if allOnLineOrAdj ∧ 0 < allFE.length ∧ allFS.length = 0 then true else false
      else false

/-- The result record of `analyzePattern`. -/
structure AnalyzedPattern where
  initial_stars : List (Nat × Nat)
  compatible_solutions : Nat
  forced_empty : List (Nat × Nat)
  forced_star : List (Nat × Nat)
deriving DecidableEq, Repr

/-- `PatternAnalyzer.analyzePattern`. -/
def analyzePattern (n : Nat) (sols : List Grid) (includeInherent : Bool)
    (pattern : List (Nat × Nat)) : Option AnalyzedPattern :=
  let compat := sols.filter fun sol => isPatternCompatible pattern sol
  if compat.length = 0 then none
  else if ! isNonTrivial n pattern compat then none
  else if shouldSkipPat n pattern compat then none
  else some ⟨pattern, compat.length, forcedEmptyList n pattern compat includeInherent,
    forcedStarList n pattern compat⟩

/-- The reference cell classification stated by the specification: forced
empty iff the cell is empty in all compatible solutions, forced star iff it
is a star in all of them, flexible otherwise. -/
def refCellState (compat : List Grid) (r c : Nat) : CState :=
  if compat.all fun sol => decide (gget sol r c = 0) then .forcedEmpty
  else if compat.all fun sol => decide (gget sol r c = 1) then .forcedStar
  else .flexible

/-- C9: `analyzePattern` returns `none` exactly when the compatible-solution
set is empty, the pattern is trivial, or the skip rules fire; whenever it
returns a result, at least one compatible solution existed. It is a total
function, so it raises on no input. -/
theorem claim_C9_analyze_none_iff (n : Nat) (sols : List Grid) (inc : Bool)
    (pattern : List (Nat × Nat)) :
    (analyzePattern n sols inc pattern = none ↔
      ((sols.filter fun sol => isPatternCompatible pattern sol) = []
        ∨ isNonTrivial n pattern (sols.filter fun sol => isPatternCompatible pattern sol)
            = false
        ∨ shouldSkipPat n pattern (sols.filter fun sol => isPatternCompatible pattern sol)
            = true))
    ∧ ∀ R, analyzePattern n sols inc pattern = some R →
        (sols.filter fun sol => isPatternCompatible pattern sol) ≠ [] := by
  constructor
  · constructor
    · intro hnone
      simp only [analyzePattern] at hnone
      by_cases h1 : (sols.filter fun sol => isPatternCompatible pattern sol).length = 0
      · left
        exact List.length_eq_zero.mp h1
      · rw [if_neg h1] at hnone
        cases h2 : isNonTrivial n pattern (sols.filter fun sol =>
            isPatternCompatible pattern sol) with
        | false => right; left; rfl
        | true =>
          rw [h2] at hnone
          rw [if_neg (by simp)] at hnone
          cases h3 : shouldSkipPat n pattern (sols.filter fun sol =>
              isPatternCompatible pattern sol) with
          | true => right; right; rfl
          | false =>
            rw [h3] at hnone
            rw [if_neg (by simp)] at hnone
            exact Option.noConfusion hnone
    · intro hcond
      simp only [analyzePattern]
      rcases hcond with h | h | h
      · rw [if_pos (by rw [h]; rfl)]
      · by_cases h1 : (sols.filter fun sol => isPatternCompatible pattern sol).length = 0
        · rw [if_pos h1]
        · rw [if_neg h1, if_pos (by rw [h]; rfl)]
      · by_cases h1 : (sols.filter fun sol => isPatternCompatible pattern sol).length = 0
        · rw [if_pos h1]
        · rw [if_neg h1]
          cases h2 : isNonTrivial n pattern (sols.filter fun sol =>
              isPatternCompatible pattern sol) with
          | false => rw [if_pos (by rfl)]
          | true => rw [if_neg (by simp), if_pos h]
  · intro R hR hempty
    simp only [analyzePattern] at hR
    rw [if_pos (by rw [hempty]; rfl)] at hR
    exact Option.noConfusion hR

/-- C5: in a board whose solutions are binary and obey the adjacency rule, and
for a realizable pattern (non-empty compatible set) of in-bounds stars, the
direct classification of `analyzePattern` — which marks neighbours of pattern
stars as forced-empty without scanning the compatible set — agrees with the
reference classification on every in-bounds non-pattern cell. -/
theorem claim_C5_cellState_refines (n : Nat) (sols : List Grid)
    (pattern : List (Nat × Nat))
    (hsols : ∀ sol ∈ sols, gridBinary sol ∧ noAdjacentStars n sol)
    (hpat : ∀ p ∈ pattern, p.1 < n ∧ p.2 < n)
    (_hne : (sols.filter fun sol => isPatternCompatible pattern sol) ≠ []) :
    ∀ r c, r < n → c < n → (r, c) ∉ pattern →
      cellState n pattern (sols.filter fun sol => isPatternCompatible pattern sol) r c
        = refCellState (sols.filter fun sol => isPatternCompatible pattern sol) r c := by
  intro r c hr hc hnp
  have hmem : ∀ sol, sol ∈ (sols.filter fun sol => isPatternCompatible pattern sol) →
      sol ∈ sols ∧ isPatternCompatible pattern sol = true := by
    intro sol hs
    exact ⟨(List.mem_filter.mp hs).1, (List.mem_filter.mp hs).2⟩
  have hzero_adj : adjToStars n pattern r c = true →
      ∀ sol ∈ (sols.filter fun sol => isPatternCompatible pattern sol), gget sol r c = 0 := by
    intro hadj sol hs
    obtain ⟨hins, hcomp⟩ := hmem sol hs
    obtain ⟨hbinS, hadjS⟩ := hsols sol hins
    unfold adjToStars at hadj
    simp only [List.any_eq_true] at hadj
    obtain ⟨star, hstar, dr, hdr, dc, hdc, hbody⟩ := hadj
    by_cases hz : dr = 0 ∧ dc = 0
    · rw [if_pos hz] at hbody
      exact absurd hbody (by simp)
    · rw [if_neg hz] at hbody
      by_cases hin : 0 ≤ (star.1 : Int) + dr ∧ (star.1 : Int) + dr < (n : Int) ∧
          0 ≤ (star.2 : Int) + dc ∧ (star.2 : Int) + dc < (n : Int)
      · rw [if_pos hin] at hbody
        simp only [Bool.and_eq_true, decide_eq_true_eq] at hbody
        obtain ⟨-, heq1, heq2⟩ := hbody
        obtain ⟨hs1, hs2⟩ := hpat star hstar
        have hstar1 : gget sol star.1 star.2 = 1 := by
          unfold isPatternCompatible at hcomp
          exact of_decide_eq_true (List.all_eq_true.mp hcomp star hstar)
        simp only [List.mem_cons, List.not_mem_nil, or_false] at hdr hdc
        have hne2 : (star.1, star.2) ≠ (r, c) := by
          intro he
          injection he with u1 u2
          apply hz
          constructor <;> omega
        have hch : chebAdj star.1 star.2 r c := by
          unfold chebAdj
          constructor <;> omega
        rcases gridBinary_gget hbinS r c with h0 | h1
        · exact h0
        · exact absurd hch (hadjS star.1 hs1 star.2 hs2 r hr c hc hne2 hstar1 h1)
      · rw [if_neg hin] at hbody
        exact absurd hbody (by simp)
  unfold cellState refCellState
  rw [if_neg hnp]
  by_cases hadj : adjToStars n pattern r c = true
  · rw [if_pos hadj, if_pos (by
      rw [List.all_eq_true]
      intro sol hs
      exact decide_eq_true (hzero_adj hadj sol hs))]
  · rw [if_neg hadj]
    dsimp only
    by_cases hk0 : ((sols.filter fun sol => isPatternCompatible pattern sol).filter
        fun sol => decide (gget sol r c = 1)).length = 0
    · rw [if_pos hk0]
      have hfe : ∀ sol ∈ (sols.filter fun sol => isPatternCompatible pattern sol),
          gget sol r c = 0 := by
        intro sol hs
        have hfil := List.length_eq_zero.mp hk0
        have hnot : ¬ (decide (gget sol r c = 1) = true) := by
          intro hdec
          have hmem2 : sol ∈ (sols.filter fun sol =>
              isPatternCompatible pattern sol).filter fun sol =>
                decide (gget sol r c = 1) :=
            List.mem_filter.mpr ⟨hs, hdec⟩
          rw [hfil] at hmem2
          exact List.not_mem_nil sol hmem2
        have hne1 : gget sol r c ≠ 1 := fun he => hnot (decide_eq_true he)
        rcases gridBinary_gget (hsols sol (hmem sol hs).1).1 r c with h0 | h1
        · exact h0
        · exact absurd h1 hne1
      rw [if_pos (by
        rw [List.all_eq_true]
        intro sol hs
        exact decide_eq_true (hfe sol hs))]
    · rw [if_neg hk0]
      have hex : ∃ sol, sol ∈ (sols.filter fun sol => isPatternCompatible pattern sol) ∧
          gget sol r c = 1 := by
        rcases hfil : (sols.filter fun sol => isPatternCompatible pattern sol).filter
            (fun sol => decide (gget sol r c = 1)) with _ | ⟨x, xs⟩
        · rw [hfil] at hk0
          exact absurd rfl hk0
        · have hx : x ∈ (sols.filter fun sol => isPatternCompatible pattern sol).filter
              (fun sol => decide (gget sol r c = 1)) := by
            rw [hfil]
            exact List.mem_cons_self x xs
          exact ⟨x, (List.mem_filter.mp hx).1, of_decide_eq_true (List.mem_filter.mp hx).2⟩
      have hnotall0 : ¬ (((sols.filter fun sol => isPatternCompatible pattern sol).all
          fun sol => decide (gget sol r c = 0)) = true) := by
        intro hall
        obtain ⟨sol, hs, h1⟩ := hex
        have := of_decide_eq_true (List.all_eq_true.mp hall sol hs)
        omega
      rw [if_neg hnotall0]
      by_cases hkfull : ((sols.filter fun sol => isPatternCompatible pattern sol).filter
          fun sol => decide (gget sol r c = 1)).length
            = (sols.filter fun sol => isPatternCompatible pattern sol).length
      · rw [if_pos hkfull]
        have hfull : (sols.filter fun sol => isPatternCompatible pattern sol).filter
            (fun sol => decide (gget sol r c = 1))
              = sols.filter fun sol => isPatternCompatible pattern sol :=
          (List.filter_sublist _).eq_of_length hkfull
        rw [if_pos (by
          rw [List.all_eq_true]
          intro sol hs
          have : sol ∈ (sols.filter fun sol => isPatternCompatible pattern sol).filter
              (fun sol => decide (gget sol r c = 1)) := by
            rw [hfull]
            exact hs
          exact (List.mem_filter.mp this).2)]
      · rw [if_neg hkfull]
        rw [if_neg (by
          intro hall
          apply hkfull
          have : (sols.filter fun sol => isPatternCompatible pattern sol).filter
              (fun sol => decide (gget sol r c = 1))
                = sols.filter fun sol => isPatternCompatible pattern sol :=
            List.filter_eq_self.mpr (fun a ha => List.all_eq_true.mp hall a ha)
          rw [this])]

/-- Witness for C5 on a concrete board: `n = 4`, the two solutions of the
4×4 1-star puzzle, and the one-star pattern `[(0, 1)]`. -/
theorem claim_C5_witness :
    ((∀ sol ∈ [[[0, 1, 0, 0], [0, 0, 0, 1], [1, 0, 0, 0], [0, 0, 1, 0]],
        [[0, 0, 1, 0], [1, 0, 0, 0], [0, 0, 0, 1], [0, 1, 0, 0]]],
          gridBinary sol ∧ noAdjacentStars 4 sol)
      ∧ (∀ p ∈ [((0 : Nat), (1 : Nat))], p.1 < 4 ∧ p.2 < 4)
      ∧ ([[[0, 1, 0, 0], [0, 0, 0, 1], [1, 0, 0, 0], [0, 0, 1, 0]],
          [[0, 0, 1, 0], [1, 0, 0, 0], [0, 0, 0, 1], [0, 1, 0, 0]]].filter
            fun sol => isPatternCompatible [((0 : Nat), (1 : Nat))] sol) ≠ [])
    ∧ ∀ r c, r < 4 → c < 4 → (r, c) ∉ [((0 : Nat), (1 : Nat))] →
        cellState 4 [((0 : Nat), (1 : Nat))]
          ([[[0, 1, 0, 0], [0, 0, 0, 1], [1, 0, 0, 0], [0, 0, 1, 0]],
            [[0, 0, 1, 0], [1, 0, 0, 0], [0, 0, 0, 1], [0, 1, 0, 0]]].filter
              fun sol => isPatternCompatible [((0 : Nat), (1 : Nat))] sol) r c
          = refCellState
            ([[[0, 1, 0, 0], [0, 0, 0, 1], [1, 0, 0, 0], [0, 0, 1, 0]],
              [[0, 0, 1, 0], [1, 0, 0, 0], [0, 0, 0, 1], [0, 1, 0, 0]]].filter
                fun sol => isPatternCompatible [((0 : Nat), (1 : Nat))] sol) r c := by
  refine ⟨⟨by decide, by decide, by decide⟩, ?_⟩
  exact claim_C5_cellState_refines 4
    [[[0, 1, 0, 0], [0, 0, 0, 1], [1, 0, 0, 0], [0, 0, 1, 0]],
     [[0, 0, 1, 0], [1, 0, 0, 0], [0, 0, 0, 1], [0, 1, 0, 0]]]
    [((0 : Nat), (1 : Nat))] (by decide) (by decide) (by decide)

/-!
The standalone two-star pure-entanglement extractor
(`pureEntanglementExtractor.ts`). Its `canonicalizeStars` throws unless the
pattern has exactly two stars; the throw is modelled by `Option`. JS `Map`s
keyed by `JSON.stringify` of point lists are modelled as insertion-ordered
association lists keyed by the point lists themselves, which is faithful
because the string encoding (`encPts`) is injective.
-/

/-- One candidate of the two-star `canonicalizeStars` loop: transform both
stars, translate the minimum to the origin, and sort the pair. -/
def cand2 (s1 s2 : Point) (t : Nat) : List Point × Nat × Point :=
  let q1 := tfAt t s1
  let q2 := tfAt t s2
  let minRow := min q1.1 q2.1
  let minCol := min q1.2 q2.2
  let p1 : Point := (q1.1 - minRow, q1.2 - minCol)
  let p2 : Point := (q2.1 - minRow, q2.2 - minCol)
  let sortedPair := if p1.1 < p2.1 ∨ (p1.1 = p2.1 ∧ p1.2 < p2.2) then [p1, p2] else [p2, p1]
  (sortedPair, t, (minRow, minCol))

/-- `canonicalizeStars` of the two-star extractor: `none` models the throw on
star counts other than two. -/
def canonicalizeStars2 (initialStars : List Point) : Option (List Point × Nat × Point) :=
  match initialStars with
  | [s1, s2] =>
    match (List.range 8).foldl (pickStep (cand2 s1 s2) (fun r => encPts r.1)) none with
    | some (r, _) => some r
    | none => none
  | _ => none

/-- `canonicalizeEmpties`: map the chosen transform and translation over the
forced-empty cells and sort lexicographically. -/
def canonicalizeEmpties (forcedEmpty : List Point) (transformIndex : Nat)
    (translation : Point) : List Point :=
  sortPts (forcedEmpty.map fun p =>
    ((tfAt transformIndex p).1 - translation.1, (tfAt transformIndex p).2 - translation.2))

/-- A star class: occurrence count and the empties map, an insertion-ordered
association list from canonical forced-empty value to its count. -/
abbrev StarClass := Nat × List (List Point × Nat)

/-- `starClass.emptiesMap.set(k, get(k) || 0 + 1)`: bump the count of key `k`,
appending it when absent (JS `Map` insertion-order semantics). -/
def bumpEmpties (m : List (List Point × Nat)) (k : List Point) : List (List Point × Nat) :=
  match m with
  | [] => [(k, 1)]
  | (k2, v) :: rest => if k2 = k then (k2, v + 1) :: rest else (k2, v) :: bumpEmpties rest k

/-- Update the `starClasses` map for one pattern with canonical stars `sk` and
canonical empties `ek`. -/
def addToClasses (classes : List (List Point × StarClass)) (sk ek : List Point) :
    List (List Point × StarClass) :=
  match classes with
  | [] => [(sk, (1, [(ek, 1)]))]
  | (k2, (cnt, em)) :: rest =>
    if k2 = sk then (k2, (cnt + 1, bumpEmpties em ek)) :: rest
    else (k2, (cnt, em)) :: addToClasses rest sk ek

/-- The grouping loop of the two-star `extractPureEntanglements`: fold all
patterns (star list, forced-empty list) into the star-class map, failing when
any pattern does not have exactly two stars. -/
def classStep (acc : Option (List (List Point × StarClass)))
    (pat : List Point × List Point) : Option (List (List Point × StarClass)) :=
  match acc with
  | none => none
  | some classes =>
    match canonicalizeStars2 pat.1 with
    | none => none
    | some (cs, ti, tr) =>
      some (addToClasses classes cs (canonicalizeEmpties pat.2 ti tr))

def buildClasses2 (patterns : List (List Point × List Point)) :
    Option (List (List Point × StarClass)) :=
  patterns.foldl classStep (some [])

/-- The template extraction of the two-star `extractPureEntanglements`:
classes with exactly one distinct canonical forced-empty value and at least
`minOccurrences` occurrences, as (canonical stars, canonical forced empty,
occurrences) triples.  The source's final in-place sort of the template array
(by occurrences, then a locale-dependent string comparison) is a permutation
of this list and is not modelled; the claims about it concern membership
only. -/
def extractPure2 (patterns : List (List Point × List Point)) (minOccurrences : Nat) :
    Option (List (List Point × List Point × Nat)) :=
  match buildClasses2 patterns with
  | none => none
  | some classes =>
    some (classes.filterMap fun cl =>
      if cl.2.2.length = 1 ∧ minOccurrences ≤ cl.2.1 then
        some (cl.1, (cl.2.2.headD ([], 0)).1, cl.2.1)
      else none)

/-- The canonical star geometry of a pattern, when its star count is two. -/
def starsOf (p : List Point × List Point) : Option (List Point) :=
  (canonicalizeStars2 p.1).map fun r => r.1

/-- The canonical forced-empty value of a pattern, when its star count is two. -/
def emptiesOf (p : List Point × List Point) : Option (List Point) :=
  (canonicalizeStars2 p.1).map fun r => canonicalizeEmpties p.2 r.2.1 r.2.2

theorem bumpEmpties_ne_nil (m : List (List Point × Nat)) (k : List Point) :
    bumpEmpties m k ≠ [] := by
  match m with
  | [] => simp [bumpEmpties]
  | (k2, v) :: rest =>
    simp only [bumpEmpties]
    by_cases h : k2 = k
    · rw [if_pos h]; simp
    · rw [if_neg h]; simp

theorem bumpEmpties_keys (m : List (List Point × Nat)) (k : List Point) :
    (bumpEmpties m k).map Prod.fst =
      if k ∈ m.map Prod.fst then m.map Prod.fst else m.map Prod.fst ++ [k] := by
  induction m with
  | nil => simp [bumpEmpties]
  | cons hd rest ih =>
    obtain ⟨k2, v⟩ := hd
    simp only [bumpEmpties, List.map_cons]
    by_cases h : k2 = k
    · rw [if_pos h, if_pos (by subst h; exact List.mem_cons_self _ _)]
      simp
    · rw [if_neg h, List.map_cons, ih]
      by_cases h2 : k ∈ rest.map Prod.fst
      · rw [if_pos h2, if_pos (List.mem_cons_of_mem _ h2)]
      · rw [if_neg h2, if_neg (by
          simp only [List.mem_cons]
          rintro (he | he)
          · exact h he.symm
          · exact h2 he)]
        simp

theorem addToClasses_keys (classes : List (List Point × StarClass)) (sk ek : List Point) :
    (addToClasses classes sk ek).map Prod.fst =
      if sk ∈ classes.map Prod.fst then classes.map Prod.fst
      else classes.map Prod.fst ++ [sk] := by
  induction classes with
  | nil => simp [addToClasses]
  | cons hd rest ih =>
    obtain ⟨k2, cnt, em⟩ := hd
    simp only [addToClasses, List.map_cons]
    by_cases h : k2 = sk
    · rw [if_pos h, if_pos (by subst h; exact List.mem_cons_self _ _)]
      simp
    · rw [if_neg h, List.map_cons, ih]
      by_cases h2 : sk ∈ rest.map Prod.fst
      · rw [if_pos h2, if_pos (List.mem_cons_of_mem _ h2)]
      · rw [if_neg h2, if_neg (by
          simp only [List.mem_cons]
          rintro (he | he)
          · exact h he.symm
          · exact h2 he)]
        simp

theorem addToClasses_mem_of (classes : List (List Point × StarClass)) (sk ek : List Point)
    (hnd : (classes.map Prod.fst).Nodup) (sk2 : List Point) (cnt : Nat)
    (em : List (List Point × Nat))
    (hmem : (sk2, (cnt, em)) ∈ addToClasses classes sk ek) :
    (sk2 ≠ sk ∧ (sk2, (cnt, em)) ∈ classes)
    ∨ (sk2 = sk ∧ ∃ cnt0 em0, (sk, (cnt0, em0)) ∈ classes ∧ cnt = cnt0 + 1
        ∧ em = bumpEmpties em0 ek)
    ∨ (sk2 = sk ∧ sk ∉ classes.map Prod.fst ∧ cnt = 1 ∧ em = [(ek, 1)]) := by
  induction classes with
  | nil =>
    simp only [addToClasses, List.mem_singleton] at hmem
    injection hmem with h1 h2
    injection h2 with h2 h3
    right; right
    exact ⟨h1, by simp, h2, h3⟩
  | cons hd rest ih =>
    obtain ⟨k2, cnt1, em1⟩ := hd
    simp only [List.map_cons, List.nodup_cons] at hnd
    obtain ⟨hk2, hndr⟩ := hnd
    simp only [addToClasses] at hmem
    by_cases h : k2 = sk
    · rw [if_pos h] at hmem
      subst h
      rcases List.mem_cons.mp hmem with he | ht
      · injection he with h1 h2
        injection h2 with h2 h3
        right; left
        exact ⟨h1, cnt1, em1, List.mem_cons_self _ _, h2, h3⟩
      · left
        refine ⟨?_, List.mem_cons_of_mem _ ht⟩
        intro he
        subst he
        exact hk2 (List.mem_map.mpr ⟨(sk2, (cnt, em)), ht, rfl⟩)
    · rw [if_neg h] at hmem
      rcases List.mem_cons.mp hmem with he | ht
      · injection he with h1 h2
        left
        constructor
        · rw [h1]; exact h
        · rw [← h1, ← h2] at *
          exact List.mem_cons_self _ _
      · rcases ih hndr ht with ⟨hne, hm⟩ | ⟨he, cnt0, em0, hm, hc, hb⟩ | ⟨he, hnm, hc, hb⟩
        · exact Or.inl ⟨hne, List.mem_cons_of_mem _ hm⟩
        · exact Or.inr (Or.inl ⟨he, cnt0, em0, List.mem_cons_of_mem _ hm, hc, hb⟩)
        · refine Or.inr (Or.inr ⟨he, ?_, hc, hb⟩)
          simp only [List.map_cons, List.mem_cons]
          rintro (h2 | h2)
          · exact h h2.symm
          · exact hnm h2

theorem addToClasses_mem_new (classes : List (List Point × StarClass)) (sk ek : List Point)
    (hnm : sk ∉ classes.map Prod.fst) :
    (sk, (1, [(ek, 1)])) ∈ addToClasses classes sk ek := by
  induction classes with
  | nil => simp [addToClasses]
  | cons hd rest ih =>
    obtain ⟨k2, cnt1, em1⟩ := hd
    simp only [List.map_cons, List.mem_cons] at hnm
    push_neg at hnm
    simp only [addToClasses]
    rw [if_neg (fun he => hnm.1 he.symm)]
    exact List.mem_cons_of_mem _ (ih hnm.2)

theorem addToClasses_mem_bump (classes : List (List Point × StarClass)) (sk ek : List Point)
    (hnd : (classes.map Prod.fst).Nodup) (cnt0 : Nat) (em0 : List (List Point × Nat))
    (hmem : (sk, (cnt0, em0)) ∈ classes) :
    (sk, (cnt0 + 1, bumpEmpties em0 ek)) ∈ addToClasses classes sk ek := by
  induction classes with
  | nil => simp at hmem
  | cons hd rest ih =>
    obtain ⟨k2, cnt1, em1⟩ := hd
    simp only [List.map_cons, List.nodup_cons] at hnd
    obtain ⟨hk2, hndr⟩ := hnd
    simp only [addToClasses]
    by_cases h : k2 = sk
    · rw [if_pos h]
      subst h
      rcases List.mem_cons.mp hmem with he | ht
      · injection he with h1 h2
        injection h2 with h2 h3
        rw [h2, h3]
        exact List.mem_cons_self _ _
      · exact absurd (List.mem_map.mpr ⟨(k2, (cnt0, em0)), ht, rfl⟩) hk2
    · rw [if_neg h]
      rcases List.mem_cons.mp hmem with he | ht
      · injection he with h1 h2
        exact absurd h1.symm h
      · exact List.mem_cons_of_mem _ (ih hndr ht)

theorem addToClasses_mem_other (classes : List (List Point × StarClass)) (sk ek : List Point)
    (sk2 : List Point) (e : StarClass) (hne : sk2 ≠ sk) (hmem : (sk2, e) ∈ classes) :
    (sk2, e) ∈ addToClasses classes sk ek := by
  induction classes with
  | nil => simp at hmem
  | cons hd rest ih =>
    obtain ⟨k2, cnt1, em1⟩ := hd
    simp only [addToClasses]
    by_cases h : k2 = sk
    · rw [if_pos h]
      subst h
      rcases List.mem_cons.mp hmem with he | ht
      · injection he with h1 h2
        exact absurd h1 hne
      · exact List.mem_cons_of_mem _ ht
    · rw [if_neg h]
      rcases List.mem_cons.mp hmem with he | ht
      · rw [he]
        exact List.mem_cons_self _ _
      · exact List.mem_cons_of_mem _ (ih ht)

/-- Invariant of the star-class map after processing the pattern list `L`. -/
def ClassesInv (L : List (List Point × List Point))
    (classes : List (List Point × StarClass)) : Prop :=
  (classes.map Prod.fst).Nodup ∧
  (∀ sk, sk ∈ classes.map Prod.fst ↔ ∃ p ∈ L, starsOf p = some sk) ∧
  (∀ sk cnt em, (sk, (cnt, em)) ∈ classes →
    cnt = (L.filter fun p => decide (starsOf p = some sk)).length ∧
    (em.map Prod.fst).Nodup ∧ em ≠ [] ∧
    (∀ ek, ek ∈ em.map Prod.fst ↔ ∃ p ∈ L, starsOf p = some sk ∧ emptiesOf p = some ek))

theorem ClassesInv_nil : ClassesInv [] [] := by
  refine ⟨List.nodup_nil, ?_, ?_⟩
  · intro sk
    simp
  · intro sk cnt em hmem
    simp at hmem

theorem ClassesInv_add {L : List (List Point × List Point)}
    {classes : List (List Point × StarClass)} (hinv : ClassesInv L classes)
    {p : List Point × List Point} {cs : List Point} {ti : Nat} {tr : Point}
    (hc : canonicalizeStars2 p.1 = some (cs, ti, tr)) :
    ClassesInv (L ++ [p]) (addToClasses classes cs (canonicalizeEmpties p.2 ti tr)) := by
  obtain ⟨hnd, hkeys, hentry⟩ := hinv
  have hstars : starsOf p = some cs := by
    unfold starsOf
    rw [hc]
    rfl
  have hempt : emptiesOf p = some (canonicalizeEmpties p.2 ti tr) := by
    unfold emptiesOf
    rw [hc]
    rfl
  refine ⟨?_, ?_, ?_⟩
  · rw [addToClasses_keys]
    by_cases hin : cs ∈ classes.map Prod.fst
    · rw [if_pos hin]
      exact hnd
    · rw [if_neg hin, List.nodup_append]
      refine ⟨hnd, List.nodup_singleton _, ?_⟩
      intro a ha hb
      rw [List.mem_singleton] at hb
      subst hb
      exact hin ha
  · intro sk
    rw [addToClasses_keys]
    constructor
    · intro hsk
      by_cases hin : cs ∈ classes.map Prod.fst
      · rw [if_pos hin] at hsk
        obtain ⟨q, hq, hqs⟩ := (hkeys sk).mp hsk
        exact ⟨q, List.mem_append_left _ hq, hqs⟩
      · rw [if_neg hin, List.mem_append, List.mem_singleton] at hsk
        rcases hsk with hsk | rfl
        · obtain ⟨q, hq, hqs⟩ := (hkeys sk).mp hsk
          exact ⟨q, List.mem_append_left _ hq, hqs⟩
        · exact ⟨p, List.mem_append_right _ (List.mem_singleton.mpr rfl), hstars⟩
    · rintro ⟨q, hq, hqs⟩
      rw [List.mem_append, List.mem_singleton] at hq
      by_cases hin : cs ∈ classes.map Prod.fst
      · rw [if_pos hin]
        rcases hq with hq | rfl
        · exact (hkeys sk).mpr ⟨q, hq, hqs⟩
        · rw [hstars] at hqs
          injection hqs with hqs
          rw [← hqs]
          exact hin
      · rw [if_neg hin, List.mem_append, List.mem_singleton]
        rcases hq with hq | rfl
        · exact Or.inl ((hkeys sk).mpr ⟨q, hq, hqs⟩)
        · rw [hstars] at hqs
          injection hqs with hqs
          exact Or.inr hqs.symm
  · intro sk cnt em hmem
    have hfilsplit : ∀ f : (List Point × List Point) → Bool,
        ((L ++ [p]).filter f).length = (L.filter f).length + ([p].filter f).length := by
      intro f
      rw [List.filter_append, List.length_append]
    rcases addToClasses_mem_of classes cs _ hnd sk cnt em hmem with
      ⟨hne, hm⟩ | ⟨rfl, cnt0, em0, hm, rfl, rfl⟩ | ⟨rfl, hnm, rfl, rfl⟩
    · obtain ⟨hcnt, hemnd, hemne, hemkeys⟩ := hentry sk cnt em hm
      have hps : ¬ (starsOf p = some sk) := by
        rw [hstars]
        intro he
        injection he with he
        exact hne he.symm
      refine ⟨?_, hemnd, hemne, ?_⟩
      · rw [hfilsplit, hcnt]
        simp [hps]
      · intro ek
        rw [hemkeys ek]
        constructor
        · rintro ⟨q, hq, hqs, hqe⟩
          exact ⟨q, List.mem_append_left _ hq, hqs, hqe⟩
        · rintro ⟨q, hq, hqs, hqe⟩
          rw [List.mem_append, List.mem_singleton] at hq
          rcases hq with hq | rfl
          · exact ⟨q, hq, hqs, hqe⟩
          · exact absurd hqs hps
    · obtain ⟨hcnt, hemnd, hemne, hemkeys⟩ := hentry sk cnt0 em0 hm
      refine ⟨?_, ?_, bumpEmpties_ne_nil _ _, ?_⟩
      · rw [hfilsplit, hcnt]
        simp [hstars]
      · rw [bumpEmpties_keys]
        by_cases hin : canonicalizeEmpties p.2 ti tr ∈ em0.map Prod.fst
        · rw [if_pos hin]
          exact hemnd
        · rw [if_neg hin, List.nodup_append]
          refine ⟨hemnd, List.nodup_singleton _, ?_⟩
          intro a ha hb
          rw [List.mem_singleton] at hb
          subst hb
          exact hin ha
      · intro ek
        rw [bumpEmpties_keys]
        have hrhs : (∃ q ∈ L ++ [p], starsOf q = some sk ∧ emptiesOf q = some ek) ↔
            ((∃ q ∈ L, starsOf q = some sk ∧ emptiesOf q = some ek)
              ∨ ek = canonicalizeEmpties p.2 ti tr) := by
          constructor
          · rintro ⟨q, hq, hqs, hqe⟩
            rw [List.mem_append, List.mem_singleton] at hq
            rcases hq with hq | rfl
            · exact Or.inl ⟨q, hq, hqs, hqe⟩
            · rw [hempt] at hqe
              injection hqe with hqe
              exact Or.inr hqe.symm
          · rintro (⟨q, hq, hqs, hqe⟩ | rfl)
            · exact ⟨q, List.mem_append_left _ hq, hqs, hqe⟩
            · exact ⟨p, List.mem_append_right _ (List.mem_singleton.mpr rfl), hstars, hempt⟩
        rw [hrhs]
        by_cases hin : canonicalizeEmpties p.2 ti tr ∈ em0.map Prod.fst
        · rw [if_pos hin]
          rw [hemkeys ek]
          constructor
          · exact fun h => Or.inl h
          · rintro (h | rfl)
            · exact h
            · exact (hemkeys _).mp hin
        · rw [if_neg hin, List.mem_append, List.mem_singleton, hemkeys ek]
    · refine ⟨?_, by simp, by simp, ?_⟩
      · have hnone : ∀ q ∈ L, ¬ (starsOf q = some sk) := by
          intro q hq hqs
          exact hnm ((hkeys sk).mpr ⟨q, hq, hqs⟩)
        rw [hfilsplit]
        have hz : (L.filter fun q => decide (starsOf q = some sk)).length = 0 := by
          rw [List.length_eq_zero, List.filter_eq_nil_iff]
          intro q hq
          simpa using hnone q hq
        rw [hz]
        simp [hstars]
      · intro ek
        simp only [List.map_cons, List.map_nil, List.mem_singleton]
        constructor
        · rintro rfl
          exact ⟨p, List.mem_append_right _ (List.mem_singleton.mpr rfl), hstars, hempt⟩
        · rintro ⟨q, hq, hqs, hqe⟩
          rw [List.mem_append, List.mem_singleton] at hq
          rcases hq with hq | rfl
          · exact absurd ((hkeys sk).mpr ⟨q, hq, hqs⟩) hnm
          · rw [hempt] at hqe
            injection hqe with hqe
            exact hqe.symm

theorem classStep_none (l : List (List Point × List Point)) :
    l.foldl classStep none = none := by
  induction l with
  | nil => rfl
  | cons p rest ih =>
    rw [List.foldl_cons]
    exact ih

theorem buildClasses2_inv_aux :
    ∀ (todo L : List (List Point × List Point)) (classes : List (List Point × StarClass)),
      ClassesInv L classes →
      ∀ res, todo.foldl classStep (some classes) = some res →
        ClassesInv (L ++ todo) res := by
  intro todo
  induction todo with
  | nil =>
    intro L classes hinv res h
    rw [List.foldl_nil] at h
    injection h with h
    rw [List.append_nil, ← h]
    exact hinv
  | cons p rest ih =>
    intro L classes hinv res h
    rw [List.foldl_cons] at h
    cases hc : canonicalizeStars2 p.1 with
    | none =>
      rw [show classStep (some classes) p = none from by
        simp [classStep, hc]] at h
      rw [classStep_none] at h
      exact Option.noConfusion h
    | some r =>
      obtain ⟨cs, ti, tr⟩ := r
      rw [show classStep (some classes) p
          = some (addToClasses classes cs (canonicalizeEmpties p.2 ti tr)) from by
        simp [classStep, hc]] at h
      have := ih (L ++ [p]) _ (ClassesInv_add hinv hc) res h
      rwa [List.append_assoc, List.singleton_append] at this

theorem buildClasses2_inv (patterns : List (List Point × List Point))
    (classes : List (List Point × StarClass))
    (h : buildClasses2 patterns = some classes) : ClassesInv patterns classes := by
  have := buildClasses2_inv_aux patterns [] [] ClassesInv_nil classes h
  rwa [List.nil_append] at this

/-- C6: a successful run of the two-star `extractPureEntanglements` reports a
template `(stars, forcedEmpty, k)` exactly when exactly `k > 0` input patterns
canonicalize to that star geometry, every one of them has that same canonical
forced-empty value (so no other value occurs for the geometry), and
`k ≥ minOccurrences`. -/
theorem claim_C6_pure2_iff (patterns : List (List Point × List Point)) (minOcc : Nat)
    (res : List (List Point × List Point × Nat))
    (hres : extractPure2 patterns minOcc = some res) :
    ∀ sk ce k, (sk, (ce, k)) ∈ res ↔
      ((patterns.filter fun p => decide (starsOf p = some sk)).length = k ∧ 0 < k ∧
        minOcc ≤ k ∧ ∀ p ∈ patterns, starsOf p = some sk → emptiesOf p = some ce) := by
  intro sk ce k
  unfold extractPure2 at hres
  cases hb : buildClasses2 patterns with
  | none =>
    rw [hb] at hres
    exact Option.noConfusion hres
  | some classes =>
    rw [hb] at hres
    injection hres with hres
    obtain ⟨hnd, hkeys, hentry⟩ := buildClasses2_inv patterns classes hb
    constructor
    · intro hmem
      rw [← hres] at hmem
      obtain ⟨cl, hcl, hfn⟩ := List.mem_filterMap.mp hmem
      obtain ⟨sk0, cnt0, em0⟩ := cl
      by_cases hcond : em0.length = 1 ∧ minOcc ≤ cnt0
      · rw [if_pos hcond] at hfn
        injection hfn with h0
        injection h0 with h1 h2
        injection h2 with h2 h3
        have h1x : sk0 = sk := h1
        have h2x : (em0.headD ([], 0)).1 = ce := h2
        have h3x : cnt0 = k := h3
        rw [h1x] at hcl
        rw [h3x] at hcl hcond
        obtain ⟨hcnt, hemnd, hemne, hemkeys⟩ := hentry sk k em0 hcl
        obtain ⟨x, hx⟩ := List.length_eq_one.mp hcond.1
        have hx1 : x.1 = ce := by
          rw [hx] at h2x
          simpa using h2x
        have hkeyssingle : em0.map Prod.fst = [ce] := by
          rw [hx]
          simp only [List.map_cons, List.map_nil]
          rw [hx1]
        refine ⟨hcnt.symm, ?_, hcond.2, ?_⟩
        · have hce : ce ∈ em0.map Prod.fst := by
            rw [hkeyssingle]
            exact List.mem_singleton.mpr rfl
          obtain ⟨q, hq, hqs, hqe⟩ := (hemkeys ce).mp hce
          have hqf : q ∈ patterns.filter fun p => decide (starsOf p = some sk) :=
            List.mem_filter.mpr ⟨hq, decide_eq_true hqs⟩
          have hlen := List.length_pos.mpr (List.ne_nil_of_mem hqf)
          omega
        · intro q hq hqs
          obtain ⟨r, hr⟩ : ∃ r, canonicalizeStars2 q.1 = some r := by
            unfold starsOf at hqs
            cases hc2 : canonicalizeStars2 q.1 with
            | none => rw [hc2] at hqs; exact Option.noConfusion hqs
            | some r => exact ⟨r, rfl⟩
          obtain ⟨cs2, ti2, tr2⟩ := r
          have hqe : emptiesOf q = some (canonicalizeEmpties q.2 ti2 tr2) := by
            unfold emptiesOf
            rw [hr]
            rfl
          have hin : canonicalizeEmpties q.2 ti2 tr2 ∈ em0.map Prod.fst :=
            (hemkeys _).mpr ⟨q, hq, hqs, hqe⟩
          rw [hkeyssingle, List.mem_singleton] at hin
          rw [hqe, hin]
      · rw [if_neg hcond] at hfn
        exact Option.noConfusion hfn
    · rintro ⟨hcnt, hpos, hmin, hall⟩
      have hex : ∃ q ∈ patterns, starsOf q = some sk := by
        rcases hfe : patterns.filter (fun p => decide (starsOf p = some sk)) with _ | ⟨x, xs⟩
        · rw [hfe] at hcnt
          simp at hcnt
          omega
        · have hx : x ∈ patterns.filter fun p => decide (starsOf p = some sk) := by
            rw [hfe]
            exact List.mem_cons_self x xs
          exact ⟨x, (List.mem_filter.mp hx).1, of_decide_eq_true (List.mem_filter.mp hx).2⟩
      obtain ⟨cl, hcl, hfst⟩ := List.mem_map.mp ((hkeys sk).mpr hex)
      obtain ⟨sk0, cnt0, em0⟩ := cl
      have hfx : sk0 = sk := hfst
      rw [hfx] at hcl
      obtain ⟨hcnt0, hemnd, hemne, hemkeys⟩ := hentry sk cnt0 em0 hcl
      have hallce : ∀ ek ∈ em0.map Prod.fst, ek = ce := by
        intro ek hek
        obtain ⟨q, hq, hqs, hqe⟩ := (hemkeys ek).mp hek
        have := hall q hq hqs
        rw [this] at hqe
        injection hqe with hqe
        exact hqe.symm
      have hkeyssingle : em0.map Prod.fst = [ce] := by
        rcases hm : em0.map Prod.fst with _ | ⟨a, rest⟩
        · exact absurd (List.map_eq_nil_iff.mp hm) hemne
        · have ha : a = ce := hallce a (by rw [hm]; exact List.mem_cons_self a rest)
          cases rest with
          | nil => rw [ha]
          | cons b rest2 =>
            have hb : b = ce := hallce b (by
              rw [hm]
              exact List.mem_cons_of_mem _ (List.mem_cons_self b rest2))
            rw [hm] at hemnd
            rw [List.nodup_cons] at hemnd
            exact absurd (by rw [ha, hb]; exact List.mem_cons_self ce rest2) hemnd.1
      have hlen1 : em0.length = 1 := by
        have := congrArg List.length hkeyssingle
        rwa [List.length_map] at this
      have hcnt0k : cnt0 = k := by rw [hcnt0, hcnt]
      rw [← hres]
      apply List.mem_filterMap.mpr
      refine ⟨(sk, (cnt0, em0)), hcl, ?_⟩
      rw [if_pos ⟨hlen1, show minOcc ≤ cnt0 by omega⟩]
      obtain ⟨x, hx⟩ := List.length_eq_one.mp hlen1
      have hx1 : x.1 = ce := by
        rw [hx] at hkeyssingle
        simpa using hkeyssingle
      rw [hx]
      simp only [List.headD_cons]
      rw [hx1, hcnt0k]

/-- Witness for C6: two translated copies of a horizontal two-star geometry
with the same forced-empty cell; the extractor reports the canonical template
with 2 occurrences, as the theorem requires. -/
theorem claim_C6_witness :
    extractPure2
        [([((0 : Int), (0 : Int)), ((0 : Int), (2 : Int))], [((0 : Int), (1 : Int))]),
         ([((5 : Int), (5 : Int)), ((5 : Int), (7 : Int))], [((5 : Int), (6 : Int))])] 2
      = some [([(0, 0), (0, 2)], [(0, 1)], 2)]
    ∧ ([((0 : Int), (0 : Int)), ((0 : Int), (2 : Int))],
        ([((0 : Int), (1 : Int))], (2 : Nat)))
      ∈ [([((0 : Int), (0 : Int)), ((0 : Int), (2 : Int))], [((0 : Int), (1 : Int))], 2)] := by
  refine ⟨by decide, ?_⟩
  exact ((claim_C6_pure2_iff
    [([((0 : Int), (0 : Int)), ((0 : Int), (2 : Int))], [((0 : Int), (1 : Int))]),
     ([((5 : Int), (5 : Int)), ((5 : Int), (7 : Int))], [((5 : Int), (6 : Int))])] 2
    [([(0, 0), (0, 2)], [(0, 1)], 2)] (by decide))
    [((0 : Int), (0 : Int)), ((0 : Int), (2 : Int))] [((0 : Int), (1 : Int))] 2).mpr
    ⟨by decide, by decide, by decide, by decide⟩

/-!
The constrained-entanglement miners (`constrainedEntanglementMiner.ts`, the
two-star and generic `mineConstrainedEntanglements`) and the triple miners
(`utils/index.ts`, the two-star and generic `mineTripleEntanglements`).
Feature sets are modelled as `List Bool` in the exact order of the source's
`getFeatureNames` / `getTripleFeatureNames`, so feature names become indices;
`getFeatureValue`'s `|| false` becomes `List.getD _ false`. The final
`sortRules` reordering of each output (occurrences descending, then a
locale-dependent string comparison) is a permutation and is not modelled; all
claims about the rules concern membership only.
-/

/-- `Math.max(...)` over a list (the miners only apply it to non-empty star
lists). -/
def maxList : List Int → Int
  | [] => 0
  | x :: xs => xs.foldl max x

/-- An occurrence record of the constrained miners (`compatible_solutions` is
carried by the source but never read by the mining steps, so it is omitted). -/
structure MOcc where
  canonical_stars : List Point
  canonical_forced_empty : List Point
  abs_stars : List Point
  abs_forced_empty : List Point
  extra_features : List Bool
deriving DecidableEq, Repr

/-- `getFeatureValue`: read feature `f`, defaulting to `false`. -/
def getFeatureValue (occ : MOcc) (f : Nat) : Bool := occ.extra_features.getD f false

/-- The two-star `extractFeatures`: the 26 booleans in `getFeatureNames`
order (the numeric `row_distance` / `col_distance` fields are not in that
list and are never read by the miner). -/
def extractFeatures2 (absStars absEmpties : List Point) (n : Nat) : List Bool :=
  let s0 := absStars.getD 0 (0, 0)
  let s1 := absStars.getD 1 (0, 0)
  let minRow := min s0.1 s1.1
  let maxRow := max s0.1 s1.1
  let minCol := min s0.2 s1.2
  let maxCol := max s0.2 s1.2
  let halfSize : Int := (n / 2 : Nat)
  let inRegion := fun (minR maxR minC maxC : Int) =>
    absEmpties.any fun p => decide (minR ≤ p.1 ∧ p.1 ≤ maxR ∧ minC ≤ p.2 ∧ p.2 ≤ maxC)
  [decide (s0.1 = 0), decide (s0.1 = (n : Int) - 1),
   decide (s0.2 = 0), decide (s0.2 = (n : Int) - 1),
   decide (s1.1 = 0), decide (s1.1 = (n : Int) - 1),
   decide (s1.2 = 0), decide (s1.2 = (n : Int) - 1),
   decide (minRow = 0), decide (maxRow = (n : Int) - 1),
   decide (minCol = 0), decide (maxCol = (n : Int) - 1),
   decide (s0.1 = s1.1), decide (s0.2 = s1.2),
   decide (s0.1 < halfSize) && decide (s1.1 < halfSize),
   decide (halfSize ≤ s0.1) && decide (halfSize ≤ s1.1),
   decide (s0.2 < halfSize) && decide (s1.2 < halfSize),
   decide (halfSize ≤ s0.2) && decide (halfSize ≤ s1.2),
   absEmpties.any (fun p => decide (p.1 = 0)),
   absEmpties.any (fun p => decide (p.1 = (n : Int) - 1)),
   absEmpties.any (fun p => decide (p.2 = 0)),
   absEmpties.any (fun p => decide (p.2 = (n : Int) - 1)),
   inRegion 0 2 0 2,
   inRegion 0 2 ((n : Int) - 3) ((n : Int) - 1),
   inRegion ((n : Int) - 3) ((n : Int) - 1) 0 2,
   inRegion ((n : Int) - 3) ((n : Int) - 1) ((n : Int) - 3) ((n : Int) - 1)]

/-- The generic `extractFeatures`: the 20 booleans in the generic
`getFeatureNames` order. -/
def extractFeaturesG (absStars absEmpties : List Point) (n : Nat) : List Bool :=
  let minRow := minList (absStars.map Prod.fst)
  let maxRow := maxList (absStars.map Prod.fst)
  let minCol := minList (absStars.map Prod.snd)
  let maxCol := maxList (absStars.map Prod.snd)
  let halfSize : Int := (n / 2 : Nat)
  let inRegion := fun (minR maxR minC maxC : Int) =>
    absEmpties.any fun p => decide (minR ≤ p.1 ∧ p.1 ≤ maxR ∧ minC ≤ p.2 ∧ p.2 ≤ maxC)
  [absStars.any (fun p => decide (p.1 = 0)),
   absStars.any (fun p => decide (p.1 = (n : Int) - 1)),
   absStars.any (fun p => decide (p.2 = 0)),
   absStars.any (fun p => decide (p.2 = (n : Int) - 1)),
   absStars.all (fun p => decide (p.2 < halfSize)),
   absStars.all (fun p => decide (halfSize ≤ p.2)),
   absStars.all (fun p => decide (p.1 < halfSize)),
   absStars.all (fun p => decide (halfSize ≤ p.1)),
   decide (minRow = 0), decide (maxRow = (n : Int) - 1),
   decide (minCol = 0), decide (maxCol = (n : Int) - 1),
   absEmpties.any (fun p => decide (p.1 = 0)),
   absEmpties.any (fun p => decide (p.1 = (n : Int) - 1)),
   absEmpties.any (fun p => decide (p.2 = 0)),
   absEmpties.any (fun p => decide (p.2 = (n : Int) - 1)),
   inRegion 0 2 0 2,
   inRegion 0 2 ((n : Int) - 3) ((n : Int) - 1),
   inRegion ((n : Int) - 3) ((n : Int) - 1) 0 2,
   inRegion ((n : Int) - 3) ((n : Int) - 1) ((n : Int) - 3) ((n : Int) - 1)]

/-- The constraint search of the mining steps: first collect all single
features true on every positive and on no negative; use the first if any
exist, otherwise scan ordered feature pairs keeping the first separating
pair. -/
def findBestConstraints {α : Type} (featVal : α → Nat → Bool) (numFeats : Nat)
    (posOccs negOccs : List α) : List Nat :=
  let singles := (List.range numFeats).filter fun f =>
    posOccs.all (fun o => featVal o f) && ! negOccs.any (fun o => featVal o f)
  match singles with
  | f :: _ => [f]
  | [] =>
    ((List.range numFeats).flatMap fun i =>
      ((List.range numFeats).filter fun j => decide (i < j)).map fun j => (i, j)).foldl
      (fun best fp =>
        if (posOccs.all fun o => featVal o fp.1 && featVal o fp.2)
            && ! (negOccs.any fun o => featVal o fp.1 && featVal o fp.2) then
          if best.length = 0 ∨ 2 < best.length then [fp.1, fp.2] else best
        else best)
      []

/-- Append an occurrence to the entry of key `k` of an insertion-ordered
association list, creating the entry at the end when absent (JS `Map`
semantics). -/
def pushEntry {α : Type} (m : List (List Point × List α)) (k : List Point) (occ : α) :
    List (List Point × List α) :=
  match m with
  | [] => [(k, [occ])]
  | (k2, l) :: rest => if k2 = k then (k2, l ++ [occ]) :: rest else (k2, l) :: pushEntry rest k occ

/-- Step 2 of the constrained miners: group occurrences by canonical stars,
then by canonical forced-empty value. -/
def addOccG (groups : List (List Point × List (List Point × List MOcc))) (occ : MOcc) :
    List (List Point × List (List Point × List MOcc)) :=
  match groups with
  | [] => [(occ.canonical_stars, pushEntry [] occ.canonical_forced_empty occ)]
  | (k2, em) :: rest =>
    if k2 = occ.canonical_stars then (k2, pushEntry em occ.canonical_forced_empty occ) :: rest
    else (k2, em) :: addOccG rest occ

def starGroupsOf (occs : List MOcc) : List (List Point × List (List Point × List MOcc)) :=
  occs.foldl addOccG []

/-- A constrained rule; `constraint_features` holds feature indices in
`getFeatureNames` order. -/
structure CRule where
  canonical_stars : List Point
  canonical_forced_empty : List Point
  constraint_features : List Nat
  occurrences : Nat
deriving DecidableEq, Repr

/-- Step 3 of the constrained miners, producing (unconstrained, constrained)
rule lists from the star groups. -/
def mineStarGroupsRules (numFeats : Nat)
    (groups : List (List Point × List (List Point × List MOcc))) (minOcc : Nat) :
    List CRule × List CRule :=
  let unconstrained := groups.filterMap fun g =>
    if g.2.length = 1 then
      let ent := g.2.headD ([], [])
      if minOcc ≤ ent.2.length then some ⟨g.1, ent.1, [], ent.2.length⟩ else none
    else none
  let constrained := groups.flatMap fun g =>
    if g.2.length = 1 then []
    else g.2.flatMap fun ent =>
      if ent.2.length < minOcc then []
      else
        let negOccs := (g.2.filter fun e2 => ! decide (e2.1 = ent.1)).flatMap fun e2 => e2.2
        if negOccs.length = 0 then []
        else
          let best := findBestConstraints getFeatureValue numFeats ent.2 negOccs
          if 0 < best.length then [⟨g.1, ent.1, best, ent.2.length⟩] else []
  (unconstrained, constrained)

/-- Step 1 of the two-star `mineConstrainedEntanglements`: patterns whose
star count is not exactly two are skipped (`canonicalizeStars2` is `none`
exactly for those). -/
def step1Occs2 (n : Nat) (patterns : List (List Point × List Point)) : List MOcc :=
  patterns.filterMap fun pat =>
    match canonicalizeStars2 pat.1 with
    | none => none
    | some (cs, ti, tr) =>
      some ⟨cs, canonicalizeEmpties pat.2 ti tr, pat.1, pat.2, extractFeatures2 pat.1 pat.2 n⟩

/-- Step 1 of the generic `mineConstrainedEntanglements`: zero-star patterns
are skipped (`canonicalize` is `none` exactly for those). -/
def step1OccsG (n : Nat) (patterns : List (List Point × List Point)) : List MOcc :=
  patterns.filterMap fun pat =>
    match canonicalize pat.1 pat.2 with
    | none => none
    | some R =>
      some ⟨R.canonicalStars, R.canonicalCells, pat.1, pat.2, extractFeaturesG pat.1 pat.2 n⟩

/-- The two-star `mineConstrainedEntanglements` (rule lists, pre-sort). -/
def mineConstrained2 (n : Nat) (patterns : List (List Point × List Point)) (minOcc : Nat) :
    List CRule × List CRule :=
  mineStarGroupsRules 26 (starGroupsOf (step1Occs2 n patterns)) minOcc

/-- The generic `mineConstrainedEntanglements` (rule lists, pre-sort). -/
def mineConstrainedG (n : Nat) (patterns : List (List Point × List Point)) (minOcc : Nat) :
    List CRule × List CRule :=
  mineStarGroupsRules 20 (starGroupsOf (step1OccsG n patterns)) minOcc

/-- The generic `extractPureEntanglements` of `constrainedEntanglementMiner.ts`:
zero-star patterns are skipped; groups are keyed by the generic canonical
stars with the canonical cells as the empties value (templates pre-sort). -/
def extractPureG (patterns : List (List Point × List Point)) (minOccurrences : Nat) :
    List (List Point × List Point × Nat) :=
  let classes := patterns.foldl
    (fun classes pat =>
      match canonicalize pat.1 pat.2 with
      | none => classes
      | some R => addToClasses classes R.canonicalStars R.canonicalCells)
    []
  classes.filterMap fun cl =>
    if cl.2.2.length = 1 ∧ minOccurrences ≤ cl.2.1 then
      some (cl.1, (cl.2.2.headD ([], 0)).1, cl.2.1)
    else none

/-- A triple occurrence of the triple miners. -/
structure TOcc where
  canonical_stars : List Point
  canonical_candidate : Point
  abs_stars : List Point
  abs_candidate : Point
  is_forced : Bool
  extra_features : List Bool
deriving DecidableEq, Repr

/-- `getTripleFeatureValue`. -/
def getTripleFeatureValue (occ : TOcc) (f : Nat) : Bool := occ.extra_features.getD f false

/-- `JSON.stringify([sortedStars, pc])`, the comparison key of
`canonicalizeTriple`. -/
def encTriple (ps : List Point) (pc : Point) : List Char :=
  '[' :: (encPts ps ++ ',' :: (encPt pc ++ [']']))

/-- One candidate of the two-star `canonicalizeTriple` loop. -/
def candTriple (s1 s2 c : Point) (t : Nat) : List Point × Point × Nat × Point :=
  let q1 := tfAt t s1
  let q2 := tfAt t s2
  let qc := tfAt t c
  let minRow := min q1.1 q2.1
  let minCol := min q1.2 q2.2
  let p1 : Point := (q1.1 - minRow, q1.2 - minCol)
  let p2 : Point := (q2.1 - minRow, q2.2 - minCol)
  let pc : Point := (qc.1 - minRow, qc.2 - minCol)
  let sortedStars := if p1.1 < p2.1 ∨ (p1.1 = p2.1 ∧ p1.2 < p2.2) then [p1, p2] else [p2, p1]
  (sortedStars, pc, t, (minRow, minCol))

/-- The two-star `canonicalizeTriple` of `utils/index.ts`; `none` models the
throw on star counts other than two. -/
def canonicalizeTriple2 (stars : List Point) (candidate : Point) :
    Option (List Point × Point × Nat × Point) :=
  match stars with
  | [s1, s2] =>
    match (List.range 8).foldl
        (pickStep (candTriple s1 s2 candidate) (fun r => encTriple r.1 r.2.1)) none with
    | some (r, _) => some r
    | none => none
  | _ => none

/-- The generic `canonicalizeTriple`: delegate to the generic `canonicalize`
with the candidate as the only auxiliary cell (`none` models the throws on
zero stars or a malformed cell list). -/
def canonicalizeTripleG (stars : List Point) (candidate : Point) :
    Option (List Point × Point × Nat × Point) :=
  match canonicalize stars [candidate] with
  | none => none
  | some R =>
    match R.canonicalCells with
    | [c] => some (R.canonicalStars, c, R.transformIndex, R.translation)
    | _ => none

/-- The two-star `extractTripleFeatures`: the 21 booleans in
`getTripleFeatureNames` order. -/
def extractTripleFeats2 (absStars : List Point) (c : Point) (n : Nat) : List Bool :=
  let s0 := absStars.getD 0 (0, 0)
  let s1 := absStars.getD 1 (0, 0)
  let minRow := min s0.1 s1.1
  let maxRow := max s0.1 s1.1
  let minCol := min s0.2 s1.2
  let maxCol := max s0.2 s1.2
  [decide (s0.1 = 0), decide (s0.1 = (n : Int) - 1),
   decide (s0.2 = 0), decide (s0.2 = (n : Int) - 1),
   decide (s1.1 = 0), decide (s1.1 = (n : Int) - 1),
   decide (s1.2 = 0), decide (s1.2 = (n : Int) - 1),
   decide (minRow = 0), decide (maxRow = (n : Int) - 1),
   decide (minCol = 0), decide (maxCol = (n : Int) - 1),
   decide (c.1 = 0), decide (c.1 = (n : Int) - 1),
   decide (c.2 = 0), decide (c.2 = (n : Int) - 1),
   decide (c.1 = 0 ∨ c.1 = (n : Int) - 1 ∨ c.2 = 0 ∨ c.2 = (n : Int) - 1),
   decide (0 ≤ c.1 ∧ c.1 ≤ 2 ∧ 0 ≤ c.2 ∧ c.2 ≤ 2),
   decide (0 ≤ c.1 ∧ c.1 ≤ 2 ∧ (n : Int) - 3 ≤ c.2 ∧ c.2 ≤ (n : Int) - 1),
   decide ((n : Int) - 3 ≤ c.1 ∧ c.1 ≤ (n : Int) - 1 ∧ 0 ≤ c.2 ∧ c.2 ≤ 2),
   decide ((n : Int) - 3 ≤ c.1 ∧ c.1 ≤ (n : Int) - 1 ∧ (n : Int) - 3 ≤ c.2 ∧ c.2 ≤ (n : Int) - 1)]

/-- The generic `extractTripleFeatures`: the 21 booleans in the generic
`getTripleFeatureNames` order. -/
def extractTripleFeatsG (absStars : List Point) (c : Point) (n : Nat) : List Bool :=
  let minRow := minList (absStars.map Prod.fst)
  let maxRow := maxList (absStars.map Prod.fst)
  let minCol := minList (absStars.map Prod.snd)
  let maxCol := maxList (absStars.map Prod.snd)
  let halfSize : Int := (n / 2 : Nat)
  [absStars.any (fun p => decide (p.1 = 0)),
   absStars.any (fun p => decide (p.1 = (n : Int) - 1)),
   absStars.any (fun p => decide (p.2 = 0)),
   absStars.any (fun p => decide (p.2 = (n : Int) - 1)),
   absStars.all (fun p => decide (p.2 < halfSize)),
   absStars.all (fun p => decide (halfSize ≤ p.2)),
   absStars.all (fun p => decide (p.1 < halfSize)),
   absStars.all (fun p => decide (halfSize ≤ p.1)),
   decide (minRow = 0), decide (maxRow = (n : Int) - 1),
   decide (minCol = 0), decide (maxCol = (n : Int) - 1),
   decide (c.1 = 0), decide (c.1 = (n : Int) - 1),
   decide (c.2 = 0), decide (c.2 = (n : Int) - 1),
   decide (c.1 = 0 ∨ c.1 = (n : Int) - 1 ∨ c.2 = 0 ∨ c.2 = (n : Int) - 1),
   decide (0 ≤ c.1 ∧ c.1 ≤ 2 ∧ 0 ≤ c.2 ∧ c.2 ≤ 2),
   decide (0 ≤ c.1 ∧ c.1 ≤ 2 ∧ (n : Int) - 3 ≤ c.2 ∧ c.2 ≤ (n : Int) - 1),
   decide ((n : Int) - 3 ≤ c.1 ∧ c.1 ≤ (n : Int) - 1 ∧ 0 ≤ c.2 ∧ c.2 ≤ 2),
   decide ((n : Int) - 3 ≤ c.1 ∧ c.1 ≤ (n : Int) - 1 ∧ (n : Int) - 3 ≤ c.2 ∧ c.2 ≤ (n : Int) - 1)]

/-- `isCandidateForcedEmpty`: `false` when no solution is compatible,
otherwise the candidate is empty in every compatible solution. -/
def isCandidateForcedEmpty (stars : List (Nat × Nat)) (candidate : Nat × Nat)
    (solutions : List Grid) : Bool :=
  let compat := solutions.filter fun sol => isPatternCompatible stars sol
  if compat.length = 0 then false
  else compat.all fun sol => decide (gget sol candidate.1 candidate.2 = 0)

/-- `isCandidateForcedEmpty` on points (board cells are non-negative, so the
`toNat` conversion is exact on the in-bounds cells the miners pass in). -/
def isForcedEmptyPts (stars : List Point) (candidate : Point) (solutions : List Grid) : Bool :=
  isCandidateForcedEmpty (stars.map fun p => (p.1.toNat, p.2.toNat))
    (candidate.1.toNat, candidate.2.toNat) solutions

/-- Step 1 of the two-star `mineTripleEntanglements`: one triple occurrence
per (pattern, forced-empty cell), skipping patterns whose star count is not
exactly two. -/
def step1Triples2 (n : Nat) (patterns : List (List Point × List Point))
    (solutions : List Grid) : List TOcc :=
  patterns.flatMap fun pat =>
    pat.2.filterMap fun cand =>
      match canonicalizeTriple2 pat.1 cand with
      | none => none
      | some (cs, cc, _, _) =>
        some ⟨cs, cc, pat.1, cand, isForcedEmptyPts pat.1 cand solutions,
          extractTripleFeats2 pat.1 cand n⟩

/-- Step 1 of the generic `mineTripleEntanglements`, skipping zero-star
patterns. -/
def step1TriplesG (n : Nat) (patterns : List (List Point × List Point))
    (solutions : List Grid) : List TOcc :=
  patterns.flatMap fun pat =>
    pat.2.filterMap fun cand =>
      match canonicalizeTripleG pat.1 cand with
      | none => none
      | some (cs, cc, _, _) =>
        some ⟨cs, cc, pat.1, cand, isForcedEmptyPts pat.1 cand solutions,
          extractTripleFeatsG pat.1 cand n⟩

/-- The `canonicalTriples` map of step 2: the distinct canonical geometries
of the pattern-derived occurrences, in first-seen order. -/
def discoveredTriples (occs : List TOcc) : List (List Point × Point) :=
  occs.foldl
    (fun acc occ =>
      if (occ.canonical_stars, occ.canonical_candidate) ∈ acc then acc
      else acc ++ [(occ.canonical_stars, occ.canonical_candidate)])
    []

/-- The placements initially marked seen in step 2: one per pattern-derived
occurrence (canonical geometry, absolute stars, absolute candidate). -/
def seenInit (occs : List TOcc) : List ((List Point × Point) × List Point × Point) :=
  occs.map fun occ =>
    ((occ.canonical_stars, occ.canonical_candidate), (occ.abs_stars, occ.abs_candidate))

/-- One step of the two-star step-2 placement scan: bounds check, star
adjacency check, realizability check, then the seen-placement check. -/
def placeStep2 (n : Nat) (solutions : List Grid)
    (acc : List ((List Point × Point) × List Point × Point) × List TOcc)
    (tbb : (List Point × Point) × Nat × Nat) :
    List ((List Point × Point) × List Point × Point) × List TOcc :=
  match tbb with
  | ((cs, cc), br, bc) =>
    let s0 := cs.getD 0 (0, 0)
    let s1 := cs.getD 1 (0, 0)
    let a0 : Point := ((br : Int) + s0.1, (bc : Int) + s0.2)
    let a1 : Point := ((br : Int) + s1.1, (bc : Int) + s1.2)
    let ac : Point := ((br : Int) + cc.1, (bc : Int) + cc.2)
    if ¬ (0 ≤ a0.1 ∧ a0.1 < (n : Int) ∧ 0 ≤ a0.2 ∧ a0.2 < (n : Int) ∧
          0 ≤ a1.1 ∧ a1.1 < (n : Int) ∧ 0 ≤ a1.2 ∧ a1.2 < (n : Int) ∧
          0 ≤ ac.1 ∧ ac.1 < (n : Int) ∧ 0 ≤ ac.2 ∧ ac.2 < (n : Int)) then acc
    else if (a0.1 - a1.1).natAbs ≤ 1 ∧ (a0.2 - a1.2).natAbs ≤ 1 then acc
    else
      let starCells := [(a0.1.toNat, a0.2.toNat), (a1.1.toNat, a1.2.toNat)]
      if ! solutions.any (fun sol => isPatternCompatible starCells sol) then acc
      else
        let pk := ((cs, cc), ([a0, a1], ac))
        if pk ∈ acc.1 then acc
        else (acc.1 ++ [pk], acc.2 ++
          [⟨cs, cc, [a0, a1], ac,
            isCandidateForcedEmpty starCells (ac.1.toNat, ac.2.toNat) solutions,
            extractTripleFeats2 [a0, a1] ac n⟩])

/-- Any two of the absolute stars within Chebyshev distance 1 (the pairwise
adjacency scan of the generic step 2). -/
def anyAdjacentPair : List Point → Bool
  | [] => false
  | p :: rest =>
    rest.any (fun q => decide ((p.1 - q.1).natAbs ≤ 1 ∧ (p.2 - q.2).natAbs ≤ 1))
      || anyAdjacentPair rest

/-- One step of the generic step-2 placement scan. -/
def placeStepG (n : Nat) (solutions : List Grid)
    (acc : List ((List Point × Point) × List Point × Point) × List TOcc)
    (tbb : (List Point × Point) × Nat × Nat) :
    List ((List Point × Point) × List Point × Point) × List TOcc :=
  match tbb with
  | ((cs, cc), br, bc) =>
    let absStars := cs.map fun st => (((br : Int) + st.1, (bc : Int) + st.2) : Point)
    let ac : Point := ((br : Int) + cc.1, (bc : Int) + cc.2)
    if ¬ ((absStars.all fun st =>
            decide (0 ≤ st.1 ∧ st.1 < (n : Int) ∧ 0 ≤ st.2 ∧ st.2 < (n : Int))) = true
          ∧ 0 ≤ ac.1 ∧ ac.1 < (n : Int) ∧ 0 ≤ ac.2 ∧ ac.2 < (n : Int)) then acc
    else if anyAdjacentPair absStars then acc
    else
      let starCells := absStars.map fun p => (p.1.toNat, p.2.toNat)
      if ! solutions.any (fun sol => isPatternCompatible starCells sol) then acc
      else
        let pk := ((cs, cc), (absStars, ac))
        if pk ∈ acc.1 then acc
        else (acc.1 ++ [pk], acc.2 ++
          [⟨cs, cc, absStars, ac,
            isCandidateForcedEmpty starCells (ac.1.toNat, ac.2.toNat) solutions,
            extractTripleFeatsG absStars ac n⟩])

/-- The placement enumeration order of step 2: each discovered triple, then
`baseRow`, then `baseCol`. -/
def placementList (n : Nat) (triples : List (List Point × Point)) :
    List ((List Point × Point) × Nat × Nat) :=
  triples.flatMap fun tr =>
    (List.range n).flatMap fun br => (List.range n).map fun bc => (tr, br, bc)

/-- Step 2 of the two-star `mineTripleEntanglements`: extend the
pattern-derived occurrences with every unseen valid translated placement of
each discovered canonical triple. -/
def step2sample2 (n : Nat) (solutions : List Grid) (occs : List TOcc) : List TOcc :=
  occs ++ ((placementList n (discoveredTriples occs)).foldl
    (placeStep2 n solutions) (seenInit occs, [])).2

/-- Step 2 of the generic `mineTripleEntanglements`. -/
def step2sampleG (n : Nat) (solutions : List Grid) (occs : List TOcc) : List TOcc :=
  occs ++ ((placementList n (discoveredTriples occs)).foldl
    (placeStepG n solutions) (seenInit occs, [])).2

/-- Step 3 of the triple miners: group occurrences by canonical triple
(insertion order). -/
def pushTOcc (groups : List ((List Point × Point) × List TOcc)) (occ : TOcc) :
    List ((List Point × Point) × List TOcc) :=
  match groups with
  | [] => [((occ.canonical_stars, occ.canonical_candidate), [occ])]
  | (k2, l) :: rest =>
    if k2 = (occ.canonical_stars, occ.canonical_candidate) then (k2, l ++ [occ]) :: rest
    else (k2, l) :: pushTOcc rest occ

def tripleGroupsOf (occs : List TOcc) : List ((List Point × Point) × List TOcc) :=
  occs.foldl pushTOcc []

/-- A triple rule; `constraint_features` holds feature indices in
`getTripleFeatureNames` order. -/
structure TRule where
  canonical_stars : List Point
  canonical_candidate : Point
  constraint_features : List Nat
  forced : Bool
  occurrences : Nat
deriving DecidableEq, Repr

/-- Step 4 of the triple miners, producing (unconstrained, constrained)
rule lists. -/
def mineTripleRules (numFeats : Nat) (groups : List ((List Point × Point) × List TOcc))
    (minOcc : Nat) : List TRule × List TRule :=
  let unconstrained := groups.filterMap fun g =>
    let pos : List TOcc := g.2.filter fun o => o.is_forced
    let neg : List TOcc := g.2.filter fun o => ! o.is_forced
    if pos.length < minOcc then none
    else if neg.length = 0 then some ⟨g.1.1, g.1.2, [], true, pos.length⟩
    else none
  let constrained := groups.filterMap fun g =>
    let pos : List TOcc := g.2.filter fun o => o.is_forced
    let neg : List TOcc := g.2.filter fun o => ! o.is_forced
    if pos.length < minOcc then none
    else if neg.length = 0 then none
    else
      let best := findBestConstraints getTripleFeatureValue numFeats pos neg
      if 0 < best.length then some ⟨g.1.1, g.1.2, best, true, pos.length⟩ else none
  (unconstrained, constrained)

/-- The two-star `mineTripleEntanglements` (rule lists, pre-sort). -/
def mineTriple2 (n : Nat) (patterns : List (List Point × List Point))
    (solutions : List Grid) (minOcc : Nat) : List TRule × List TRule :=
  mineTripleRules 21 (tripleGroupsOf (step2sample2 n solutions
    (step1Triples2 n patterns solutions))) minOcc

/-- The generic `mineTripleEntanglements` (rule lists, pre-sort). -/
def mineTripleG (n : Nat) (patterns : List (List Point × List Point))
    (solutions : List Grid) (minOcc : Nat) : List TRule × List TRule :=
  mineTripleRules 21 (tripleGroupsOf (step2sampleG n solutions
    (step1TriplesG n patterns solutions))) minOcc

/-- Soundness target for a constraint list: empty, or separating (all
positives satisfy every listed feature, every negative fails one). -/
def sepGood {α : Type} (featVal : α → Nat → Bool) (pos neg : List α) (r : List Nat) : Prop :=
  r = [] ∨
    ((∀ o ∈ pos, ∀ f ∈ r, featVal o f = true) ∧
     (∀ o ∈ neg, ∃ f ∈ r, featVal o f = false))

theorem sepGood_foldl {α : Type} (featVal : α → Nat → Bool) (pos neg : List α) :
    ∀ (l : List (Nat × Nat)) (acc : List Nat), sepGood featVal pos neg acc →
      sepGood featVal pos neg (l.foldl
        (fun best fp =>
          if (pos.all fun o => featVal o fp.1 && featVal o fp.2)
              && ! (neg.any fun o => featVal o fp.1 && featVal o fp.2) then
            if best.length = 0 ∨ 2 < best.length then [fp.1, fp.2] else best
          else best) acc) := by
  intro l
  induction l with
  | nil =>
    intro acc h
    exact h
  | cons fp rest ih =>
    intro acc h
    rw [List.foldl_cons]
    apply ih
    by_cases hc : ((pos.all fun o => featVal o fp.1 && featVal o fp.2)
        && ! (neg.any fun o => featVal o fp.1 && featVal o fp.2)) = true
    · rw [if_pos hc]
      by_cases hlen : acc.length = 0 ∨ 2 < acc.length
      · rw [if_pos hlen]
        simp only [Bool.and_eq_true, Bool.not_eq_true'] at hc
        obtain ⟨hall, hany⟩ := hc
        right
        constructor
        · intro o ho f hf
          have hb := List.all_eq_true.mp hall o ho
          simp only [Bool.and_eq_true] at hb
          rcases List.mem_cons.mp hf with rfl | hf2
          · exact hb.1
          · rcases List.mem_cons.mp hf2 with rfl | hf3
            · exact hb.2
            · exact absurd hf3 (List.not_mem_nil f)
        · intro o ho
          have hb : (featVal o fp.1 && featVal o fp.2) = false :=
            Bool.eq_false_iff.mpr (List.any_eq_false.mp hany o ho)
          cases hb1 : featVal o fp.1 with
          | false => exact ⟨fp.1, List.mem_cons_self _ _, hb1⟩
          | true =>
            rw [hb1] at hb
            simp only [Bool.true_and] at hb
            exact ⟨fp.2, List.mem_cons_of_mem _ (List.mem_cons_self _ _), hb⟩
      · rw [if_neg hlen]
        exact h
    · rw [if_neg hc]
      exact h

theorem findBestConstraints_good {α : Type} (featVal : α → Nat → Bool) (numFeats : Nat)
    (pos neg : List α) :
    sepGood featVal pos neg (findBestConstraints featVal numFeats pos neg) := by
  unfold findBestConstraints
  cases hs : (List.range numFeats).filter
      (fun f => pos.all (fun o => featVal o f) && ! neg.any (fun o => featVal o f)) with
  | nil => exact sepGood_foldl featVal pos neg _ [] (Or.inl rfl)
  | cons f0 fs =>
    have hf0 : f0 ∈ (List.range numFeats).filter
        (fun f => pos.all (fun o => featVal o f) && ! neg.any (fun o => featVal o f)) := by
      rw [hs]
      exact List.mem_cons_self _ _
    have hpred := (List.mem_filter.mp hf0).2
    simp only [Bool.and_eq_true, Bool.not_eq_true'] at hpred
    obtain ⟨hall, hany⟩ := hpred
    refine Or.inr ⟨?_, ?_⟩
    · intro o ho f hf
      rcases List.mem_cons.mp hf with rfl | hf2
      · exact List.all_eq_true.mp hall o ho
      · exact absurd hf2 (List.not_mem_nil f)
    · intro o ho
      exact ⟨f0, List.mem_cons_self _ _,
        Bool.eq_false_iff.mpr (List.any_eq_false.mp hany o ho)⟩

theorem mineStarGroupsRules_sep (numFeats : Nat)
    (groups : List (List Point × List (List Point × List MOcc))) (minOcc : Nat) (r : CRule)
    (hr : r ∈ (mineStarGroupsRules numFeats groups minOcc).2) :
    ∃ g ∈ groups, ∃ ent ∈ g.2,
      r.canonical_stars = g.1 ∧ r.canonical_forced_empty = ent.1 ∧
      r.occurrences = ent.2.length ∧
      (∀ occ ∈ ent.2, ∀ f ∈ r.constraint_features, getFeatureValue occ f = true) ∧
      (∀ occ ∈ (g.2.filter fun e2 => ! decide (e2.1 = ent.1)).flatMap (fun e2 => e2.2),
        ∃ f ∈ r.constraint_features, getFeatureValue occ f = false) := by
  simp only [mineStarGroupsRules] at hr
  obtain ⟨g, hg, hr2⟩ := List.mem_flatMap.mp hr
  by_cases h1 : g.2.length = 1
  · rw [if_pos h1] at hr2
    exact absurd hr2 (List.not_mem_nil r)
  · rw [if_neg h1] at hr2
    obtain ⟨ent, hent, hr3⟩ := List.mem_flatMap.mp hr2
    by_cases h2 : ent.2.length < minOcc
    · rw [if_pos h2] at hr3
      exact absurd hr3 (List.not_mem_nil r)
    · rw [if_neg h2] at hr3
      by_cases h3 : ((g.2.filter fun e2 => ! decide (e2.1 = ent.1)).flatMap
          fun e2 => e2.2).length = 0
      · rw [if_pos h3] at hr3
        exact absurd hr3 (List.not_mem_nil r)
      · rw [if_neg h3] at hr3
        by_cases h4 : 0 < (findBestConstraints getFeatureValue numFeats ent.2
            ((g.2.filter fun e2 => ! decide (e2.1 = ent.1)).flatMap fun e2 => e2.2)).length
        · rw [if_pos h4] at hr3
          rw [List.mem_singleton] at hr3
          subst hr3
          refine ⟨g, hg, ent, hent, rfl, rfl, rfl, ?_, ?_⟩
          · intro occ hocc f hf
            rcases findBestConstraints_good getFeatureValue numFeats ent.2
                ((g.2.filter fun e2 => ! decide (e2.1 = ent.1)).flatMap fun e2 => e2.2) with
              he | ⟨hpos, -⟩
            · rw [he] at h4
              exact absurd h4 (by simp)
            · exact hpos occ hocc f hf
          · intro occ hocc
            rcases findBestConstraints_good getFeatureValue numFeats ent.2
                ((g.2.filter fun e2 => ! decide (e2.1 = ent.1)).flatMap fun e2 => e2.2) with
              he | ⟨-, hneg⟩
            · rw [he] at h4
              exact absurd h4 (by simp)
            · exact hneg occ hocc
        · rw [if_neg h4] at hr3
          exact absurd hr3 (List.not_mem_nil r)

theorem mineTripleRules_sep (numFeats : Nat)
    (groups : List ((List Point × Point) × List TOcc)) (minOcc : Nat) (r : TRule)
    (hr : r ∈ (mineTripleRules numFeats groups minOcc).2) :
    ∃ g ∈ groups,
      r.canonical_stars = g.1.1 ∧ r.canonical_candidate = g.1.2 ∧
      r.occurrences = (g.2.filter fun o => o.is_forced).length ∧
      (∀ occ ∈ g.2.filter (fun o => o.is_forced), ∀ f ∈ r.constraint_features,
        getTripleFeatureValue occ f = true) ∧
      (∀ occ ∈ g.2.filter (fun o => ! o.is_forced), ∃ f ∈ r.constraint_features,
        getTripleFeatureValue occ f = false) := by
  simp only [mineTripleRules] at hr
  obtain ⟨g, hg, hr2⟩ := List.mem_filterMap.mp hr
  by_cases h1 : (g.2.filter fun o => o.is_forced).length < minOcc
  · rw [if_pos h1] at hr2
    exact Option.noConfusion hr2
  · rw [if_neg h1] at hr2
    by_cases h2 : (g.2.filter fun o => ! o.is_forced).length = 0
    · rw [if_pos h2] at hr2
      exact Option.noConfusion hr2
    · rw [if_neg h2] at hr2
      by_cases h3 : 0 < (findBestConstraints getTripleFeatureValue numFeats
          (g.2.filter fun o => o.is_forced) (g.2.filter fun o => ! o.is_forced)).length
      · rw [if_pos h3] at hr2
        injection hr2 with hr2
        subst hr2
        refine ⟨g, hg, rfl, rfl, rfl, ?_, ?_⟩
        · intro occ hocc f hf
          rcases findBestConstraints_good getTripleFeatureValue numFeats
              (g.2.filter fun o => o.is_forced) (g.2.filter fun o => ! o.is_forced) with
            he | ⟨hpos, -⟩
          · rw [he] at h3
            exact absurd h3 (by simp)
          · exact hpos occ hocc f hf
        · intro occ hocc
          rcases findBestConstraints_good getTripleFeatureValue numFeats
              (g.2.filter fun o => o.is_forced) (g.2.filter fun o => ! o.is_forced) with
            he | ⟨-, hneg⟩
          · rw [he] at h3
            exact absurd h3 (by simp)
          · exact hneg occ hocc
      · rw [if_neg h3] at hr2
        exact Option.noConfusion hr2

/-- C7: every constrained rule emitted by the miners lists features that
every positive occurrence of its canonical group satisfies and every negative
occurrence of the same group fails: for the constrained miners (two-star and
generic) the positives are the rule's empties-entry and the negatives are the
other entries of its star group; for the triple miners (two-star and generic)
the positives and negatives are the forced and non-forced occurrences of its
triple group. -/
theorem claim_C7_constraint_separation :
    (∀ (n : Nat) (patterns : List (List Point × List Point)) (minOcc : Nat) (r : CRule),
      r ∈ (mineConstrained2 n patterns minOcc).2 →
      ∃ g ∈ starGroupsOf (step1Occs2 n patterns), ∃ ent ∈ g.2,
        r.canonical_stars = g.1 ∧ r.canonical_forced_empty = ent.1 ∧
        r.occurrences = ent.2.length ∧
        (∀ occ ∈ ent.2, ∀ f ∈ r.constraint_features, getFeatureValue occ f = true) ∧
        (∀ occ ∈ (g.2.filter fun e2 => ! decide (e2.1 = ent.1)).flatMap (fun e2 => e2.2),
          ∃ f ∈ r.constraint_features, getFeatureValue occ f = false))
    ∧ (∀ (n : Nat) (patterns : List (List Point × List Point)) (minOcc : Nat) (r : CRule),
      r ∈ (mineConstrainedG n patterns minOcc).2 →
      ∃ g ∈ starGroupsOf (step1OccsG n patterns), ∃ ent ∈ g.2,
        r.canonical_stars = g.1 ∧ r.canonical_forced_empty = ent.1 ∧
        r.occurrences = ent.2.length ∧
        (∀ occ ∈ ent.2, ∀ f ∈ r.constraint_features, getFeatureValue occ f = true) ∧
        (∀ occ ∈ (g.2.filter fun e2 => ! decide (e2.1 = ent.1)).flatMap (fun e2 => e2.2),
          ∃ f ∈ r.constraint_features, getFeatureValue occ f = false))
    ∧ (∀ (n : Nat) (patterns : List (List Point × List Point)) (solutions : List Grid)
        (minOcc : Nat) (r : TRule),
      r ∈ (mineTriple2 n patterns solutions minOcc).2 →
      ∃ g ∈ tripleGroupsOf (step2sample2 n solutions (step1Triples2 n patterns solutions)),
        r.canonical_stars = g.1.1 ∧ r.canonical_candidate = g.1.2 ∧
        r.occurrences = (g.2.filter fun o => o.is_forced).length ∧
        (∀ occ ∈ g.2.filter (fun o => o.is_forced), ∀ f ∈ r.constraint_features,
          getTripleFeatureValue occ f = true) ∧
        (∀ occ ∈ g.2.filter (fun o => ! o.is_forced), ∃ f ∈ r.constraint_features,
          getTripleFeatureValue occ f = false))
    ∧ (∀ (n : Nat) (patterns : List (List Point × List Point)) (solutions : List Grid)
        (minOcc : Nat) (r : TRule),
      r ∈ (mineTripleG n patterns solutions minOcc).2 →
      ∃ g ∈ tripleGroupsOf (step2sampleG n solutions (step1TriplesG n patterns solutions)),
        r.canonical_stars = g.1.1 ∧ r.canonical_candidate = g.1.2 ∧
        r.occurrences = (g.2.filter fun o => o.is_forced).length ∧
        (∀ occ ∈ g.2.filter (fun o => o.is_forced), ∀ f ∈ r.constraint_features,
          getTripleFeatureValue occ f = true) ∧
        (∀ occ ∈ g.2.filter (fun o => ! o.is_forced), ∃ f ∈ r.constraint_features,
          getTripleFeatureValue occ f = false)) := by
  refine ⟨?_, ?_, ?_, ?_⟩
  · intro n patterns minOcc r hr
    exact mineStarGroupsRules_sep 26 (starGroupsOf (step1Occs2 n patterns)) minOcc r hr
  · intro n patterns minOcc r hr
    exact mineStarGroupsRules_sep 20 (starGroupsOf (step1OccsG n patterns)) minOcc r hr
  · intro n patterns solutions minOcc r hr
    exact mineTripleRules_sep 21
      (tripleGroupsOf (step2sample2 n solutions (step1Triples2 n patterns solutions)))
      minOcc r hr
  · intro n patterns solutions minOcc r hr
    exact mineTripleRules_sep 21
      (tripleGroupsOf (step2sampleG n solutions (step1TriplesG n patterns solutions)))
      minOcc r hr

theorem filterMap_eq_filterMap_filter {α β : Type} (f : α → Option β) (q : α → Bool)
    (l : List α) (h : ∀ a ∈ l, q a = false → f a = none) :
    l.filterMap f = (l.filter q).filterMap f := by
  induction l with
  | nil => rfl
  | cons a rest ih =>
    have ht := fun x hx hf => h x (List.mem_cons_of_mem a hx) hf
    cases hq : q a with
    | true =>
      rw [List.filter_cons_of_pos hq, List.filterMap_cons, List.filterMap_cons]
      cases f a with
      | none => exact ih ht
      | some b => rw [ih ht]
    | false =>
      rw [List.filter_cons_of_neg (by simp [hq]), List.filterMap_cons,
        h a (List.mem_cons_self a rest) hq]
      exact ih ht

theorem flatMap_eq_flatMap_filter {α β : Type} (f : α → List β) (q : α → Bool)
    (l : List α) (h : ∀ a ∈ l, q a = false → f a = []) :
    l.flatMap f = (l.filter q).flatMap f := by
  induction l with
  | nil => rfl
  | cons a rest ih =>
    have ht := fun x hx hf => h x (List.mem_cons_of_mem a hx) hf
    cases hq : q a with
    | true =>
      rw [List.filter_cons_of_pos hq, List.flatMap_cons, List.flatMap_cons, ih ht]
    | false =>
      rw [List.filter_cons_of_neg (by simp [hq]), List.flatMap_cons,
        h a (List.mem_cons_self a rest) hq, List.nil_append]
      exact ih ht

theorem foldl_eq_foldl_filter {α β : Type} (step : β → α → β) (q : α → Bool)
    (l : List α) (h : ∀ b, ∀ a ∈ l, q a = false → step b a = b) :
    ∀ acc, l.foldl step acc = (l.filter q).foldl step acc := by
  induction l with
  | nil => intro acc; rfl
  | cons a rest ih =>
    intro acc
    have ht := fun b x hx hf => h b x (List.mem_cons_of_mem a hx) hf
    rw [List.foldl_cons]
    cases hq : q a with
    | true =>
      rw [List.filter_cons_of_pos hq, List.foldl_cons]
      exact ih ht _
    | false =>
      rw [List.filter_cons_of_neg (by simp [hq]), h acc a (List.mem_cons_self a rest) hq]
      exact ih ht _

theorem canonicalize_nil (c : List Point) : canonicalize [] c = none := rfl

theorem canonicalizeStars2_eq_none_iff (l : List Point) :
    canonicalizeStars2 l = none ↔ l.length ≠ 2 := by
  match l with
  | [] => simp [canonicalizeStars2]
  | [a] => simp [canonicalizeStars2]
  | [a, b] =>
    rcases pickMin_spec (cand2 a b) (fun r => encPts r.1) with ⟨r, hfold, -, -, -⟩
    simp only [canonicalizeStars2]
    rw [hfold]
    simp
  | a :: b :: c :: rest => simp [canonicalizeStars2]

theorem canonicalizeTriple2_eq_none_iff (l : List Point) (cand : Point) :
    canonicalizeTriple2 l cand = none ↔ l.length ≠ 2 := by
  match l with
  | [] => simp [canonicalizeTriple2]
  | [a] => simp [canonicalizeTriple2]
  | [a, b] =>
    rcases pickMin_spec (candTriple a b cand) (fun r => encTriple r.1 r.2.1) with
      ⟨r, hfold, -, -, -⟩
    simp only [canonicalizeTriple2]
    rw [hfold]
    simp
  | a :: b :: c :: rest => simp [canonicalizeTriple2]

theorem canonicalizeTripleG_eq_none_iff (l : List Point) (cand : Point) :
    canonicalizeTripleG l cand = none ↔ l = [] := by
  constructor
  · intro h
    by_contra hne
    rcases canonicalize_spec l [cand] hne with ⟨R, he, ⟨t, -, hRt⟩, -⟩
    unfold canonicalizeTripleG at h
    rw [he] at h
    have hc : R.canonicalCells = [((tfAt t cand).1 - minList ((l.map (tfAt t)).map Prod.fst),
        (tfAt t cand).2 - minList ((l.map (tfAt t)).map Prod.snd))] := by
      rw [hRt]
      rfl
    have h2 : (match R.canonicalCells with
        | [c] => some (R.canonicalStars, c, R.transformIndex, R.translation)
        | _ => none) = (none : Option (List Point × Point × Nat × Point)) := h
    rw [hc] at h2
    exact Option.noConfusion h2
  · intro h
    subst h
    rfl

/-- C10: the mining entry points silently skip unsupported star counts rather
than failing: removing zero-star patterns from the input of the generic
`extractPureEntanglements`, `mineConstrainedEntanglements` and
`mineTripleEntanglements`, or patterns whose star count is not exactly two
from the two-star miner variant, leaves each output unchanged — skipped
patterns contribute to no canonical group and to no occurrence count. -/
theorem claim_C10_skipped_patterns_inert :
    (∀ (patterns : List (List Point × List Point)) (minOcc : Nat),
      extractPureG patterns minOcc
        = extractPureG (patterns.filter fun p => ! p.1.isEmpty) minOcc)
    ∧ (∀ (n : Nat) (patterns : List (List Point × List Point)) (minOcc : Nat),
      mineConstrainedG n patterns minOcc
        = mineConstrainedG n (patterns.filter fun p => ! p.1.isEmpty) minOcc)
    ∧ (∀ (n : Nat) (patterns : List (List Point × List Point)) (solutions : List Grid)
        (minOcc : Nat),
      mineTripleG n patterns solutions minOcc
        = mineTripleG n (patterns.filter fun p => ! p.1.isEmpty) solutions minOcc)
    ∧ (∀ (n : Nat) (patterns : List (List Point × List Point)) (minOcc : Nat),
      mineConstrained2 n patterns minOcc
        = mineConstrained2 n (patterns.filter fun p => decide (p.1.length = 2)) minOcc) := by
  have hempty : ∀ (p : List Point × List Point), (! p.1.isEmpty) = false → p.1 = [] := by
    intro p hp
    simp only [Bool.not_eq_false'] at hp
    exact List.isEmpty_iff.mp hp
  refine ⟨?_, ?_, ?_, ?_⟩
  · intro patterns minOcc
    unfold extractPureG
    rw [foldl_eq_foldl_filter _ (fun p => ! p.1.isEmpty) patterns (by
      intro b a ha hf
      rw [hempty a hf, canonicalize_nil])]
  · intro n patterns minOcc
    unfold mineConstrainedG step1OccsG
    rw [filterMap_eq_filterMap_filter _ (fun p => ! p.1.isEmpty) patterns (by
      intro a ha hf
      rw [hempty a hf, canonicalize_nil])]
  · intro n patterns solutions minOcc
    unfold mineTripleG step1TriplesG
    rw [flatMap_eq_flatMap_filter _ (fun p => ! p.1.isEmpty) patterns (by
      intro a ha hf
      rw [List.filterMap_eq_nil_iff]
      intro cand hcand
      rw [(canonicalizeTripleG_eq_none_iff a.1 cand).mpr (hempty a hf)])]
  · intro n patterns minOcc
    unfold mineConstrained2 step1Occs2
    rw [filterMap_eq_filterMap_filter _ (fun p => decide (p.1.length = 2)) patterns (by
      intro a ha hf
      have h2 : a.1.length ≠ 2 := by
        intro he
        simp only [he, decide_eq_false_iff_not] at hf
        exact hf trivial
      rw [(canonicalizeStars2_eq_none_iff a.1).mpr h2])]

/-- C4 counterexample: on the 4×4 one-star board with its two solutions and
the single analyzed pattern (stars (0,1),(1,3), forced-empty (0,3)), the
two-star triple miner reports on the canonical geometry
(stars [(0,0),(1,2)], candidate (0,2)), and the placement with stars
(0,2),(1,0) and candidate (1,2) is a locally valid, realizable absolute
placement of that same geometry (it canonicalizes to it), yet no occurrence
in the step-2 sample has those absolute coordinates: the sampler enumerates
only translations of the canonical representative, not its other D4 images. -/
theorem claim_C4_counterexample :
    (([((0 : Int), (0 : Int)), ((1 : Int), (2 : Int))], ((0 : Int), (2 : Int)))
        ∈ discoveredTriples (step1Triples2 4
            [([((0 : Int), (1 : Int)), ((1 : Int), (3 : Int))], [((0 : Int), (3 : Int))])]
            [[[0, 1, 0, 0], [0, 0, 0, 1], [1, 0, 0, 0], [0, 0, 1, 0]],
             [[0, 0, 1, 0], [1, 0, 0, 0], [0, 0, 0, 1], [0, 1, 0, 0]]]))
    ∧ (canonicalizeTriple2 [((0 : Int), (2 : Int)), ((1 : Int), (0 : Int))]
          ((1 : Int), (2 : Int))).map (fun r => (r.1, r.2.1))
        = some ([(0, 0), (1, 2)], (0, 2))
    ∧ isLocallyValid [(0, 2), (1, 0)] = true
    ∧ ([[[0, 1, 0, 0], [0, 0, 0, 1], [1, 0, 0, 0], [0, 0, 1, 0]],
        [[0, 0, 1, 0], [1, 0, 0, 0], [0, 0, 0, 1], [0, 1, 0, 0]]].any fun sol =>
          isPatternCompatible [(0, 2), (1, 0)] sol) = true
    ∧ ∀ occ ∈ step2sample2 4
        [[[0, 1, 0, 0], [0, 0, 0, 1], [1, 0, 0, 0], [0, 0, 1, 0]],
         [[0, 0, 1, 0], [1, 0, 0, 0], [0, 0, 0, 1], [0, 1, 0, 0]]]
        (step1Triples2 4
          [([((0 : Int), (1 : Int)), ((1 : Int), (3 : Int))], [((0 : Int), (3 : Int))])]
          [[[0, 1, 0, 0], [0, 0, 0, 1], [1, 0, 0, 0], [0, 0, 1, 0]],
           [[0, 0, 1, 0], [1, 0, 0, 0], [0, 0, 0, 1], [0, 1, 0, 0]]]),
        ¬ ((occ.abs_stars = [((0 : Int), (2 : Int)), ((1 : Int), (0 : Int))]
              ∨ occ.abs_stars = [((1 : Int), (0 : Int)), ((0 : Int), (2 : Int))])
            ∧ occ.abs_candidate = ((1 : Int), (2 : Int))) := by
  refine ⟨by decide, by decide, by decide, by decide, by decide⟩

/-- The invariant of the step-2 placement scan: every seen placement is
witnessed by an occurrence (pattern-derived or sampled) with the placement's
canonical geometry and absolute coordinates, whose label is the forced-empty
check at those coordinates. -/
def placeInv (solutions : List Grid) (occs : List TOcc)
    (acc : List ((List Point × Point) × List Point × Point) × List TOcc) : Prop :=
  ∀ pk ∈ acc.1, ∃ occ ∈ occs ++ acc.2,
    occ.canonical_stars = pk.1.1 ∧ occ.canonical_candidate = pk.1.2 ∧
    occ.abs_stars = pk.2.1 ∧ occ.abs_candidate = pk.2.2 ∧
    occ.is_forced = isForcedEmptyPts pk.2.1 pk.2.2 solutions

theorem placeInv_init (solutions : List Grid) (occs : List TOcc)
    (hocc : ∀ occ ∈ occs,
      occ.is_forced = isForcedEmptyPts occ.abs_stars occ.abs_candidate solutions) :
    placeInv solutions occs (seenInit occs, []) := by
  intro pk hpk
  obtain ⟨occ, hoccm, rfl⟩ := List.mem_map.mp hpk
  exact ⟨occ, by rw [List.append_nil]; exact hoccm, rfl, rfl, rfl, rfl, hocc occ hoccm⟩

theorem placeStep2_inv (n : Nat) (solutions : List Grid) (occs : List TOcc)
    (acc : List ((List Point × Point) × List Point × Point) × List TOcc)
    (h : placeInv solutions occs acc) (e : (List Point × Point) × Nat × Nat) :
    placeInv solutions occs (placeStep2 n solutions acc e) := by
  obtain ⟨⟨cs, cc⟩, br, bc⟩ := e
  simp only [placeStep2]
  split
  · exact h
  · split
    · exact h
    · split
      · exact h
      · split
        · exact h
        · intro pk hpk
          rcases List.mem_append.mp hpk with hold | hnew
          · obtain ⟨occ, hm, hp⟩ := h pk hold
            refine ⟨occ, ?_, hp⟩
            rw [← List.append_assoc]
            exact List.mem_append_left _ hm
          · rw [List.mem_singleton] at hnew
            subst hnew
            exact ⟨_, List.mem_append_right _
              (List.mem_append_right _ (List.mem_singleton.mpr rfl)), rfl, rfl, rfl, rfl, rfl⟩

theorem placeStep2_seen_mono (n : Nat) (solutions : List Grid)
    (acc : List ((List Point × Point) × List Point × Point) × List TOcc)
    (e : (List Point × Point) × Nat × Nat)
    (pk : (List Point × Point) × List Point × Point) (hpk : pk ∈ acc.1) :
    pk ∈ (placeStep2 n solutions acc e).1 := by
  obtain ⟨⟨cs, cc⟩, br, bc⟩ := e
  simp only [placeStep2]
  split
  · exact hpk
  · split
    · exact hpk
    · split
      · exact hpk
      · split
        · exact hpk
        · exact List.mem_append_left _ hpk

theorem foldl_place_seen_mono (n : Nat) (solutions : List Grid) :
    ∀ (l : List ((List Point × Point) × Nat × Nat))
      (acc : List ((List Point × Point) × List Point × Point) × List TOcc)
      (pk : (List Point × Point) × List Point × Point), pk ∈ acc.1 →
      pk ∈ (l.foldl (placeStep2 n solutions) acc).1 := by
  intro l
  induction l with
  | nil =>
    intro acc pk hpk
    exact hpk
  | cons e rest ih =>
    intro acc pk hpk
    rw [List.foldl_cons]
    exact ih _ pk (placeStep2_seen_mono n solutions acc e pk hpk)

theorem foldl_place_inv (n : Nat) (solutions : List Grid) (occs : List TOcc) :
    ∀ (l : List ((List Point × Point) × Nat × Nat))
      (acc : List ((List Point × Point) × List Point × Point) × List TOcc),
      placeInv solutions occs acc →
      placeInv solutions occs (l.foldl (placeStep2 n solutions) acc) := by
  intro l
  induction l with
  | nil =>
    intro acc h
    exact h
  | cons e rest ih =>
    intro acc h
    rw [List.foldl_cons]
    exact ih _ (placeStep2_inv n solutions occs acc h e)

theorem placeStep2_adds (n : Nat) (solutions : List Grid)
    (acc : List ((List Point × Point) × List Point × Point) × List TOcc)
    (cs : List Point) (cc : Point) (br bc : Nat)
    (hb : 0 ≤ (br : Int) + (cs.getD 0 (0, 0)).1 ∧ (br : Int) + (cs.getD 0 (0, 0)).1 < (n : Int)
      ∧ 0 ≤ (bc : Int) + (cs.getD 0 (0, 0)).2 ∧ (bc : Int) + (cs.getD 0 (0, 0)).2 < (n : Int)
      ∧ 0 ≤ (br : Int) + (cs.getD 1 (0, 0)).1 ∧ (br : Int) + (cs.getD 1 (0, 0)).1 < (n : Int)
      ∧ 0 ≤ (bc : Int) + (cs.getD 1 (0, 0)).2 ∧ (bc : Int) + (cs.getD 1 (0, 0)).2 < (n : Int)
      ∧ 0 ≤ (br : Int) + cc.1 ∧ (br : Int) + cc.1 < (n : Int)
      ∧ 0 ≤ (bc : Int) + cc.2 ∧ (bc : Int) + cc.2 < (n : Int))
    (ha : ¬ ((((br : Int) + (cs.getD 0 (0, 0)).1) - ((br : Int) + (cs.getD 1 (0, 0)).1)).natAbs ≤ 1
      ∧ (((bc : Int) + (cs.getD 0 (0, 0)).2) - ((bc : Int) + (cs.getD 1 (0, 0)).2)).natAbs ≤ 1))
    (hc : (solutions.any fun sol => isPatternCompatible
        [(((br : Int) + (cs.getD 0 (0, 0)).1).toNat, ((bc : Int) + (cs.getD 0 (0, 0)).2).toNat),
         (((br : Int) + (cs.getD 1 (0, 0)).1).toNat, ((bc : Int) + (cs.getD 1 (0, 0)).2).toNat)]
        sol) = true) :
    ((cs, cc), ([(((br : Int) + (cs.getD 0 (0, 0)).1), ((bc : Int) + (cs.getD 0 (0, 0)).2)),
        (((br : Int) + (cs.getD 1 (0, 0)).1), ((bc : Int) + (cs.getD 1 (0, 0)).2))],
      (((br : Int) + cc.1), ((bc : Int) + cc.2))))
      ∈ (placeStep2 n solutions acc ((cs, cc), br, bc)).1 := by
  simp only [placeStep2]
  rw [if_neg (not_not_intro hb), if_neg ha, if_neg (by
    rw [hc]
    simp)]
  by_cases hseen : ((cs, cc),
      ([(((br : Int) + (cs.getD 0 (0, 0)).1), ((bc : Int) + (cs.getD 0 (0, 0)).2)),
        (((br : Int) + (cs.getD 1 (0, 0)).1), ((bc : Int) + (cs.getD 1 (0, 0)).2))],
      (((br : Int) + cc.1), ((bc : Int) + cc.2)))) ∈ acc.1
  · rw [if_pos hseen]
    exact hseen
  · rw [if_neg hseen]
    exact List.mem_append_right _ (List.mem_singleton.mpr rfl)

theorem foldl_place_adds (n : Nat) (solutions : List Grid)
    (cs : List Point) (cc : Point) (br bc : Nat)
    (hb : 0 ≤ (br : Int) + (cs.getD 0 (0, 0)).1 ∧ (br : Int) + (cs.getD 0 (0, 0)).1 < (n : Int)
      ∧ 0 ≤ (bc : Int) + (cs.getD 0 (0, 0)).2 ∧ (bc : Int) + (cs.getD 0 (0, 0)).2 < (n : Int)
      ∧ 0 ≤ (br : Int) + (cs.getD 1 (0, 0)).1 ∧ (br : Int) + (cs.getD 1 (0, 0)).1 < (n : Int)
      ∧ 0 ≤ (bc : Int) + (cs.getD 1 (0, 0)).2 ∧ (bc : Int) + (cs.getD 1 (0, 0)).2 < (n : Int)
      ∧ 0 ≤ (br : Int) + cc.1 ∧ (br : Int) + cc.1 < (n : Int)
      ∧ 0 ≤ (bc : Int) + cc.2 ∧ (bc : Int) + cc.2 < (n : Int))
    (ha : ¬ ((((br : Int) + (cs.getD 0 (0, 0)).1) - ((br : Int) + (cs.getD 1 (0, 0)).1)).natAbs ≤ 1
      ∧ (((bc : Int) + (cs.getD 0 (0, 0)).2) - ((bc : Int) + (cs.getD 1 (0, 0)).2)).natAbs ≤ 1))
    (hc : (solutions.any fun sol => isPatternCompatible
        [(((br : Int) + (cs.getD 0 (0, 0)).1).toNat, ((bc : Int) + (cs.getD 0 (0, 0)).2).toNat),
         (((br : Int) + (cs.getD 1 (0, 0)).1).toNat, ((bc : Int) + (cs.getD 1 (0, 0)).2).toNat)]
        sol) = true) :
    ∀ (l : List ((List Point × Point) × Nat × Nat))
      (acc : List ((List Point × Point) × List Point × Point) × List TOcc),
      ((cs, cc), br, bc) ∈ l →
      ((cs, cc), ([(((br : Int) + (cs.getD 0 (0, 0)).1), ((bc : Int) + (cs.getD 0 (0, 0)).2)),
          (((br : Int) + (cs.getD 1 (0, 0)).1), ((bc : Int) + (cs.getD 1 (0, 0)).2))],
        (((br : Int) + cc.1), ((bc : Int) + cc.2))))
        ∈ (l.foldl (placeStep2 n solutions) acc).1 := by
  intro l
  induction l with
  | nil =>
    intro acc hmem
    exact absurd hmem (List.not_mem_nil _)
  | cons e rest ih =>
    intro acc hmem
    rw [List.foldl_cons]
    rcases List.mem_cons.mp hmem with he | hm2
    · rw [← he]
      exact foldl_place_seen_mono n solutions rest _ _
        (placeStep2_adds n solutions acc cs cc br bc hb ha hc)
    · exact ih _ hm2

/-- C4 (amended): the step-2 sampler of the two-star triple miner is complete
for translations of the canonical representatives: for every canonical
geometry discovered from the pattern-derived occurrences and every base
translation `(br, bc)` placing it in bounds with non-adjacent stars and at
least one compatible solution, the occurrence sample contains that placement
with its canonical geometry and its forced/flexible label computed by
`isCandidateForcedEmpty`. Other D4 images of a geometry are not enumerated,
as the counterexample shows, and placements already analyzed from patterns
are witnessed by their pattern-derived occurrence. -/
theorem claim_C4_translation_completeness (n : Nat) (solutions : List Grid)
    (occs : List TOcc)
    (hocc : ∀ occ ∈ occs,
      occ.is_forced = isForcedEmptyPts occ.abs_stars occ.abs_candidate solutions)
    (cs : List Point) (cc : Point)
    (htr : (cs, cc) ∈ discoveredTriples occs)
    (br bc : Nat) (hbr : br < n) (hbc : bc < n)
    (hb : 0 ≤ (br : Int) + (cs.getD 0 (0, 0)).1 ∧ (br : Int) + (cs.getD 0 (0, 0)).1 < (n : Int)
      ∧ 0 ≤ (bc : Int) + (cs.getD 0 (0, 0)).2 ∧ (bc : Int) + (cs.getD 0 (0, 0)).2 < (n : Int)
      ∧ 0 ≤ (br : Int) + (cs.getD 1 (0, 0)).1 ∧ (br : Int) + (cs.getD 1 (0, 0)).1 < (n : Int)
      ∧ 0 ≤ (bc : Int) + (cs.getD 1 (0, 0)).2 ∧ (bc : Int) + (cs.getD 1 (0, 0)).2 < (n : Int)
      ∧ 0 ≤ (br : Int) + cc.1 ∧ (br : Int) + cc.1 < (n : Int)
      ∧ 0 ≤ (bc : Int) + cc.2 ∧ (bc : Int) + cc.2 < (n : Int))
    (ha : ¬ ((((br : Int) + (cs.getD 0 (0, 0)).1) - ((br : Int) + (cs.getD 1 (0, 0)).1)).natAbs ≤ 1
      ∧ (((bc : Int) + (cs.getD 0 (0, 0)).2) - ((bc : Int) + (cs.getD 1 (0, 0)).2)).natAbs ≤ 1))
    (hc : (solutions.any fun sol => isPatternCompatible
        [(((br : Int) + (cs.getD 0 (0, 0)).1).toNat, ((bc : Int) + (cs.getD 0 (0, 0)).2).toNat),
         (((br : Int) + (cs.getD 1 (0, 0)).1).toNat, ((bc : Int) + (cs.getD 1 (0, 0)).2).toNat)]
        sol) = true) :
    ∃ occ ∈ step2sample2 n solutions occs,
      occ.canonical_stars = cs ∧ occ.canonical_candidate = cc ∧
      occ.abs_stars = [(((br : Int) + (cs.getD 0 (0, 0)).1), ((bc : Int) + (cs.getD 0 (0, 0)).2)),
        (((br : Int) + (cs.getD 1 (0, 0)).1), ((bc : Int) + (cs.getD 1 (0, 0)).2))] ∧
      occ.abs_candidate = (((br : Int) + cc.1), ((bc : Int) + cc.2)) ∧
      occ.is_forced = isForcedEmptyPts
        [(((br : Int) + (cs.getD 0 (0, 0)).1), ((bc : Int) + (cs.getD 0 (0, 0)).2)),
          (((br : Int) + (cs.getD 1 (0, 0)).1), ((bc : Int) + (cs.getD 1 (0, 0)).2))]
        (((br : Int) + cc.1), ((bc : Int) + cc.2)) solutions := by
  have hmem : ((cs, cc), br, bc) ∈ placementList n (discoveredTriples occs) := by
    apply List.mem_flatMap.mpr
    refine ⟨(cs, cc), htr, ?_⟩
    apply List.mem_flatMap.mpr
    refine ⟨br, List.mem_range.mpr hbr, ?_⟩
    exact List.mem_map.mpr ⟨bc, List.mem_range.mpr hbc, rfl⟩
  have hpk := foldl_place_adds n solutions cs cc br bc hb ha hc
    (placementList n (discoveredTriples occs)) (seenInit occs, []) hmem
  have hinv := foldl_place_inv n solutions occs
    (placementList n (discoveredTriples occs)) (seenInit occs, [])
    (placeInv_init solutions occs hocc)
  obtain ⟨occ, hoccm, h1, h2, h3, h4, h5⟩ := hinv _ hpk
  exact ⟨occ, hoccm, h1, h2, h3, h4, h5⟩

/-- Witness for the amended C4 at the counterexample input: the base
translation (0,1) of the discovered geometry yields the original pattern
placement, which the theorem finds in the sample. -/
theorem claim_C4_witness :
    ∃ occ ∈ step2sample2 4
        [[[0, 1, 0, 0], [0, 0, 0, 1], [1, 0, 0, 0], [0, 0, 1, 0]],
         [[0, 0, 1, 0], [1, 0, 0, 0], [0, 0, 0, 1], [0, 1, 0, 0]]]
        (step1Triples2 4
          [([((0 : Int), (1 : Int)), ((1 : Int), (3 : Int))], [((0 : Int), (3 : Int))])]
          [[[0, 1, 0, 0], [0, 0, 0, 1], [1, 0, 0, 0], [0, 0, 1, 0]],
           [[0, 0, 1, 0], [1, 0, 0, 0], [0, 0, 0, 1], [0, 1, 0, 0]]]),
      occ.canonical_stars = [((0 : Int), (0 : Int)), ((1 : Int), (2 : Int))] ∧
      occ.canonical_candidate = ((0 : Int), (2 : Int)) ∧
      occ.abs_stars = [((0 : Int), (1 : Int)), ((1 : Int), (3 : Int))] ∧
      occ.abs_candidate = ((0 : Int), (3 : Int)) ∧
      occ.is_forced = isForcedEmptyPts [((0 : Int), (1 : Int)), ((1 : Int), (3 : Int))]
        ((0 : Int), (3 : Int))
        [[[0, 1, 0, 0], [0, 0, 0, 1], [1, 0, 0, 0], [0, 0, 1, 0]],
         [[0, 0, 1, 0], [1, 0, 0, 0], [0, 0, 0, 1], [0, 1, 0, 0]]] := by
  exact claim_C4_translation_completeness 4
    [[[0, 1, 0, 0], [0, 0, 0, 1], [1, 0, 0, 0], [0, 0, 1, 0]],
     [[0, 0, 1, 0], [1, 0, 0, 0], [0, 0, 0, 1], [0, 1, 0, 0]]]
    (step1Triples2 4
      [([((0 : Int), (1 : Int)), ((1 : Int), (3 : Int))], [((0 : Int), (3 : Int))])]
      [[[0, 1, 0, 0], [0, 0, 0, 1], [1, 0, 0, 0], [0, 0, 1, 0]],
       [[0, 0, 1, 0], [1, 0, 0, 0], [0, 0, 0, 1], [0, 1, 0, 0]]])
    (by decide)
    [((0 : Int), (0 : Int)), ((1 : Int), (2 : Int))] ((0 : Int), (2 : Int))
    (by decide) 0 1 (by decide) (by decide) (by decide) (by decide) (by decide)
